import Mathlib

/-!
# AU Campus Navigation: shallow embedding of `navigation.cpp`

The development embeds the two classes of `src/navigation.cpp`
(`HistoryManager` and `CampusMap`) as pure Lean functions and proves
properties of the route finder (`CampusMap::findRoute`, a Dijkstra search with
a lexicographically ordered frontier) and of the history log.

Modelling conventions.

* `std::map<int, T>` is an association list ordered by key (`IMap`), with
  `find?` for `map::find` and `insert` for assignment through `operator[]`.
* Reading the local maps `dist` and `parent` with `operator[]` at an absent key
  yields the value-initialised `0`; since these two maps are locals that are
  never iterated nor tested for membership, such a read is `distAt` /
  `parentAt` (lookup with default `0`).  For the member `adj` the insertion
  performed by `operator[]` is tracked (`adjIndex`).
* `int` is a mathematical integer; the one addition of the program
  (`dist[u] + weight`) is wrapped to 32 bits two's complement (`wrap32`).
* `std::priority_queue<pair<int,int>, ..., greater<>>` is a list from which the
  lexicographically least pair is extracted.
* Loops that need not terminate take a fuel argument and return `none` when it
  runs out.
* Text written to `cout` is a list of structured lines (`Line`).
-/

namespace AUNav

/-! ## Ordered association lists (`std::map<int, T>`) -/

/-- An association list standing for `std::map<int, β>`. -/
abbrev IMap (β : Type) := List (Int × β)

namespace IMap

variable {β : Type}

/-- The value stored under a key (`map::find`). -/
def find? : IMap β → Int → Option β
  | [], _ => none
  | (k, b) :: t, x => if k = x then some b else find? t x

/-- Insert or overwrite a binding, keeping the keys in increasing order. -/
def insert : IMap β → Int → β → IMap β
  | [], x, v => [(x, v)]
  | (k, b) :: t, x, v =>
    if x < k then (x, v) :: (k, b) :: t
    else if x = k then (x, v) :: t
    else (k, b) :: insert t x v

/-- The keys of the map, in iteration order. -/
def keys (m : IMap β) : List Int := m.map Prod.fst

end IMap

/-! ## History -/

/-- The constant `INF = numeric_limits<int>::max()`. -/
def INF : Int := 2147483647

/-- One entry of the full history (`struct RouteRecord`). -/
structure RouteRecord where
  from_ : String
  to_ : String
  distance : Int
deriving DecidableEq

/-- The class `HistoryManager`: `recentSearches` is a stack (top first),
`fullHistory` a vector in `push_back` order. -/
structure HistoryManager where
  recentSearches : List String
  fullHistory : List RouteRecord
deriving DecidableEq

namespace HistoryManager

/-- A freshly constructed history. -/
def empty : HistoryManager := ⟨[], []⟩

/-- The method `HistoryManager::addEntry`. -/
def addEntry (h : HistoryManager) (startName endName : String) (dist : Int) :
    HistoryManager :=
  let entry := startName ++ " -> " ++ endName
  { recentSearches := entry :: h.recentSearches,
    fullHistory := h.fullHistory ++ [⟨startName, endName, dist⟩] }

/-- The loop of `showRecent`: numbered entries, while the copy of the stack is
non-empty and `count <= 5`. -/
def showRecentLoop : List String → Nat → List (Nat × String)
  | [], _ => []
  | top :: rest, count =>
    if count ≤ 5 then (count, top) :: showRecentLoop rest (count + 1) else []

/-- The numbered entries `showRecent` prints (none when the stack is empty, in
which case the "no recent searches" notice is printed instead). -/
def showRecent (h : HistoryManager) : List (Nat × String) :=
  showRecentLoop h.recentSearches 1

/-- The records `showFullLog` prints, in order (none when the log is empty, in
which case the "history log is empty" notice is printed instead). -/
def showFullLog (h : HistoryManager) : List RouteRecord :=
  h.fullHistory

end HistoryManager

/-! ## The campus map -/

/-- The adjacency structure `map<int, vector<pair<int,int>>>`. -/
abbrev AdjMap := IMap (List (Int × Int))

/-- The class `CampusMap`. -/
structure CampusMap where
  adj : AdjMap
  locationNames : IMap String
  history : HistoryManager
deriving DecidableEq

/-- Indexing `adj[u]`: the row of `u`, and the map afterwards (an absent key is
inserted with an empty row). -/
def adjIndex (adj : AdjMap) (u : Int) : List (Int × Int) × AdjMap :=
  match adj.find? u with
  | some row => (row, adj)
  | none => ([], adj.insert u [])

/-- The statement `adj[u].push_back(x)`. -/
def pushBack (adj : AdjMap) (u : Int) (x : Int × Int) : AdjMap :=
  let r := adjIndex adj u
  r.2.insert u (r.1 ++ [x])

namespace CampusMap

/-- A freshly constructed map. -/
def empty : CampusMap := ⟨[], [], HistoryManager.empty⟩

/-- The method `CampusMap::setLocationName`. -/
def setLocationName (cm : CampusMap) (id : Int) (name : String) : CampusMap :=
  { cm with locationNames := cm.locationNames.insert id name }

/-- The method `CampusMap::getLocationName`. -/
def getLocationName (cm : CampusMap) (id : Int) : String :=
  match cm.locationNames.find? id with
  | some name => name
  | none => "Path/Turn"

/-- The method `CampusMap::addEdge`. -/
def addEdge (cm : CampusMap) (u v weight : Int) : CampusMap :=
  { cm with adj := pushBack (pushBack cm.adj u (v, weight)) v (u, weight) }

/-- The method `CampusMap::addMultiEntryDept`. -/
def addMultiEntryDept (cm : CampusMap) (masterId : Int) (name : String)
    (entrances : List Int) (internalDist : Int := 0) : CampusMap :=
  entrances.foldl (fun c ent => c.addEdge masterId ent internalDist)
    (cm.setLocationName masterId name)

end CampusMap

/-! ## The route finder -/

/-- 32-bit two's complement wrap-around of an integer. -/
def wrap32 (x : Int) : Int := (x + 2147483648) % 4294967296 - 2147483648

/-- The local state of the main loop of `findRoute` (together with `adj`,
which `adj[u]` may extend). -/
structure DState where
  adj : AdjMap
  dist : IMap Int
  parent : IMap Int
  pq : List (Int × Int)
deriving DecidableEq

/-- Reading `dist[x]`. -/
def distAt (dist : IMap Int) (x : Int) : Int := (dist.find? x).getD 0

/-- Reading `parent[x]`. -/
def parentAt (parent : IMap Int) (x : Int) : Int := (parent.find? x).getD 0

/-- The loop `for (auto const& [node, neighbors] : adj) dist[node] = INF;`. -/
def initDist (adj : AdjMap) : IMap Int :=
  adj.foldl (fun d kv => d.insert kv.1 INF) []

/-- The order `operator<` of `std::pair<int,int>`. -/
def pairLt (a b : Int × Int) : Bool :=
  decide (a.1 < b.1) || (decide (a.1 = b.1) && decide (a.2 < b.2))

/-- The element `pq.top()` of the min-queue: the least pair. -/
def pqTop : List (Int × Int) → Option (Int × Int)
  | [] => none
  | x :: t =>
    match pqTop t with
    | none => some x
    | some m => if pairLt m x then some m else some x

/-- One pass of the body of `for (auto neighbor : adj[u])`. -/
def relaxEdge (u : Int) (s : DState) (neighbor : Int × Int) : DState :=
  let v := neighbor.1
  let weight := neighbor.2
  let cand := wrap32 (distAt s.dist u + weight)
  if cand < distAt s.dist v then
    { s with dist := s.dist.insert v cand,
             parent := s.parent.insert v u,
             pq := (cand, v) :: s.pq }
  else s

/-- The result of one iteration of the main loop: the loop is left (`done`) or
goes round again (`cont`). -/
inductive Step where
  | done (s : DState)
  | cont (s : DState)
deriving DecidableEq

/-- One iteration of `while (!pq.empty())`. -/
def iterate (end_ : Int) (s : DState) : Step :=
  match pqTop s.pq with
  | none => .done s
  | some top =>
    let s1 : DState := { s with pq := s.pq.erase top }
    if top.1 > distAt s1.dist top.2 then .cont s1
    else if top.2 = end_ then .done s1
    else
      let r := adjIndex s1.adj top.2
      .cont (r.1.foldl (relaxEdge top.2) { s1 with adj := r.2 })

/-- The main loop, at most `fuel` iterations. -/
def mainLoop (end_ : Int) : Nat → DState → Option DState
  | 0, _ => none
  | fuel + 1, s =>
    match iterate end_ s with
    | .done s1 => some s1
    | .cont s1 => mainLoop end_ fuel s1

/-- The loop `for (int v = end; v != start; v = parent[v]) path.push_back(v);`,
at most `fuel` iterations. -/
def walkBack (parent : IMap Int) (start : Int) : Nat → Int → List Int → Option (List Int)
  | 0, v, path => if v = start then some path else none
  | fuel + 1, v, path =>
    if v = start then some path
    else walkBack parent start fuel (parentAt parent v) (path ++ [v])

/-- A line of the itinerary written to `cout`. -/
inductive Line where
  | arrived (id : Int) (name : String)
  | named (id : Int) (name : String)
  | walkway (id : Int)
  | weight (d : Int)
deriving DecidableEq

/-- The scan `for (auto n : adj[id]) if (n.first == next) d = n.second;`
starting from `d`. -/
def scanWeight (row : List (Int × Int)) (next : Int) (d : Int) : Int :=
  row.foldl (fun d n => if n.1 = next then n.2 else d) d

/-- The value of `path.size() - k` in `size_t` arithmetic. -/
def sizeMinus (size k : Nat) : Nat := (size + 18446744073709551616 - k) % 18446744073709551616

/-- The body of the rendering loop at index `i`. -/
def renderStep (cm : CampusMap) (path : List Int) (acc : AdjMap × List Line) (i : Nat) :
    AdjMap × List Line :=
  let id := path.getD i 0
  let name := cm.getLocationName id
  let r := if i < sizeMinus path.length 1 then adjIndex acc.1 id else ([], acc.1)
  let d := if i < sizeMinus path.length 1 then scanWeight r.1 (path.getD (i + 1) 0) 0 else 0
  if i = sizeMinus path.length 2 then
    (r.2, acc.2 ++ [Line.arrived id (cm.getLocationName (path.getD (i + 1) 0))])
  else if i = sizeMinus path.length 1 then (r.2, acc.2)
  else
    let l1 := if name ≠ "Path/Turn" then Line.named id name else Line.walkway id
    let l2 := if i < sizeMinus path.length 1 then [Line.weight d] else []
    (r.2, acc.2 ++ [l1] ++ l2)

/-- The rendering loop `for (size_t i = 0; i < path.size(); i++)`. -/
def render (cm : CampusMap) (path : List Int) : AdjMap × List Line :=
  (List.range path.length).foldl (renderStep cm path) (cm.adj, [])

/-- The state in which `findRoute` enters its main loop. -/
def initState (g : AdjMap) (start : Int) : DState :=
  ⟨g, (initDist g).insert start 0, [], [(0, start)]⟩

/-- What a call of `findRoute` reports. -/
inductive Outcome where
  | invalidNode
  | noPath
  | found (total : Int) (path : List Int) (lines : List Line)
deriving DecidableEq

/-- The method `CampusMap::findRoute`: the outcome and the map afterwards, or
`none` when one of its loops needs more than `fuel` iterations. -/
def findRoute (fuel : Nat) (cm : CampusMap) (start end_ : Int) :
    Option (Outcome × CampusMap) :=
  if cm.adj.find? start = none ∨ cm.adj.find? end_ = none then
    some (.invalidNode, cm)
  else
    match mainLoop end_ fuel (initState cm.adj start) with
    | none => none
    | some s =>
      if distAt s.dist end_ = INF then some (.noPath, { cm with adj := s.adj })
      else
        match walkBack s.parent start fuel end_ [] with
        | none => none
        | some p =>
          let path := (p ++ [start]).reverse
          let cm1 : CampusMap := { cm with adj := s.adj }
          let r := render cm1 path
          let cm2 : CampusMap := { cm1 with adj := r.1 }
          let total := distAt s.dist end_
          some (.found total path r.2,
            { cm2 with history :=
                cm2.history.addEntry (cm2.getLocationName start) (cm2.getLocationName end_) total })

/-- The method `CampusMap::viewHistory`: what `showRecent` and `showFullLog`
list. -/
def viewHistory (cm : CampusMap) : List (Nat × String) × List RouteRecord :=
  (cm.history.showRecent, cm.history.showFullLog)

/-! ## Building a map -/

/-- A call that populates the map. -/
inductive BuildOp where
  | setLocationName (id : Int) (name : String)
  | addEdge (u v weight : Int)
  | addMultiEntryDept (masterId : Int) (name : String) (entrances : List Int)
      (internalDist : Int)
deriving DecidableEq

/-- Performing one populating call. -/
def applyOp (cm : CampusMap) : BuildOp → CampusMap
  | .setLocationName id name => cm.setLocationName id name
  | .addEdge u v w => cm.addEdge u v w
  | .addMultiEntryDept m name ents d => cm.addMultiEntryDept m name ents d

/-- The map after a sequence of populating calls on a fresh `CampusMap`. -/
def build (ops : List BuildOp) : CampusMap := ops.foldl applyOp CampusMap.empty

/-- The graph of the concrete scenario: edges (1,2,20), (2,3,20), (3,4,60), (1,41,30). -/
def scenarioOps : List BuildOp :=
  [.addEdge 1 2 20, .addEdge 2 3 20, .addEdge 3 4 60, .addEdge 1 41 30]

end AUNav

namespace AUNav

/-! ## Specification vocabulary -/

/-- The row stored for `u` in the adjacency map, empty when `u` is not a key. -/
def neighbors (adj : AdjMap) (u : Int) : List (Int × Int) := (adj.find? u).getD []

/-- The edges `(u, v, w)` a populating call inserts. -/
def opEdges : BuildOp → List (Int × Int × Int)
  | .setLocationName _ _ => []
  | .addEdge u v w => [(u, v, w)]
  | .addMultiEntryDept m _ ents d => ents.map (fun e => (m, e, d))

/-- All edges inserted by a sequence of populating calls. -/
def insertedEdges (ops : List BuildOp) : List (Int × Int × Int) := ops.flatMap opEdges

/-- The nodes that are an endpoint of an inserted edge. -/
def endpoints (ops : List BuildOp) : List Int :=
  (insertedEdges ops).flatMap (fun e => [e.1, e.2.1])

/-- All weights inserted by a sequence of populating calls, one per edge. -/
def insertedWeights (ops : List BuildOp) : List Int := (insertedEdges ops).map (fun e => e.2.2)

/-- A walk in the graph from `s`, given by its steps `(next node, weight)`:
every step is an entry of the row of the node it leaves. -/
def IsWalk (g : AdjMap) : Int → List (Int × Int) → Prop
  | _, [] => True
  | s, e :: rest => e ∈ neighbors g s ∧ IsWalk g e.1 rest

instance instDecidableIsWalk (g : AdjMap) : ∀ (s : Int) (p : List (Int × Int)), Decidable (IsWalk g s p)
  | _, [] => isTrue trivial
  | s, e :: rest =>
    match (inferInstance : Decidable (e ∈ neighbors g s)), instDecidableIsWalk g e.1 rest with
    | isTrue h1, isTrue h2 => isTrue ⟨h1, h2⟩
    | isFalse h1, _ => isFalse (fun h => h1 h.1)
    | _, isFalse h2 => isFalse (fun h => h2 h.2)

/-- The node a walk from `s` ends in. -/
def walkEnd : Int → List (Int × Int) → Int
  | s, [] => s
  | _, e :: rest => walkEnd e.1 rest

/-- The summed edge weights of a walk. -/
def walkLen (p : List (Int × Int)) : Int := (p.map Prod.snd).sum

/-- The nodes a walk from `s` visits, in order. -/
def walkNodes (s : Int) (p : List (Int × Int)) : List Int := s :: p.map Prod.fst

/-- Node `t` can be reached from `s` along edges of the graph. -/
def Reach (g : AdjMap) (s t : Int) : Prop := ∃ p, IsWalk g s p ∧ walkEnd s p = t

/-- A simple path from `s` to `t`: a walk that visits no node twice. -/
def IsSimplePath (g : AdjMap) (s t : Int) (p : List (Int × Int)) : Prop :=
  IsWalk g s p ∧ walkEnd s p = t ∧ (walkNodes s p).Nodup

/-- Every neighbour stored in a row is itself a key of the map. -/
def NbrsAreKeys (g : AdjMap) : Prop :=
  ∀ u, ∀ e ∈ neighbors g u, e.1 ∈ IMap.keys g

/-! ## Proof vocabulary for the main loop -/

/-- A termination potential: every recorded distance of a key, shifted to be
non-negative. -/
def potential (g : AdjMap) (dist : IMap Int) : Nat :=
  ((IMap.keys g).map (fun k => (distAt dist k + 2147483648).toNat)).sum

/-- The quantity that decreases with every iteration of the main loop. -/
def loopMeasure (g : AdjMap) (s : DState) : Nat :=
  2 * potential g s.dist + s.pq.length

/-- Facts that hold throughout the main loop whatever the weights are. -/
structure GInv (g : AdjMap) (start : Int) (s : DState) : Prop where
  adj_eq : s.adj = g
  pq_ok : ∀ e ∈ s.pq, e.2 ∈ IMap.keys g ∧ Reach g start e.2 ∧ distAt s.dist e.2 < INF
  range : ∀ x, -2147483648 ≤ distAt s.dist x ∧ distAt s.dist x ≤ INF
  fin_ok : ∀ x ∈ IMap.keys g, distAt s.dist x < INF →
    Reach g start x ∧ (x ≠ start → ∃ u, s.parent.find? x = some u)
  parent_ok : ∀ v u, s.parent.find? v = some u → u ∈ IMap.keys g ∧ distAt s.dist u < INF

/-! ## Runs of the program -/

/-- A call on the map, from the set-up code or the menu loop of `main`. -/
inductive Call where
  | populate (op : BuildOp)
  | findRoute (start end_ : Int)
  | viewHistory
deriving DecidableEq

/-- What one `findRoute` call of a run did: the names of its two endpoints at
the time of the call, and its outcome. -/
structure QueryLog where
  fromName : String
  toName : String
  outcome : Outcome
deriving DecidableEq

/-- Performing a sequence of calls, every `findRoute` with the given fuel: the
map afterwards and the log of the `findRoute` calls in order, or `none` when a
call runs out of fuel. -/
def runCalls (fuel : Nat) : CampusMap → List Call → Option (CampusMap × List QueryLog)
  | cm, [] => some (cm, [])
  | cm, .populate op :: rest => runCalls fuel (applyOp cm op) rest
  | cm, .viewHistory :: rest => runCalls fuel cm rest
  | cm, .findRoute start end_ :: rest =>
    match findRoute fuel cm start end_ with
    | none => none
    | some r =>
      match runCalls fuel r.2 rest with
      | none => none
      | some r2 =>
        some (r2.1, ⟨cm.getLocationName start, cm.getLocationName end_, r.1⟩ :: r2.2)

/-- The record a logged query must have left in the full history, if it
succeeded. -/
def successRecord (q : QueryLog) : Option RouteRecord :=
  match q.outcome with
  | .found total _ _ => some ⟨q.fromName, q.toName, total⟩
  | _ => none

/-- The entry a logged query must have pushed on the recent stack, if it
succeeded. -/
def successEntry (q : QueryLog) : Option String :=
  match q.outcome with
  | .found _ _ _ => some (q.fromName ++ " -> " ++ q.toName)
  | _ => none

/-- The number of successful queries of a log. -/
def successCount (log : List QueryLog) : Nat := (log.filterMap successRecord).length

/-! ## Proof vocabulary for weights -/

/-- The summed weights of a row. -/
def rowSum (l : List (Int × Int)) : Int := (l.map Prod.snd).sum

/-- The summed weights of all rows of the adjacency map. -/
def totalWeight (g : AdjMap) : Int :=
  Finset.sum (IMap.keys g).toFinset (fun k => rowSum (neighbors g k))

/-- No stored weight is negative. -/
def NonnegWeights (g : AdjMap) : Prop := ∀ u, ∀ e ∈ neighbors g u, 0 ≤ e.2

/-- The nodes a walk leaves, in order. -/
def walkSources : Int → List (Int × Int) → List Int
  | _, [] => []
  | s, e :: rest => s :: walkSources e.1 rest

/-! ## Proof vocabulary for non-negative weights -/

/-- The least element of a list of weights (`0` for the empty list). -/
def minWeight : List Int → Int
  | [] => 0
  | [w] => w
  | w :: w2 :: ws => min w (minWeight (w2 :: ws))

/-- The lightest weight of an edge from `a` to `b` in the row of `a`. -/
def lightest (g : AdjMap) (a b : Int) : Int :=
  minWeight (((neighbors g a).filter (fun e => decide (e.1 = b))).map Prod.snd)

/-- The sum, over the consecutive pairs of a node sequence, of the lightest
edge weight between the two nodes. -/
def pathCost (g : AdjMap) : List Int → Int
  | a :: b :: rest => lightest g a b + pathCost g (b :: rest)
  | _ => 0

/-- A graph on which the route finder computes shortest paths: stored
neighbours are keys, no weight is negative, and all stored weights together
stay below `INF`. -/
structure GoodGraph (g : AdjMap) : Prop where
  nbrs : NbrsAreKeys g
  nonneg : NonnegWeights g
  bounded : totalWeight g < INF

/-- The chain of recorded predecessors from `start` to a node: the list of
nodes from `start` to that node in which each node is the recorded predecessor
of the next, all nodes but the last being in `S`. -/
inductive SChain (parent : IMap Int) (start : Int) (S : Int → Prop) : Int → List Int → Prop
  | base : SChain parent start S start [start]
  | step (u v : Int) (l : List Int) : v ≠ start → parent.find? v = some u → S u →
      SChain parent start S u l → SChain parent start S v (l ++ [v])

/-- The rows whose edges are required to be relaxed: all of them, except that
for the node `u` being expanded only the part `seen` so far. -/
def closedRows (g : AdjMap) (u : Int) (seen : List (Int × Int)) : Int → List (Int × Int) :=
  fun x => if x = u then seen else neighbors g x

/-- The invariant of the main loop for a good graph.  `S` is the set of nodes
that have been expanded, `C` the rows that are relaxed, `lo` the level of the
frontier. -/
structure NInv (g : AdjMap) (start : Int) (S : Int → Prop) (C : Int → List (Int × Int))
    (lo : Int) (s : DState) : Prop where
  dist_start : distAt s.dist start = 0
  dist_nonneg : ∀ x, 0 ≤ distAt s.dist x
  pq_ge : ∀ e ∈ s.pq, distAt s.dist e.2 ≤ e.1 ∧ lo ≤ e.1
  frontier : ∀ x ∈ IMap.keys g, distAt s.dist x < INF → S x ∨ (distAt s.dist x, x) ∈ s.pq
  settled : ∀ x, S x → x ∈ IMap.keys g ∧ distAt s.dist x < INF ∧ distAt s.dist x ≤ lo ∧
    ∀ p, IsWalk g start p → walkEnd start p = x → distAt s.dist x ≤ walkLen p
  closed : ∀ x, S x → ∀ e ∈ C x, distAt s.dist e.1 ≤ distAt s.dist x + e.2
  chain : ∀ x ∈ IMap.keys g, distAt s.dist x < INF → ∃ l, SChain s.parent start S x l
  parent_edge : ∀ v u, s.parent.find? v = some u →
    v ≠ u ∧ S u ∧ ∃ w, (v, w) ∈ neighbors g u ∧ distAt s.dist v = distAt s.dist u + w

/-! ## The itinerary -/

/-- The line of a generic waypoint step. -/
def waypointLine (cm : CampusMap) (id : Int) : Line :=
  if cm.getLocationName id ≠ "Path/Turn" then .named id (cm.getLocationName id)
  else .walkway id

/-- The itinerary of a path as the specification describes it. -/
def itinerary (cm : CampusMap) : List Int → List Line
  | a :: b :: c :: rest =>
    waypointLine cm a :: .weight (scanWeight (neighbors cm.adj a) b 0) ::
      itinerary cm (b :: c :: rest)
  | [a, b] => [.arrived a (cm.getLocationName b)]
  | _ => []

/-- The node a step line is printed for (`none` for a weight annotation). -/
def Line.stepId : Line → Option Int
  | .arrived id _ => some id
  | .named id _ => some id
  | .walkway id => some id
  | .weight _ => none

/-- The weight a line annotates (`none` for a step line). -/
def Line.weightOf : Line → Option Int
  | .weight d => some d
  | _ => none

/-- Whether a line is an arrival line. -/
def Line.isArrival : Line → Bool
  | .arrived _ _ => true
  | _ => false

/-- The weight looked up for each consecutive pair of a path: the result of
scanning the row of the earlier node for the later node. -/
def pairWeights (adj : AdjMap) : List Int → List Int
  | a :: b :: rest => scanWeight (neighbors adj a) b 0 :: pairWeights adj (b :: rest)
  | _ => []

/-! ## Names and looked-up weights -/

/-- The name a populating call registers for `id`, if it registers one. -/
def opName (id : Int) : BuildOp → Option String
  | .setLocationName i name => if i = id then some name else none
  | .addEdge _ _ _ => none
  | .addMultiEntryDept m name _ _ => if m = id then some name else none

/-- The names registered for `id` by a sequence of populating calls, in order. -/
def registeredNames (ops : List BuildOp) (id : Int) : List String :=
  ops.filterMap (opName id)

/-- The weight of the last entry for `next` in a row, `d` when there is none. -/
def lastEntryWeight (row : List (Int × Int)) (next : Int) (d : Int) : Int :=
  (((row.filter (fun e => decide (e.1 = next))).getLast?).map Prod.snd).getD d

/-! ## Extending the loop invariant -/

/-- The property kept by the main loop on a good graph, together with an
additional property `X` of the set of expanded nodes and the state. -/
def ExtInv (g : AdjMap) (start : Int) (X : (Int → Prop) → DState → Prop) (s : DState) : Prop :=
  GInv g start s ∧ ∃ S lo, NInv g start S (neighbors g) lo s ∧ X S s

/-- What has to be shown of an additional property `X` for the main loop to
keep it: it does not depend on `adj`, and it survives dropping a stale entry,
taking a fresh entry (whose node then counts as expanded) and one relaxation. -/
structure ExtStep (g : AdjMap) (start : Int) (X : (Int → Prop) → DState → Prop) : Prop where
  adj : ∀ S s a, X S s → X S { s with adj := a }
  stale : ∀ S lo s top, GInv g start s → NInv g start S (neighbors g) lo s → X S s →
    pqTop s.pq = some top → distAt s.dist top.2 < top.1 →
    X S { s with pq := s.pq.erase top }
  pop : ∀ S lo s top, GInv g start s → NInv g start S (neighbors g) lo s → X S s →
    pqTop s.pq = some top → top.1 ≤ distAt s.dist top.2 →
    X (fun x => S x ∨ x = top.2) { s with pq := s.pq.erase top }
  relax : ∀ S u seen s e, NInv g start S (closedRows g u seen) (distAt s.dist u) s → X S s →
    S u → e ∈ neighbors g u → X S (relaxEdge u s e)

/-! ## Proof vocabulary for the predecessor walk -/

/-- No predecessor is recorded for `start`. -/
def StartRoot (start : Int) : (Int → Prop) → DState → Prop :=
  fun _ s => s.parent.find? start = none

/-- The additional property that always holds. -/
def NoExtra : (Int → Prop) → DState → Prop := fun _ _ => True

/-! ## The main loop run to exhaustion -/

/-- The variant of one iteration of the main loop without the line
`if (u == end) break;` (spec-side: "running to exhaustion"). -/
def iterateExhaust (s : DState) : Step :=
  match pqTop s.pq with
  | none => .done s
  | some top =>
    let s1 : DState := { s with pq := s.pq.erase top }
    if top.1 > distAt s1.dist top.2 then .cont s1
    else
      let r := adjIndex s1.adj top.2
      .cont (r.1.foldl (relaxEdge top.2) { s1 with adj := r.2 })

/-- The variant of the main loop that runs until the frontier is empty, at most
`fuel` iterations. -/
def mainLoopExhaust : Nat → DState → Option DState
  | 0, _ => none
  | fuel + 1, s =>
    match iterateExhaust s with
    | .done s1 => some s1
    | .cont s1 => mainLoopExhaust fuel s1

/-- The method `findRoute` with the exhaustive variant of the main loop in
place of the one with the early exit. -/
def findRouteExhaust (fuel : Nat) (cm : CampusMap) (start end_ : Int) :
    Option (Outcome × CampusMap) :=
  if cm.adj.find? start = none ∨ cm.adj.find? end_ = none then
    some (.invalidNode, cm)
  else
    match mainLoopExhaust fuel (initState cm.adj start) with
    | none => none
    | some s =>
      if distAt s.dist end_ = INF then some (.noPath, { cm with adj := s.adj })
      else
        match walkBack s.parent start fuel end_ [] with
        | none => none
        | some p =>
          let path := (p ++ [start]).reverse
          let cm1 : CampusMap := { cm with adj := s.adj }
          let r := render cm1 path
          let cm2 : CampusMap := { cm1 with adj := r.1 }
          let total := distAt s.dist end_
          some (.found total path r.2,
            { cm2 with history :=
                cm2.history.addEntry (cm2.getLocationName start) (cm2.getLocationName end_) total })

/-- The recorded distance and predecessor of every node of `F` are those given
by `d0` and `p0`. -/
def Frozen (F : Int → Prop) (d0 : Int → Int) (p0 : Int → Option Int) :
    (Int → Prop) → DState → Prop :=
  fun _ s => ∀ x, F x → distAt s.dist x = d0 x ∧ s.parent.find? x = p0 x

/-! ## Proof vocabulary for the tie-breaking -/

/-- The four edges of the tie example, inserted in the order listed: both
`1, 2, 4` and `1, 3, 4` have length 20. -/
def tieOps : List BuildOp :=
  [.addEdge 1 2 10, .addEdge 1 3 10, .addEdge 2 4 10, .addEdge 3 4 10]

/-- Every stored weight is strictly positive. -/
def PosWeights (g : AdjMap) : Prop := ∀ u, ∀ e ∈ neighbors g u, 0 < e.2

/-- The additional property behind the tie-breaking: no frontier entry is
below the pair of an expanded node, and no expanded node that reaches `v` at
`dist[v]` or less has a pair below that of the recorded predecessor of `v`. -/
def TieInv (g : AdjMap) : (Int → Prop) → DState → Prop :=
  fun S s =>
    (∀ x, S x → ∀ e ∈ s.pq, pairLt e (distAt s.dist x, x) = false) ∧
    (∀ v u, s.parent.find? v = some u → ∀ u1 w1, S u1 → (v, w1) ∈ neighbors g u1 →
      distAt s.dist u1 + w1 ≤ distAt s.dist v →
      pairLt (distAt s.dist u1, u1) (distAt s.dist u, u) = false)

/-- What is known of the state `r` in which the main loop ends with
`dist[end] < INF`: `S` is the set of expanded nodes and `pq` the frontier that
is left. -/
structure Settled (g : AdjMap) (start end_ : Int) (S : Int → Prop) (pq : List (Int × Int))
    (r : DState) : Prop where
  fin : ∀ x, S x ∨ x = end_ → x ∈ IMap.keys g ∧ distAt r.dist x < INF ∧
    (∀ p, IsWalk g start p → walkEnd start p = x → distAt r.dist x ≤ walkLen p) ∧
    (∀ e ∈ pq, distAt r.dist x ≤ e.1)
  attained : ∀ x, S x ∨ x = end_ →
    ∃ p, IsWalk g start p ∧ walkEnd start p = x ∧ walkLen p = distAt r.dist x
  front : ∀ p, IsWalk g start p → (∃ e ∈ pq, e.1 ≤ walkLen p) ∨
    (S (walkEnd start p) ∧ distAt r.dist (walkEnd start p) ≤ walkLen p)
  frontier : ∀ x ∈ IMap.keys g, distAt r.dist x < INF → S x ∨ (distAt r.dist x, x) ∈ pq
  edge : ∀ v u, r.parent.find? v = some u →
    S u ∧ ∃ w, (v, w) ∈ neighbors g u ∧ distAt r.dist v = distAt r.dist u + w
  least : ∀ v u, r.parent.find? v = some u → ∀ u1 w1, S u1 → (v, w1) ∈ neighbors g u1 →
    distAt r.dist u1 + w1 ≤ distAt r.dist v →
    pairLt (distAt r.dist u1, u1) (distAt r.dist u, u) = false

/-! ## Lemmas on association lists -/

namespace IMap

variable {β : Type}

theorem find?_insert (m : IMap β) (k : Int) (v : β) (x : Int) :
    find? (insert m k v) x = if x = k then some v else find? m x := by
  induction m with
  | nil =>
    by_cases h : x = k
    · simp [insert, find?, h]
    · have h2 : ¬ k = x := fun e => h e.symm
      simp [insert, find?, h, h2]
  | cons a t ih =>
    obtain ⟨k0, b⟩ := a
    unfold insert
    by_cases h1 : k < k0
    · simp only [h1, if_true]
      by_cases h : x = k
      · simp [find?, h]
      · have h2 : ¬ k = x := fun e => h e.symm
        simp [find?, h, h2]
    · simp only [h1, if_false]
      by_cases h3 : k = k0
      · subst h3
        simp only [if_true]
        by_cases h : x = k
        · simp [find?, h]
        · have h2 : ¬ k = x := fun e => h e.symm
          simp [find?, h, h2]
      · simp only [h3, if_false]
        by_cases h : x = k
        · subst h
          have h4 : ¬ k0 = x := fun e => h3 e.symm
          simp [find?, h4, ih]
        · simp only [find?, ih, h, if_false]

theorem find?_eq_none_iff (m : IMap β) (x : Int) :
    find? m x = none ↔ x ∉ keys m := by
  induction m with
  | nil => simp [find?, keys]
  | cons a t ih =>
    obtain ⟨k0, b⟩ := a
    by_cases h : k0 = x
    · simp [find?, keys, h]
    · have h2 : ¬ x = k0 := fun e => h e.symm
      simp only [find?, h, if_false, ih, keys, List.map_cons, List.mem_cons, h2, false_or]

theorem mem_keys_iff (m : IMap β) (x : Int) :
    x ∈ keys m ↔ ∃ b, find? m x = some b := by
  have h := find?_eq_none_iff m x
  cases hf : find? m x with
  | none => simp [hf] at h; simp [h]
  | some b => simp [hf] at h; simp [h]

theorem mem_keys_insert (m : IMap β) (k : Int) (v : β) (x : Int) :
    x ∈ keys (insert m k v) ↔ x = k ∨ x ∈ keys m := by
  rw [mem_keys_iff, mem_keys_iff, find?_insert]
  by_cases h : x = k
  · simp [h]
  · simp [h]

end IMap

theorem neighbors_insert (adj : AdjMap) (k : Int) (row : List (Int × Int)) (x : Int) :
    neighbors (adj.insert k row) x = if x = k then row else neighbors adj x := by
  unfold neighbors
  rw [IMap.find?_insert]
  by_cases h : x = k <;> simp [h]

theorem adjIndex_fst (adj : AdjMap) (u : Int) : (adjIndex adj u).1 = neighbors adj u := by
  unfold adjIndex neighbors
  cases h : adj.find? u <;> simp

theorem neighbors_adjIndex (adj : AdjMap) (u x : Int) :
    neighbors (adjIndex adj u).2 x = neighbors adj x := by
  unfold adjIndex
  cases h : adj.find? u with
  | some row => simp
  | none =>
    simp only [neighbors_insert]
    by_cases hx : x = u
    · subst hx; simp [neighbors, h]
    · simp [hx]

theorem mem_keys_adjIndex (adj : AdjMap) (u x : Int) :
    x ∈ IMap.keys (adjIndex adj u).2 ↔ x = u ∨ x ∈ IMap.keys adj := by
  unfold adjIndex
  cases h : adj.find? u with
  | some row =>
    have hu : u ∈ IMap.keys adj := (IMap.mem_keys_iff adj u).2 ⟨row, h⟩
    constructor
    · intro hx; exact Or.inr hx
    · rintro (hx | hx)
      · subst hx; exact hu
      · exact hx
  | none => simp [IMap.mem_keys_insert]

theorem adjIndex_of_mem (adj : AdjMap) (u : Int) (h : u ∈ IMap.keys adj) :
    (adjIndex adj u).2 = adj := by
  obtain ⟨row, hr⟩ := (IMap.mem_keys_iff adj u).1 h
  simp [adjIndex, hr]

theorem neighbors_pushBack (adj : AdjMap) (u : Int) (e : Int × Int) (x : Int) :
    neighbors (pushBack adj u e) x =
      if x = u then neighbors adj u ++ [e] else neighbors adj x := by
  unfold pushBack
  simp only [neighbors_insert, adjIndex_fst, neighbors_adjIndex]

theorem mem_keys_pushBack (adj : AdjMap) (u : Int) (e : Int × Int) (x : Int) :
    x ∈ IMap.keys (pushBack adj u e) ↔ x = u ∨ x ∈ IMap.keys adj := by
  unfold pushBack
  simp only [IMap.mem_keys_insert, mem_keys_adjIndex]
  tauto

theorem neighbors_addEdge (cm : CampusMap) (u v w x : Int) :
    neighbors (cm.addEdge u v w).adj x =
      (if x = u then neighbors cm.adj u ++ [(v, w)] else neighbors cm.adj x) ++
        (if x = v then [(u, w)] else []) := by
  unfold CampusMap.addEdge
  simp only [neighbors_pushBack]
  by_cases h1 : x = v
  · subst h1
    by_cases h2 : x = u <;> simp [h2]
  · simp [h1]

theorem mem_keys_addEdge (cm : CampusMap) (u v w x : Int) :
    x ∈ IMap.keys (cm.addEdge u v w).adj ↔ x = u ∨ x = v ∨ x ∈ IMap.keys cm.adj := by
  unfold CampusMap.addEdge
  simp only [mem_keys_pushBack]
  tauto

/-! ## Induction over populating calls -/

theorem foldl_applyOp_rel (R : List (Int × Int × Int) → CampusMap → Prop)
    (hname : ∀ es cm id name, R es cm → R es (cm.setLocationName id name))
    (hedge : ∀ es cm u v w, R es cm → R (es ++ [(u, v, w)]) (cm.addEdge u v w)) :
    ∀ (ops : List BuildOp) (es : List (Int × Int × Int)) (cm : CampusMap),
      R es cm → R (es ++ insertedEdges ops) (ops.foldl applyOp cm) := by
  have hents : ∀ (m d : Int) (ents : List Int) (es : List (Int × Int × Int)) (cm : CampusMap),
      R es cm →
      R (es ++ ents.map (fun e => (m, e, d)))
        (ents.foldl (fun c ent => c.addEdge m ent d) cm) := by
    intro m d ents
    induction ents with
    | nil => intro es cm h; simpa using h
    | cons e t ih =>
      intro es cm h
      have h1 := ih (es ++ [(m, e, d)]) (cm.addEdge m e d) (hedge es cm m e d h)
      simpa [List.append_assoc] using h1
  intro ops
  induction ops with
  | nil => intro es cm h; simpa [insertedEdges] using h
  | cons op t ih =>
    intro es cm h
    have key : R (es ++ opEdges op) (applyOp cm op) := by
      cases op with
      | setLocationName id name => simpa [opEdges, applyOp] using hname es cm id name h
      | addEdge u v w => simpa [opEdges, applyOp] using hedge es cm u v w h
      | addMultiEntryDept m name ents d =>
        simpa [opEdges, applyOp, CampusMap.addMultiEntryDept] using
          hents m d ents es (cm.setLocationName m name) (hname es cm m name h)
    have h2 := ih (es ++ opEdges op) (applyOp cm op) key
    simpa [insertedEdges, List.flatMap_cons, List.append_assoc] using h2

theorem build_rel (R : List (Int × Int × Int) → CampusMap → Prop)
    (h0 : R [] CampusMap.empty)
    (hname : ∀ es cm id name, R es cm → R es (cm.setLocationName id name))
    (hedge : ∀ es cm u v w, R es cm → R (es ++ [(u, v, w)]) (cm.addEdge u v w))
    (ops : List BuildOp) : R (insertedEdges ops) (build ops) := by
  have h := foldl_applyOp_rel R hname hedge ops [] CampusMap.empty h0
  simpa [build] using h

/-! ## Edge symmetry -/

theorem symmetric_build (ops : List BuildOp) :
    (∀ e ∈ insertedEdges ops,
        (e.2.1, e.2.2) ∈ neighbors (build ops).adj e.1 ∧
        (e.1, e.2.2) ∈ neighbors (build ops).adj e.2.1) ∧
    (∀ a b w : Int, List.count (b, w) (neighbors (build ops).adj a) =
        List.count (a, w) (neighbors (build ops).adj b)) := by
  refine build_rel (fun es cm =>
    (∀ e ∈ es, (e.2.1, e.2.2) ∈ neighbors cm.adj e.1 ∧ (e.1, e.2.2) ∈ neighbors cm.adj e.2.1) ∧
    (∀ a b w : Int, List.count (b, w) (neighbors cm.adj a) =
        List.count (a, w) (neighbors cm.adj b))) ?_ ?_ ?_ ops
  · simp [CampusMap.empty, neighbors, IMap.find?]
  · intro es cm id name h
    exact h
  · intro es cm u v w h
    obtain ⟨h1, h2⟩ := h
    constructor
    · intro e he
      rw [List.mem_append] at he
      rcases he with he | he
      · obtain ⟨ha, hb⟩ := h1 e he
        simp only [neighbors_addEdge]
        constructor
        · apply List.mem_append_left
          split_ifs with hx
          · rw [← hx]; exact List.mem_append_left _ ha
          · exact ha
        · apply List.mem_append_left
          split_ifs with hx
          · rw [← hx]; exact List.mem_append_left _ hb
          · exact hb
      · simp only [List.mem_singleton] at he
        subst he
        simp only [neighbors_addEdge]
        constructor
        · simp
        · by_cases hvu : v = u <;> simp [hvu]
    · intro a b x
      simp only [neighbors_addEdge]
      have hab := h2 a b x
      have hub := h2 u b x
      have hau := h2 a u x
      by_cases e1 : a = u <;> by_cases e2 : a = v <;> by_cases e3 : b = u <;>
        by_cases e4 : b = v <;>
        simp [e1, e2, e3, e4, List.count_append, List.count_cons, List.count_nil] <;>
        (try subst_vars) <;> (try simp_all)

/-! ## Walks -/

theorem isWalk_append (g : AdjMap) (p q : List (Int × Int)) :
    ∀ s, IsWalk g s (p ++ q) ↔ IsWalk g s p ∧ IsWalk g (walkEnd s p) q := by
  induction p with
  | nil => intro s; simp [IsWalk, walkEnd]
  | cons e t ih =>
    intro s
    show (e ∈ neighbors g s ∧ IsWalk g e.1 (t ++ q)) ↔
      (e ∈ neighbors g s ∧ IsWalk g e.1 t) ∧ IsWalk g (walkEnd e.1 t) q
    rw [ih, and_assoc]

theorem walkEnd_append (p q : List (Int × Int)) :
    ∀ s, walkEnd s (p ++ q) = walkEnd (walkEnd s p) q := by
  induction p with
  | nil => intro s; simp [walkEnd]
  | cons e t ih =>
    intro s
    show walkEnd e.1 (t ++ q) = walkEnd (walkEnd e.1 t) q
    exact ih e.1

theorem walkLen_append (p q : List (Int × Int)) :
    walkLen (p ++ q) = walkLen p + walkLen q := by
  simp [walkLen]

theorem reach_refl (g : AdjMap) (s : Int) : Reach g s s :=
  ⟨[], trivial, rfl⟩

theorem reach_step (g : AdjMap) (s t : Int) (e : Int × Int)
    (h : Reach g s t) (he : e ∈ neighbors g t) : Reach g s e.1 := by
  obtain ⟨p, hp, hend⟩ := h
  refine ⟨p ++ [e], ?_, ?_⟩
  · rw [isWalk_append]
    exact ⟨hp, by rw [hend]; exact ⟨he, trivial⟩⟩
  · rw [walkEnd_append]; simp [walkEnd]

/-! ## The main loop: fuel -/

theorem mainLoop_mono (end_ : Int) :
    ∀ (n m : Nat) (s r : DState), mainLoop end_ n s = some r → n ≤ m →
      mainLoop end_ m s = some r := by
  intro n
  induction n with
  | zero => intro m s r h; simp [mainLoop] at h
  | succ n ih =>
    intro m s r h hle
    obtain ⟨m', rfl⟩ : ∃ m', m = m' + 1 := ⟨m - 1, by omega⟩
    unfold mainLoop at h ⊢
    cases hit : iterate end_ s with
    | done s1 => simpa [hit] using h
    | cont s1 =>
      simp only [hit] at h ⊢
      exact ih m' s1 r h (by omega)

/-- The loop rule: if a property is kept by every iteration that goes round
again, and a measure decreases, the loop ends, in a state an iteration left
from a state with the property. -/
theorem mainLoop_total (end_ : Int) (P : DState → Prop) (μ : DState → Nat)
    (hcont : ∀ s s1, P s → iterate end_ s = .cont s1 → P s1 ∧ μ s1 < μ s) :
    ∀ (n : Nat) (s : DState), P s → μ s < n →
      ∃ s0 r, P s0 ∧ iterate end_ s0 = .done r ∧ mainLoop end_ n s = some r := by
  intro n
  induction n with
  | zero => intro s _ h; omega
  | succ n ih =>
    intro s hP hμ
    cases hit : iterate end_ s with
    | done r => exact ⟨s, r, hP, hit, by simp [mainLoop, hit]⟩
    | cont s1 =>
      obtain ⟨hP1, hlt⟩ := hcont s s1 hP hit
      obtain ⟨s0, r, h0, hd, hr⟩ := ih s1 hP1 (by omega)
      exact ⟨s0, r, h0, hd, by simp [mainLoop, hit, hr]⟩

/-! ## The frontier -/

theorem pqTop_eq_none (pq : List (Int × Int)) : pqTop pq = none ↔ pq = [] := by
  cases pq with
  | nil => simp [pqTop]
  | cons x t =>
    simp only [pqTop]
    cases pqTop t with
    | none => simp
    | some m => by_cases h : pairLt m x = true <;> simp [h]

theorem pqTop_mem (pq : List (Int × Int)) (top : Int × Int) (h : pqTop pq = some top) :
    top ∈ pq := by
  induction pq generalizing top with
  | nil => simp [pqTop] at h
  | cons x t ih =>
    simp only [pqTop] at h
    cases ht : pqTop t with
    | none => simp [ht] at h; simp [h]
    | some m =>
      simp only [ht] at h
      by_cases hlt : pairLt m x = true
      · simp [hlt] at h
        subst h
        exact List.mem_cons_of_mem _ (ih m ht)
      · simp [hlt] at h
        simp [h]

theorem pqTop_le (pq : List (Int × Int)) (top : Int × Int) (h : pqTop pq = some top) :
    ∀ e ∈ pq, top.1 ≤ e.1 := by
  induction pq generalizing top with
  | nil => simp [pqTop] at h
  | cons x t ih =>
    simp only [pqTop] at h
    cases ht : pqTop t with
    | none =>
      simp [ht] at h
      subst h
      have : t = [] := (pqTop_eq_none t).1 ht
      subst this
      intro e he
      simp at he
      subst he
      exact le_refl _
    | some m =>
      simp only [ht] at h
      have hm := ih m ht
      by_cases hlt : pairLt m x = true
      · simp [hlt] at h
        subst h
        intro e he
        rcases List.mem_cons.1 he with he | he
        · subst he
          simp only [pairLt, Bool.or_eq_true, Bool.and_eq_true, decide_eq_true_eq] at hlt
          rcases hlt with h1 | ⟨h1, _⟩
          · exact le_of_lt h1
          · exact le_of_eq h1
        · exact hm e he
      · simp [hlt] at h
        subst h
        simp only [pairLt, Bool.or_eq_true, Bool.and_eq_true, decide_eq_true_eq, not_or,
          not_and, not_lt] at hlt
        intro e he
        rcases List.mem_cons.1 he with he | he
        · subst he; exact le_refl _
        · exact le_trans hlt.1 (hm e he)

/-! ## Facts that hold for all weights -/

theorem distAt_insert (dist : IMap Int) (v c x : Int) :
    distAt (dist.insert v c) x = if x = v then c else distAt dist x := by
  unfold distAt
  rw [IMap.find?_insert]
  by_cases h : x = v <;> simp [h]

theorem wrap32_range (x : Int) : -2147483648 ≤ wrap32 x ∧ wrap32 x < 2147483648 := by
  unfold wrap32
  omega

theorem wrap32_id (x : Int) (h1 : -2147483648 ≤ x) (h2 : x < 2147483648) : wrap32 x = x := by
  unfold wrap32
  omega

theorem sum_map_le (K : List Int) (f f' : Int → Nat) (hle : ∀ k, f' k ≤ f k) :
    (K.map f').sum ≤ (K.map f).sum := by
  induction K with
  | nil => simp
  | cons a t ih =>
    simp only [List.map_cons, List.sum_cons]
    have := hle a
    omega

theorem sum_map_lt (K : List Int) (f f' : Int → Nat) (v : Int) (hv : v ∈ K)
    (hle : ∀ k, f' k ≤ f k) (hlt : f' v < f v) :
    (K.map f').sum < (K.map f).sum := by
  induction K with
  | nil => simp at hv
  | cons a t ih =>
    simp only [List.map_cons, List.sum_cons]
    rcases List.mem_cons.1 hv with h | h
    · subst h
      have := sum_map_le t f f' hle
      omega
    · have := ih h
      have := hle a
      omega

theorem relaxEdge_adj (u : Int) (s : DState) (e : Int × Int) :
    (relaxEdge u s e).adj = s.adj := by
  unfold relaxEdge
  simp only
  split_ifs <;> rfl

theorem relaxEdge_dist_le (u : Int) (s : DState) (e : Int × Int) (x : Int) :
    distAt (relaxEdge u s e).dist x ≤ distAt s.dist x := by
  unfold relaxEdge
  simp only
  split_ifs with h
  · simp only [distAt_insert]
    split_ifs with hx
    · subst hx; exact le_of_lt h
    · exact le_refl _
  · exact le_refl _

theorem relaxEdge_measure (g : AdjMap) (u : Int) (s : DState) (e : Int × Int)
    (hr : ∀ x, -2147483648 ≤ distAt s.dist x) (he : e.1 ∈ IMap.keys g) :
    loopMeasure g (relaxEdge u s e) ≤ loopMeasure g s := by
  unfold relaxEdge
  simp only
  split_ifs with h
  · unfold loopMeasure potential
    simp only [List.length_cons]
    have hw := wrap32_range (distAt s.dist u + e.2)
    have := sum_map_lt (IMap.keys g)
      (fun k => (distAt s.dist k + 2147483648).toNat)
      (fun k => (distAt (s.dist.insert e.1 (wrap32 (distAt s.dist u + e.2))) k + 2147483648).toNat)
      e.1 he
      (by
        intro k
        simp only [distAt_insert]
        split_ifs with hk
        · subst hk
          have := hr e.1
          omega
        · exact le_refl _)
      (by
        simp only [distAt_insert, if_true]
        have := hr e.1
        omega)
    omega
  · exact le_refl _

theorem relaxEdge_ginv (g : AdjMap) (start u : Int) (s : DState) (e : Int × Int)
    (hk : NbrsAreKeys g) (hs : GInv g start s) (hu : u ∈ IMap.keys g)
    (hru : Reach g start u) (hdu : distAt s.dist u < INF) (he : e ∈ neighbors g u) :
    GInv g start (relaxEdge u s e) := by
  have hmono := relaxEdge_dist_le u s e
  have hev : e.1 ∈ IMap.keys g := hk u e he
  have hrv : Reach g start e.1 := reach_step g start u e hru he
  unfold relaxEdge at hmono ⊢
  simp only at hmono ⊢
  split_ifs with h
  · simp only [h, if_true] at hmono
    have hw := wrap32_range (distAt s.dist u + e.2)
    have hvI := (hs.range e.1).2
    refine ⟨hs.adj_eq, ?_, ?_, ?_, ?_⟩
    · intro e' he'
      rcases List.mem_cons.1 he' with h1 | h1
      · subst h1
        refine ⟨hev, hrv, ?_⟩
        simp only [distAt_insert, if_true]
        omega
      · obtain ⟨a, b, c⟩ := hs.pq_ok e' h1
        exact ⟨a, b, lt_of_le_of_lt (hmono e'.2) c⟩
    · intro x
      simp only [distAt_insert]
      split_ifs with hx
      · unfold INF; omega
      · exact hs.range x
    · intro x hx hlt
      by_cases hxv : x = e.1
      · subst hxv
        exact ⟨hrv, fun _ => ⟨u, by rw [IMap.find?_insert]; simp⟩⟩
      · simp only [distAt_insert, hxv, if_false] at hlt
        obtain ⟨a, b⟩ := hs.fin_ok x hx hlt
        refine ⟨a, fun hne => ?_⟩
        rw [IMap.find?_insert]
        simpa [hxv] using b hne
    · intro v p hvp
      rw [IMap.find?_insert] at hvp
      by_cases hv : v = e.1
      · simp only [hv, if_true, Option.some.injEq] at hvp
        subst hvp
        exact ⟨hu, lt_of_le_of_lt (hmono u) hdu⟩
      · simp only [hv, if_false] at hvp
        obtain ⟨a, b⟩ := hs.parent_ok v p hvp
        exact ⟨a, lt_of_le_of_lt (hmono p) b⟩
  · exact hs

theorem foldl_relaxEdge_ginv (g : AdjMap) (start u : Int) (hk : NbrsAreKeys g)
    (hu : u ∈ IMap.keys g) (hru : Reach g start u) :
    ∀ (l : List (Int × Int)) (s : DState), (∀ e ∈ l, e ∈ neighbors g u) →
      GInv g start s → distAt s.dist u < INF →
      GInv g start (l.foldl (relaxEdge u) s) ∧
        loopMeasure g (l.foldl (relaxEdge u) s) ≤ loopMeasure g s := by
  intro l
  induction l with
  | nil => intro s _ hs _; exact ⟨hs, le_refl _⟩
  | cons e t ih =>
    intro s hl hs hdu
    have he : e ∈ neighbors g u := hl e (List.mem_cons_self _ _)
    have h1 := relaxEdge_ginv g start u s e hk hs hu hru hdu he
    have h2 := relaxEdge_measure g u s e (fun x => (hs.range x).1) (hk u e he)
    have h3 : distAt (relaxEdge u s e).dist u < INF :=
      lt_of_le_of_lt (relaxEdge_dist_le u s e u) hdu
    obtain ⟨a, b⟩ := ih (relaxEdge u s e) (fun e' he' => hl e' (List.mem_cons_of_mem _ he')) h1 h3
    exact ⟨a, le_trans b h2⟩

theorem ginv_erase (g : AdjMap) (start : Int) (s : DState) (top : Int × Int)
    (hs : GInv g start s) : GInv g start { s with pq := s.pq.erase top } :=
  ⟨hs.adj_eq, fun e he => hs.pq_ok e (List.mem_of_mem_erase he), hs.range, hs.fin_ok,
    hs.parent_ok⟩

theorem iterate_cont_ginv (g : AdjMap) (start end_ : Int) (hk : NbrsAreKeys g)
    (s s1 : DState) (hs : GInv g start s) (hit : iterate end_ s = .cont s1) :
    GInv g start s1 ∧ loopMeasure g s1 < loopMeasure g s := by
  unfold iterate at hit
  cases htop : pqTop s.pq with
  | none => simp [htop] at hit
  | some top =>
    simp only [htop] at hit
    have hmem := pqTop_mem s.pq top htop
    have hlen : (s.pq.erase top).length + 1 = s.pq.length := by
      rw [List.length_erase_of_mem hmem]
      have : 0 < s.pq.length := List.length_pos_of_mem hmem
      omega
    have he := ginv_erase g start s top hs
    split_ifs at hit with h1 h2
    · simp only [Step.cont.injEq] at hit
      subst hit
      refine ⟨he, ?_⟩
      unfold loopMeasure
      simp only
      omega
    · simp only [Step.cont.injEq] at hit
      subst hit
      obtain ⟨hkey, hreach, hfin⟩ := hs.pq_ok top hmem
      have hadj : (adjIndex s.adj top.2).2 = g := by
        rw [hs.adj_eq]; exact adjIndex_of_mem g top.2 hkey
      have hrow : (adjIndex s.adj top.2).1 = neighbors g top.2 := by
        rw [adjIndex_fst, hs.adj_eq]
      simp only [hadj, hrow]
      have hs1 : GInv g start { s with pq := s.pq.erase top, adj := g } :=
        ⟨rfl, he.pq_ok, he.range, he.fin_ok, he.parent_ok⟩
      obtain ⟨a, b⟩ := foldl_relaxEdge_ginv g start top.2 hk hkey hreach (neighbors g top.2)
        { s with pq := s.pq.erase top, adj := g } (fun e h => h) hs1 hfin
      refine ⟨a, lt_of_le_of_lt b ?_⟩
      unfold loopMeasure
      simp only
      omega

theorem find?_foldl_insert (l : AdjMap) (x : Int) :
    ∀ d0 : IMap Int, IMap.find? (l.foldl (fun d kv => d.insert kv.1 INF) d0) x =
      if x ∈ IMap.keys l then some INF else IMap.find? d0 x := by
  induction l with
  | nil => intro d0; simp [IMap.keys]
  | cons a t ih =>
    intro d0
    simp only [List.foldl_cons]
    rw [ih, IMap.find?_insert]
    by_cases h1 : x ∈ IMap.keys t
    · have : x ∈ IMap.keys (a :: t) := by
        simp only [IMap.keys, List.map_cons, List.mem_cons]; exact Or.inr h1
      simp [h1, this]
    · by_cases h2 : x = a.1
      · have : x ∈ IMap.keys (a :: t) := by
          simp only [IMap.keys, List.map_cons, List.mem_cons]; exact Or.inl h2
        rw [if_neg h1, if_pos h2, if_pos this]
      · have : x ∉ IMap.keys (a :: t) := by
          simp only [IMap.keys, List.map_cons, List.mem_cons, not_or]
          exact ⟨h2, h1⟩
        simp [h1, h2, this]

theorem distAt_init (g : AdjMap) (start x : Int) :
    distAt (initState g start).dist x =
      if x = start then 0 else if x ∈ IMap.keys g then INF else 0 := by
  unfold initState
  simp only [distAt_insert]
  by_cases h : x = start
  · simp [h]
  · simp only [h, if_false]
    unfold distAt initDist
    rw [find?_foldl_insert]
    by_cases h2 : x ∈ IMap.keys g <;> simp [h2, IMap.find?]

theorem ginv_init (g : AdjMap) (start : Int) (hstart : start ∈ IMap.keys g) :
    GInv g start (initState g start) := by
  refine ⟨rfl, ?_, ?_, ?_, ?_⟩
  · intro e he
    simp only [initState, List.mem_singleton] at he
    subst he
    refine ⟨hstart, reach_refl g start, ?_⟩
    rw [distAt_init]
    simp [INF]
  · intro x
    rw [distAt_init]
    unfold INF
    split_ifs <;> omega
  · intro x hx hlt
    rw [distAt_init] at hlt
    by_cases h : x = start
    · subst h
      exact ⟨reach_refl g x, fun hne => absurd rfl hne⟩
    · simp [h, hx] at hlt
  · intro v u h
    simp [initState, IMap.find?] at h

/-- The main loop ends, whatever the weights are, and leaves a state reached by
an iteration from a state in which the general facts hold. -/
theorem mainLoop_terminates (g : AdjMap) (start end_ : Int) (hk : NbrsAreKeys g)
    (hstart : start ∈ IMap.keys g) :
    ∃ s0 r, GInv g start s0 ∧ iterate end_ s0 = .done r ∧
      ∀ fuel, loopMeasure g (initState g start) < fuel →
        mainLoop end_ fuel (initState g start) = some r := by
  obtain ⟨s0, r, h0, hd, hr⟩ := mainLoop_total end_ (GInv g start) (loopMeasure g)
    (fun s s1 hs hit => iterate_cont_ginv g start end_ hk s s1 hs hit)
    (loopMeasure g (initState g start) + 1) (initState g start)
    (ginv_init g start hstart) (by omega)
  exact ⟨s0, r, h0, hd, fun fuel hf => mainLoop_mono end_ _ fuel _ r hr (by omega)⟩

/-! ## Built maps -/

theorem built_keys (ops : List BuildOp) :
    NbrsAreKeys (build ops).adj ∧
      ∀ x, x ∈ IMap.keys (build ops).adj ↔ x ∈ endpoints ops := by
  have h := build_rel (fun es cm =>
    NbrsAreKeys cm.adj ∧
      ∀ x, x ∈ IMap.keys cm.adj ↔ x ∈ es.flatMap (fun e => [e.1, e.2.1])) ?_ ?_ ?_ ops
  · exact h
  · refine ⟨?_, ?_⟩
    · intro u e he
      simp [CampusMap.empty, neighbors, IMap.find?] at he
    · intro x
      simp [CampusMap.empty, IMap.keys]
  · intro es cm id name h
    exact h
  · intro es cm u v w h
    obtain ⟨h1, h2⟩ := h
    refine ⟨?_, ?_⟩
    · intro x e he
      rw [neighbors_addEdge] at he
      rw [mem_keys_addEdge]
      rcases List.mem_append.1 he with he | he
      · split_ifs at he with hx
        · rcases List.mem_append.1 he with he | he
          · exact Or.inr (Or.inr (h1 u e he))
          · simp only [List.mem_singleton] at he
            subst he
            exact Or.inr (Or.inl rfl)
        · exact Or.inr (Or.inr (h1 x e he))
      · split_ifs at he with hx
        · simp only [List.mem_singleton] at he
          subst he
          exact Or.inl rfl
        · simp at he
    · intro x
      rw [mem_keys_addEdge, h2 x]
      simp only [List.flatMap_append, List.mem_append, List.flatMap_cons, List.flatMap_nil,
        List.append_nil, List.mem_cons, List.mem_singleton]
      simp only [List.not_mem_nil, or_false]
      tauto

/-! ## Unfolding `findRoute` -/

theorem campusMap_with_adj (cm : CampusMap) : ({ cm with adj := cm.adj } : CampusMap) = cm := by
  cases cm; rfl

theorem findRoute_invalid (fuel : Nat) (cm : CampusMap) (start end_ : Int)
    (h : start ∉ IMap.keys cm.adj ∨ end_ ∉ IMap.keys cm.adj) :
    findRoute fuel cm start end_ = some (.invalidNode, cm) := by
  have h1 : cm.adj.find? start = none ∨ cm.adj.find? end_ = none := by
    rw [IMap.find?_eq_none_iff, IMap.find?_eq_none_iff]; exact h
  unfold findRoute
  rw [if_pos h1]

/-- The state `findRoute` leaves the map in after a successful search. -/
theorem findRoute_valid (fuel : Nat) (cm : CampusMap) (start end_ : Int)
    (hs : start ∈ IMap.keys cm.adj) (he : end_ ∈ IMap.keys cm.adj) :
    findRoute fuel cm start end_ =
      match mainLoop end_ fuel (initState cm.adj start) with
      | none => none
      | some s =>
        if distAt s.dist end_ = INF then some (.noPath, { cm with adj := s.adj })
        else
          match walkBack s.parent start fuel end_ [] with
          | none => none
          | some p =>
            some (.found (distAt s.dist end_) (p ++ [start]).reverse
                (render { cm with adj := s.adj } (p ++ [start]).reverse).2,
              { adj := (render { cm with adj := s.adj } (p ++ [start]).reverse).1,
                locationNames := cm.locationNames,
                history := cm.history.addEntry (cm.getLocationName start)
                  (cm.getLocationName end_) (distAt s.dist end_) }) := by
  have h1 : ¬ (cm.adj.find? start = none ∨ cm.adj.find? end_ = none) := by
    rw [IMap.find?_eq_none_iff, IMap.find?_eq_none_iff]
    simp [hs, he]
  unfold findRoute
  rw [if_neg h1]
  rfl

theorem iterate_done (end_ : Int) (s r : DState) (h : iterate end_ s = .done r) :
    r.dist = s.dist ∧ r.parent = s.parent ∧ r.adj = s.adj ∧
      ((s.pq = [] ∧ r = s) ∨
        ∃ top, pqTop s.pq = some top ∧ top.2 = end_ ∧ top.1 ≤ distAt s.dist end_ ∧
          r.pq = s.pq.erase top) := by
  unfold iterate at h
  cases htop : pqTop s.pq with
  | none =>
    simp only [htop, Step.done.injEq] at h
    subst h
    exact ⟨rfl, rfl, rfl, Or.inl ⟨(pqTop_eq_none s.pq).1 htop, rfl⟩⟩
  | some top =>
    simp only [htop] at h
    split_ifs at h with h1 h2
    simp only [Step.done.injEq] at h
    subst h
    refine ⟨rfl, rfl, rfl, Or.inr ⟨top, rfl, h2, ?_, rfl⟩⟩
    simp only [gt_iff_lt, not_lt] at h1
    rw [← h2]
    exact h1

theorem mainLoop_inv (end_ : Int) (P : DState → Prop)
    (hcont : ∀ s s1, P s → iterate end_ s = .cont s1 → P s1) :
    ∀ (n : Nat) (s r : DState), P s → mainLoop end_ n s = some r →
      ∃ s0, P s0 ∧ iterate end_ s0 = .done r := by
  intro n
  induction n with
  | zero => intro s r _ h; simp [mainLoop] at h
  | succ n ih =>
    intro s r hP h
    unfold mainLoop at h
    cases hit : iterate end_ s with
    | done s1 =>
      simp only [hit, Option.some.injEq] at h
      subst h
      exact ⟨s, hP, hit⟩
    | cont s1 =>
      simp only [hit] at h
      exact ih s1 r (hcont s s1 hP hit) h

/-! ## The map is not changed by a search -/

theorem walkBack_keys (g : AdjMap) (start : Int) (s : DState) (hs : GInv g start s) :
    ∀ (fuel : Nat) (v : Int) (acc p : List Int),
      walkBack s.parent start fuel v acc = some p →
      v ∈ IMap.keys g → distAt s.dist v < INF → (∀ y ∈ acc, y ∈ IMap.keys g) →
      ∀ y ∈ p, y ∈ IMap.keys g := by
  intro fuel
  induction fuel with
  | zero =>
    intro v acc p h _ _ hacc
    unfold walkBack at h
    split_ifs at h
    simp only [Option.some.injEq] at h
    subst h
    exact hacc
  | succ n ih =>
    intro v acc p h hv hd hacc
    unfold walkBack at h
    split_ifs at h with hvs
    · simp only [Option.some.injEq] at h
      subst h
      exact hacc
    · obtain ⟨_, hpar⟩ := hs.fin_ok v hv hd
      obtain ⟨u, hu⟩ := hpar hvs
      have hpu : parentAt s.parent v = u := by simp [parentAt, hu]
      rw [hpu] at h
      obtain ⟨huk, hud⟩ := hs.parent_ok v u hu
      refine ih u (acc ++ [v]) p h huk hud ?_
      intro y hy
      rcases List.mem_append.1 hy with hy | hy
      · exact hacc y hy
      · simp only [List.mem_singleton] at hy
        subst hy
        exact hv

theorem renderStep_fst (cm : CampusMap) (path : List Int) (acc : AdjMap × List Line) (i : Nat) :
    (renderStep cm path acc i).1 =
      if i < sizeMinus path.length 1 then (adjIndex acc.1 (path.getD i 0)).2 else acc.1 := by
  unfold renderStep
  simp only
  split_ifs <;> rfl

theorem render_fst (cm : CampusMap) (path : List Int)
    (hp : ∀ y ∈ path, y ∈ IMap.keys cm.adj) : (render cm path).1 = cm.adj := by
  unfold render
  have key : ∀ (l : List Nat) (acc : AdjMap × List Line), (∀ i ∈ l, i < path.length) →
      acc.1 = cm.adj → (l.foldl (renderStep cm path) acc).1 = cm.adj := by
    intro l
    induction l with
    | nil => intro acc _ h; exact h
    | cons i t ih =>
      intro acc hl h
      simp only [List.foldl_cons]
      apply ih
      · intro j hj; exact hl j (List.mem_cons_of_mem _ hj)
      · rw [renderStep_fst]
        split_ifs
        · rw [h]
          apply adjIndex_of_mem
          apply hp
          have hi : i < path.length := hl i (List.mem_cons_self _ _)
          rw [List.getD_eq_getElem _ _ hi]
          exact List.getElem_mem _
        · exact h
  exact key _ _ (fun i hi => List.mem_range.1 hi) rfl

/-- A search changes neither the adjacency map nor the names, and changes the
history only by the entry of a successful search. -/
theorem findRoute_frame (cm : CampusMap) (hk : NbrsAreKeys cm.adj) (fuel : Nat)
    (start end_ : Int) (out : Outcome) (cm1 : CampusMap)
    (h : findRoute fuel cm start end_ = some (out, cm1)) :
    cm1.adj = cm.adj ∧ cm1.locationNames = cm.locationNames ∧
      cm1.history =
        match out with
        | .found total _ _ =>
          cm.history.addEntry (cm.getLocationName start) (cm.getLocationName end_) total
        | _ => cm.history := by
  by_cases hv : start ∉ IMap.keys cm.adj ∨ end_ ∉ IMap.keys cm.adj
  · rw [findRoute_invalid fuel cm start end_ hv] at h
    simp only [Option.some.injEq, Prod.mk.injEq] at h
    obtain ⟨h1, h2⟩ := h
    subst h1 h2
    exact ⟨rfl, rfl, rfl⟩
  · simp only [not_or, not_not] at hv
    obtain ⟨hs, he⟩ := hv
    rw [findRoute_valid fuel cm start end_ hs he] at h
    cases hm : mainLoop end_ fuel (initState cm.adj start) with
    | none => simp [hm] at h
    | some s =>
      simp only [hm] at h
      obtain ⟨s0, h0, hd⟩ := mainLoop_inv end_ (GInv cm.adj start)
        (fun s s1 hs hit => (iterate_cont_ginv cm.adj start end_ hk s s1 hs hit).1)
        fuel (initState cm.adj start) s (ginv_init cm.adj start hs) hm
      obtain ⟨hdist, hpar, hadj, _⟩ := iterate_done end_ s0 s hd
      have hsadj : s.adj = cm.adj := by rw [hadj]; exact h0.adj_eq
      split_ifs at h with hinf
      · simp only [Option.some.injEq, Prod.mk.injEq] at h
        obtain ⟨h1, h2⟩ := h
        subst h1 h2
        exact ⟨hsadj, rfl, rfl⟩
      · cases hw : walkBack s.parent start fuel end_ [] with
        | none => simp [hw] at h
        | some p =>
          simp only [hw, Option.some.injEq, Prod.mk.injEq] at h
          obtain ⟨h1, h2⟩ := h
          subst h1 h2
          refine ⟨?_, rfl, rfl⟩
          simp only
          rw [hsadj, campusMap_with_adj]
          apply render_fst
          intro y hy
          simp only [List.reverse_append, List.reverse_cons, List.reverse_nil, List.nil_append,
            List.singleton_append, List.mem_cons, List.mem_reverse] at hy
          rcases hy with hy | hy
          · subst hy; exact hs
          · rw [hpar] at hw
            have hlt : distAt s0.dist end_ < INF := by
              rw [hdist] at hinf
              exact lt_of_le_of_ne (h0.range end_).2 hinf
            exact walkBack_keys cm.adj start s0 h0 fuel end_ [] p hw he hlt
              (fun y hy => by simp at hy) y hy

theorem findRoute_not_invalid (fuel : Nat) (cm : CampusMap) (start end_ : Int)
    (hs : start ∈ IMap.keys cm.adj) (he : end_ ∈ IMap.keys cm.adj) (cm1 : CampusMap) :
    findRoute fuel cm start end_ ≠ some (.invalidNode, cm1) := by
  rw [findRoute_valid fuel cm start end_ hs he]
  cases mainLoop end_ fuel (initState cm.adj start) with
  | none => simp
  | some s =>
    simp only
    split_ifs
    · simp
    · cases walkBack s.parent start fuel end_ [] with
      | none => simp
      | some p => simp

theorem endpoints_append (ops1 ops2 : List BuildOp) :
    endpoints (ops1 ++ ops2) = endpoints ops1 ++ endpoints ops2 := by
  simp [endpoints, insertedEdges]

/-- With both nodes known and no connection between them the search reports
that there is no path, and changes nothing. -/
theorem findRoute_noPath (cm : CampusMap) (hk : NbrsAreKeys cm.adj) (start end_ : Int)
    (hs : start ∈ IMap.keys cm.adj) (he : end_ ∈ IMap.keys cm.adj)
    (hnr : ¬ Reach cm.adj start end_) :
    ∀ fuel, loopMeasure cm.adj (initState cm.adj start) < fuel →
      findRoute fuel cm start end_ = some (.noPath, cm) := by
  obtain ⟨s0, r, h0, hd, hr⟩ := mainLoop_terminates cm.adj start end_ hk hs
  intro fuel hf
  rw [findRoute_valid fuel cm start end_ hs he, hr fuel hf]
  obtain ⟨hdist, _, hadj, _⟩ := iterate_done end_ s0 r hd
  have hinf : distAt r.dist end_ = INF := by
    rw [hdist]
    have h1 := (h0.range end_).2
    by_contra hne
    exact hnr (h0.fin_ok end_ he (lt_of_le_of_ne h1 hne)).1
  simp only [hinf, if_true]
  rw [hadj, h0.adj_eq, campusMap_with_adj]

/-! ## Simple paths and the weight bound -/

theorem mem_neighbors_key (g : AdjMap) (x : Int) (e : Int × Int) (h : e ∈ neighbors g x) :
    x ∈ IMap.keys g := by
  unfold neighbors at h
  cases hf : g.find? x with
  | none => simp [hf] at h
  | some row => exact (IMap.mem_keys_iff g x).2 ⟨row, hf⟩

theorem le_rowSum (l : List (Int × Int)) (hl : ∀ e ∈ l, 0 ≤ e.2) :
    0 ≤ rowSum l ∧ ∀ e ∈ l, e.2 ≤ rowSum l := by
  induction l with
  | nil => simp [rowSum]
  | cons a t ih =>
    obtain ⟨h0, h1⟩ := ih (fun e he => hl e (List.mem_cons_of_mem _ he))
    have ha := hl a (List.mem_cons_self _ _)
    have hs : rowSum (a :: t) = a.2 + rowSum t := by simp [rowSum]
    rw [hs]
    refine ⟨by omega, ?_⟩
    intro e he
    rcases List.mem_cons.1 he with he | he
    · subst he; omega
    · have := h1 e he; omega

theorem walkLen_cons (e : Int × Int) (p : List (Int × Int)) :
    walkLen (e :: p) = e.2 + walkLen p := by
  simp [walkLen]

theorem walkLen_nonneg (g : AdjMap) (hn : NonnegWeights g) :
    ∀ (p : List (Int × Int)) (s : Int), IsWalk g s p → 0 ≤ walkLen p := by
  intro p
  induction p with
  | nil => intro s _; simp [walkLen]
  | cons e t ih =>
    intro s h
    rw [walkLen_cons]
    have := hn s e h.1
    have := ih e.1 h.2
    omega

theorem walkLen_le_sources (g : AdjMap) (hn : NonnegWeights g) :
    ∀ (p : List (Int × Int)) (s : Int), IsWalk g s p →
      walkLen p ≤ ((walkSources s p).map (fun x => rowSum (neighbors g x))).sum := by
  intro p
  induction p with
  | nil => intro s _; simp [walkLen, walkSources]
  | cons e t ih =>
    intro s h
    rw [walkLen_cons]
    simp only [walkSources, List.map_cons, List.sum_cons]
    have h1 := (le_rowSum (neighbors g s) (hn s)).2 e h.1
    have h2 := ih e.1 h.2
    omega

theorem walkSources_keys (g : AdjMap) :
    ∀ (p : List (Int × Int)) (s : Int), IsWalk g s p →
      ∀ x ∈ walkSources s p, x ∈ IMap.keys g := by
  intro p
  induction p with
  | nil => intro s _ x hx; simp [walkSources] at hx
  | cons e t ih =>
    intro s h x hx
    simp only [walkSources, List.mem_cons] at hx
    rcases hx with hx | hx
    · subst hx; exact mem_neighbors_key g x e h.1
    · exact ih e.1 h.2 x hx

theorem walkSources_snoc (e : Int × Int) :
    ∀ (q : List (Int × Int)) (s : Int), walkSources s (q ++ [e]) = s :: q.map Prod.fst := by
  intro q
  induction q with
  | nil => intro s; simp [walkSources]
  | cons a t ih =>
    intro s
    show s :: walkSources a.1 (t ++ [e]) = s :: (a :: t).map Prod.fst
    rw [ih, List.map_cons]

theorem sources_sum_le_total (g : AdjMap) (hn : NonnegWeights g) (xs : List Int)
    (hnd : xs.Nodup) (hk : ∀ x ∈ xs, x ∈ IMap.keys g) :
    (xs.map (fun x => rowSum (neighbors g x))).sum ≤ totalWeight g := by
  rw [← List.sum_toFinset _ hnd]
  unfold totalWeight
  apply Finset.sum_le_sum_of_subset_of_nonneg
  · intro x hx
    rw [List.mem_toFinset] at hx ⊢
    exact hk x hx
  · intro i _ _
    exact (le_rowSum (neighbors g i) (hn i)).1

/-- A simple path followed by one more edge weighs at most the whole graph. -/
theorem simplePath_step_le_total (g : AdjMap) (hn : NonnegWeights g) (s t : Int)
    (q : List (Int × Int)) (hq : IsSimplePath g s t q) (e : Int × Int)
    (he : e ∈ neighbors g t) : walkLen q + e.2 ≤ totalWeight g := by
  obtain ⟨hw, hend, hnd⟩ := hq
  have hw2 : IsWalk g s (q ++ [e]) := by
    rw [isWalk_append]
    exact ⟨hw, by rw [hend]; exact ⟨he, trivial⟩⟩
  have h1 := walkLen_le_sources g hn (q ++ [e]) s hw2
  have h2 := walkSources_keys g (q ++ [e]) s hw2
  rw [walkSources_snoc] at h1 h2
  have h3 := sources_sum_le_total g hn (s :: q.map Prod.fst) hnd h2
  rw [walkLen_append] at h1
  have : walkLen [e] = e.2 := by simp [walkLen]
  omega

theorem walk_suffix (g : AdjMap) (hn : NonnegWeights g) :
    ∀ (p : List (Int × Int)) (s x : Int), IsWalk g s p → x ∈ walkNodes s p →
      ∃ q, IsWalk g x q ∧ walkEnd x q = walkEnd s p ∧ walkLen q ≤ walkLen p ∧
        walkNodes x q <:+ walkNodes s p := by
  intro p
  induction p with
  | nil =>
    intro s x _ hx
    simp only [walkNodes, List.map_nil, List.mem_singleton] at hx
    subst hx
    exact ⟨[], trivial, rfl, le_refl _, List.suffix_refl _⟩
  | cons e t ih =>
    intro s x h hx
    by_cases hxs : x = s
    · subst hxs
      exact ⟨e :: t, h, rfl, le_refl _, List.suffix_refl _⟩
    · have hx2 : x ∈ walkNodes e.1 t := by
        simp only [walkNodes, List.map_cons, List.mem_cons] at hx ⊢
        rcases hx with hx | hx
        · exact absurd hx hxs
        · exact hx
      obtain ⟨q, h1, h2, h3, h4⟩ := ih e.1 x h.2 hx2
      refine ⟨q, h1, h2, ?_, ?_⟩
      · rw [walkLen_cons]
        have := hn s e h.1
        omega
      · have : walkNodes s (e :: t) = s :: walkNodes e.1 t := by simp [walkNodes]
        rw [this]
        exact List.suffix_cons_iff.2 (Or.inr h4)

/-- Every walk can be cut down to a simple path that is no longer. -/
theorem exists_simplePath (g : AdjMap) (hn : NonnegWeights g) :
    ∀ (p : List (Int × Int)) (s : Int), IsWalk g s p →
      ∃ q, IsSimplePath g s (walkEnd s p) q ∧ walkLen q ≤ walkLen p := by
  intro p
  induction p with
  | nil =>
    intro s _
    exact ⟨[], ⟨trivial, rfl, by simp [walkNodes]⟩, le_refl _⟩
  | cons e t ih =>
    intro s h
    obtain ⟨q0, ⟨hw0, hend0, hnd0⟩, hlen0⟩ := ih e.1 h.2
    have hpos := hn s e h.1
    by_cases hs : s ∈ walkNodes e.1 q0
    · obtain ⟨q, h1, h2, h3, h4⟩ := walk_suffix g hn q0 e.1 s hw0 hs
      refine ⟨q, ⟨h1, ?_, hnd0.sublist h4.sublist⟩, ?_⟩
      · rw [h2, hend0]; rfl
      · rw [walkLen_cons]; omega
    · refine ⟨e :: q0, ⟨⟨h.1, hw0⟩, ?_, ?_⟩, ?_⟩
      · show walkEnd e.1 q0 = walkEnd e.1 t
        exact hend0
      · have : walkNodes s (e :: q0) = s :: walkNodes e.1 q0 := by simp [walkNodes]
        rw [this]
        exact List.nodup_cons.2 ⟨hs, hnd0⟩
      · rw [walkLen_cons, walkLen_cons]; omega

theorem neighbors_of_not_key (g : AdjMap) (x : Int) (h : x ∉ IMap.keys g) :
    neighbors g x = [] := by
  unfold neighbors
  rw [(IMap.find?_eq_none_iff g x).2 h]
  rfl

theorem totalWeight_pushBack (adj : AdjMap) (u : Int) (x : Int × Int) :
    totalWeight (pushBack adj u x) = totalWeight adj + x.2 := by
  unfold totalWeight
  have hk : (IMap.keys (pushBack adj u x)).toFinset = insert u (IMap.keys adj).toFinset := by
    ext y
    simp only [List.mem_toFinset, Finset.mem_insert, mem_keys_pushBack]
  rw [hk]
  have hf : ∀ y, rowSum (neighbors (pushBack adj u x) y) =
      rowSum (neighbors adj y) + (if y = u then x.2 else 0) := by
    intro y
    rw [neighbors_pushBack]
    by_cases hy : y = u
    · subst hy; simp [rowSum]
    · simp [hy]
  simp only [hf]
  rw [Finset.sum_add_distrib, Finset.sum_ite_eq']
  simp only [Finset.mem_insert, true_or, if_true]
  rw [Finset.sum_insert_of_eq_zero_if_not_mem]
  intro hu
  rw [List.mem_toFinset] at hu
  rw [neighbors_of_not_key adj u hu]
  rfl

theorem totalWeight_addEdge (cm : CampusMap) (u v w : Int) :
    totalWeight (cm.addEdge u v w).adj = totalWeight cm.adj + 2 * w := by
  unfold CampusMap.addEdge
  simp only
  rw [totalWeight_pushBack, totalWeight_pushBack]
  simp only
  omega

/-- The weights stored in a built map are the inserted ones, each twice. -/
theorem built_weights (ops : List BuildOp) :
    (∀ u, ∀ e ∈ neighbors (build ops).adj u, e.2 ∈ insertedWeights ops) ∧
      totalWeight (build ops).adj = 2 * (insertedWeights ops).sum := by
  have h := build_rel (fun es cm =>
    (∀ u, ∀ e ∈ neighbors cm.adj u, e.2 ∈ es.map (fun e => e.2.2)) ∧
      totalWeight cm.adj = 2 * (es.map (fun e => e.2.2)).sum) ?_ ?_ ?_ ops
  · exact h
  · refine ⟨?_, ?_⟩
    · intro u e he
      simp [CampusMap.empty, neighbors, IMap.find?] at he
    · simp [CampusMap.empty, totalWeight, IMap.keys]
  · intro es cm id name h
    exact h
  · intro es cm u v w h
    obtain ⟨h1, h2⟩ := h
    refine ⟨?_, ?_⟩
    · intro x e he
      rw [neighbors_addEdge] at he
      simp only [List.map_append, List.map_cons, List.map_nil, List.mem_append,
        List.mem_singleton]
      rcases List.mem_append.1 he with he | he
      · split_ifs at he with hx
        · rcases List.mem_append.1 he with he | he
          · exact Or.inl (h1 u e he)
          · simp only [List.mem_singleton] at he
            subst he
            exact Or.inr rfl
        · exact Or.inl (h1 x e he)
      · split_ifs at he with hx
        · simp only [List.mem_singleton] at he
          subst he
          exact Or.inr rfl
        · simp at he
    · rw [totalWeight_addEdge, h2]
      simp only [List.map_append, List.map_cons, List.map_nil, List.sum_append, List.sum_cons,
        List.sum_nil]
      omega

/-! ## The invariant for non-negative weights -/

theorem walkNodes_append (s : Int) (p q : List (Int × Int)) :
    walkNodes s (p ++ q) = walkNodes s p ++ q.map Prod.fst := by
  simp [walkNodes]

theorem schain_mono (parent : IMap Int) (start : Int) (S T : Int → Prop)
    (hST : ∀ x, S x → T x) (x : Int) (l : List Int)
    (h : SChain parent start S x l) : SChain parent start T x l := by
  induction h with
  | base => exact SChain.base
  | step u v l hv hp hS _ ih => exact SChain.step u v l hv hp (hST u hS) ih

theorem schain_insert (parent : IMap Int) (start : Int) (S : Int → Prop) (v0 u0 : Int)
    (hv0 : ¬ S v0) (x : Int) (l : List Int) (h : SChain parent start S x l) (hx : x ≠ v0) :
    SChain (parent.insert v0 u0) start S x l := by
  induction h with
  | base => exact SChain.base
  | step u v l hv hp hS _ ih =>
    refine SChain.step u v l hv ?_ hS (ih ?_)
    · rw [IMap.find?_insert, if_neg hx]; exact hp
    · intro hu; rw [hu] at hS; exact hv0 hS

theorem schain_walk (g : AdjMap) (start : Int) (S : Int → Prop) (C : Int → List (Int × Int))
    (lo : Int) (s : DState) (hI : NInv g start S C lo s) (x : Int) (l : List Int)
    (h : SChain s.parent start S x l) :
    ∃ p, IsWalk g start p ∧ walkEnd start p = x ∧ walkLen p = distAt s.dist x ∧
      walkNodes start p = l := by
  induction h with
  | base => exact ⟨[], trivial, rfl, by rw [hI.dist_start]; rfl, rfl⟩
  | step u v l hv hp hS _ ih =>
    obtain ⟨p, h1, h2, h3, h4⟩ := ih
    obtain ⟨_, _, w, hw, hd⟩ := hI.parent_edge v u hp
    refine ⟨p ++ [(v, w)], ?_, ?_, ?_, ?_⟩
    · rw [isWalk_append]; exact ⟨h1, by rw [h2]; exact ⟨hw, trivial⟩⟩
    · rw [walkEnd_append]; rfl
    · rw [walkLen_append, h3, hd]; simp [walkLen]
    · rw [walkNodes_append, h4]; rfl

/-- A node whose recorded distance is a lower bound of all walks to it, and
that can be reached, cannot overflow when one of its edges is added. -/
theorem lower_bound_no_overflow (g : AdjMap) (hg : GoodGraph g) (start x : Int) (d : Int)
    (hr : Reach g start x)
    (hlb : ∀ p, IsWalk g start p → walkEnd start p = x → d ≤ walkLen p) :
    ∀ e ∈ neighbors g x, d + e.2 < INF := by
  intro e he
  obtain ⟨p, hp, hend⟩ := hr
  obtain ⟨q, hq, hlen⟩ := exists_simplePath g hg.nonneg p start hp
  rw [hend] at hq
  have h1 := hlb q hq.1 hq.2.1
  have h2 := simplePath_step_le_total g hg.nonneg start x q hq e he
  have h3 := hg.bounded
  omega

theorem settled_no_overflow (g : AdjMap) (hg : GoodGraph g) (start : Int) (S : Int → Prop)
    (C : Int → List (Int × Int)) (lo : Int) (s : DState) (hI : NInv g start S C lo s)
    (x : Int) (hx : S x) : ∀ e ∈ neighbors g x, distAt s.dist x + e.2 < INF := by
  obtain ⟨hk, hfin, _, hlb⟩ := hI.settled x hx
  obtain ⟨l, hl⟩ := hI.chain x hk hfin
  obtain ⟨p, h1, h2, _, _⟩ := schain_walk g start S C lo s hI x l hl
  exact lower_bound_no_overflow g hg start x _ ⟨p, h1, h2⟩ hlb

/-- Between iterations every walk from `start` either is at least as long as
some frontier entry, or ends in an expanded node whose recorded distance it
does not undercut. -/
theorem walk_frontier (g : AdjMap) (hg : GoodGraph g) (start : Int) (hstart : start ∈ IMap.keys g)
    (S : Int → Prop) (lo : Int) (s : DState) (hI : NInv g start S (neighbors g) lo s) :
    ∀ p, IsWalk g start p →
      (∃ e ∈ s.pq, e.1 ≤ walkLen p) ∨
        (S (walkEnd start p) ∧ distAt s.dist (walkEnd start p) ≤ walkLen p) := by
  intro p
  induction p using List.reverseRecOn with
  | nil =>
    intro _
    have h0 := hI.dist_start
    rcases hI.frontier start hstart (by rw [h0]; decide) with h | h
    · right
      refine ⟨h, ?_⟩
      show distAt s.dist start ≤ walkLen []
      rw [h0]; simp [walkLen]
    · left
      exact ⟨_, h, by rw [h0]; simp [walkLen]⟩
  | append_singleton q e ih =>
    intro hw
    rw [isWalk_append] at hw
    obtain ⟨hq, he, _⟩ := hw
    have hpos := hg.nonneg _ e he
    have hlen : walkLen (q ++ [e]) = walkLen q + e.2 := by
      rw [walkLen_append]; simp [walkLen]
    have hend : walkEnd start (q ++ [e]) = e.1 := by
      rw [walkEnd_append]; rfl
    rcases ih hq with ⟨e', he', hle⟩ | ⟨hS, hle⟩
    · left
      exact ⟨e', he', by omega⟩
    · have hcl := hI.closed _ hS e he
      have hov := settled_no_overflow g hg start S _ lo s hI _ hS e he
      have hkey := hg.nbrs _ e he
      rcases hI.frontier e.1 hkey (by omega) with h | h
      · right
        rw [hend]
        exact ⟨h, by omega⟩
      · left
        exact ⟨_, h, by simp only; omega⟩

/-- One relaxation, while node `u` is being expanded, keeps the invariant and
records the edge as relaxed. -/
theorem relaxEdge_ninv (g : AdjMap) (hg : GoodGraph g) (start u : Int) (S : Int → Prop)
    (seen : List (Int × Int)) (s : DState) (e : Int × Int)
    (hI : NInv g start S (closedRows g u seen) (distAt s.dist u) s)
    (hSu : S u) (he : e ∈ neighbors g u) :
    NInv g start S (closedRows g u (seen ++ [e])) (distAt s.dist u) (relaxEdge u s e) ∧
      distAt (relaxEdge u s e).dist u = distAt s.dist u := by
  have hpos := hg.nonneg u e he
  have hd0 := hI.dist_nonneg u
  have hov := settled_no_overflow g hg start S _ _ s hI u hSu e he
  have hwrap : wrap32 (distAt s.dist u + e.2) = distAt s.dist u + e.2 :=
    wrap32_id _ (by omega) (by unfold INF at hov; omega)
  have hkey : e.1 ∈ IMap.keys g := hg.nbrs u e he
  unfold relaxEdge
  simp only [hwrap]
  split_ifs with h
  · have hvu : e.1 ≠ u := by
      intro hc; rw [hc] at h; omega
    have hSv : ¬ S e.1 := by
      intro hc
      have := (hI.settled e.1 hc).2.2.1
      omega
    have hvs : e.1 ≠ start := by
      intro hc
      have := hI.dist_start
      rw [hc] at h
      omega
    have huv : u ≠ e.1 := fun hc => hvu hc.symm
    have hdu : distAt (s.dist.insert e.1 (distAt s.dist u + e.2)) u = distAt s.dist u := by
      rw [distAt_insert, if_neg huv]
    refine ⟨⟨?_, ?_, ?_, ?_, ?_, ?_, ?_, ?_⟩, hdu⟩
    · show distAt (s.dist.insert e.1 (distAt s.dist u + e.2)) start = 0
      rw [distAt_insert, if_neg (fun hc => hvs hc.symm)]
      exact hI.dist_start
    · intro x
      show 0 ≤ distAt (s.dist.insert e.1 (distAt s.dist u + e.2)) x
      rw [distAt_insert]
      split_ifs
      · omega
      · exact hI.dist_nonneg x
    · intro e' he'
      show distAt (s.dist.insert e.1 (distAt s.dist u + e.2)) e'.2 ≤ e'.1 ∧
        distAt s.dist u ≤ e'.1
      rw [distAt_insert]
      rcases List.mem_cons.1 he' with h1 | h1
      · subst h1
        simp only [if_true]
        omega
      · obtain ⟨a, b⟩ := hI.pq_ge e' h1
        refine ⟨?_, b⟩
        split_ifs with hx
        · rw [hx] at a; omega
        · exact a
    · intro x hx hlt
      show S x ∨ (distAt (s.dist.insert e.1 (distAt s.dist u + e.2)) x, x) ∈
        (distAt s.dist u + e.2, e.1) :: s.pq
      change distAt (s.dist.insert e.1 (distAt s.dist u + e.2)) x < INF at hlt
      rw [distAt_insert] at hlt ⊢
      by_cases hxv : x = e.1
      · right
        rw [if_pos hxv, hxv]
        exact List.mem_cons_self _ _
      · rw [if_neg hxv] at hlt ⊢
        rcases hI.frontier x hx hlt with h1 | h1
        · exact Or.inl h1
        · exact Or.inr (List.mem_cons_of_mem _ h1)
    · intro x hx
      have hxv : x ≠ e.1 := fun hc => hSv (hc ▸ hx)
      show x ∈ IMap.keys g ∧ distAt (s.dist.insert e.1 (distAt s.dist u + e.2)) x < INF ∧
        distAt (s.dist.insert e.1 (distAt s.dist u + e.2)) x ≤ distAt s.dist u ∧
        ∀ p, IsWalk g start p → walkEnd start p = x →
          distAt (s.dist.insert e.1 (distAt s.dist u + e.2)) x ≤ walkLen p
      rw [distAt_insert, if_neg hxv]
      exact hI.settled x hx
    · intro x hx e' he'
      have hxv : x ≠ e.1 := fun hc => hSv (hc ▸ hx)
      show distAt (s.dist.insert e.1 (distAt s.dist u + e.2)) e'.1 ≤
        distAt (s.dist.insert e.1 (distAt s.dist u + e.2)) x + e'.2
      rw [distAt_insert, distAt_insert, if_neg hxv]
      have hold : e' ∈ closedRows g u seen x → distAt s.dist e'.1 ≤ distAt s.dist x + e'.2 :=
        fun hm => hI.closed x hx e' hm
      unfold closedRows at he' hold
      by_cases hxu : x = u
      · rw [if_pos hxu] at he' hold
        rcases List.mem_append.1 he' with h1 | h1
        · have := hold h1
          split_ifs with hx
          · rw [hx] at this; omega
          · exact this
        · simp only [List.mem_singleton] at h1
          subst h1
          rw [hxu]
          simp
      · rw [if_neg hxu] at he' hold
        have := hold he'
        split_ifs with hx
        · rw [hx] at this; omega
        · exact this
    · intro x hx hlt
      change distAt (s.dist.insert e.1 (distAt s.dist u + e.2)) x < INF at hlt
      show ∃ l, SChain (s.parent.insert e.1 u) start S x l
      by_cases hxv : x = e.1
      · obtain ⟨hku, hfu, _, _⟩ := hI.settled u hSu
        obtain ⟨l, hl⟩ := hI.chain u hku hfu
        refine ⟨l ++ [x], SChain.step u x l (hxv ▸ hvs) ?_ hSu ?_⟩
        · rw [IMap.find?_insert, if_pos hxv]
        · exact schain_insert s.parent start S e.1 u hSv u l hl huv
      · rw [distAt_insert, if_neg hxv] at hlt
        obtain ⟨l, hl⟩ := hI.chain x hx hlt
        exact ⟨l, schain_insert s.parent start S e.1 u hSv x l hl hxv⟩
    · intro v p hvp
      change IMap.find? (s.parent.insert e.1 u) v = some p at hvp
      show v ≠ p ∧ S p ∧ ∃ w, (v, w) ∈ neighbors g p ∧
        distAt (s.dist.insert e.1 (distAt s.dist u + e.2)) v =
          distAt (s.dist.insert e.1 (distAt s.dist u + e.2)) p + w
      rw [IMap.find?_insert] at hvp
      by_cases hv : v = e.1
      · rw [if_pos hv] at hvp
        simp only [Option.some.injEq] at hvp
        subst hvp
        refine ⟨hv ▸ hvu, hSu, e.2, hv ▸ he, ?_⟩
        rw [distAt_insert, distAt_insert, if_pos hv, if_neg huv]
      · rw [if_neg hv] at hvp
        obtain ⟨a, hSp, w, hw, hd⟩ := hI.parent_edge v p hvp
        have hp : p ≠ e.1 := fun hc => hSv (hc ▸ hSp)
        refine ⟨a, hSp, w, hw, ?_⟩
        rw [distAt_insert, distAt_insert, if_neg hv, if_neg hp]
        exact hd
  · refine ⟨⟨hI.dist_start, hI.dist_nonneg, hI.pq_ge, hI.frontier, hI.settled, ?_, hI.chain,
      hI.parent_edge⟩, rfl⟩
    intro x hx e' he'
    unfold closedRows at he'
    by_cases hxu : x = u
    · rw [if_pos hxu] at he'
      rcases List.mem_append.1 he' with h1 | h1
      · exact hI.closed x hx e' (by unfold closedRows; rw [if_pos hxu]; exact h1)
      · simp only [List.mem_singleton] at h1
        subst h1
        rw [hxu]
        omega
    · rw [if_neg hxu] at he'
      exact hI.closed x hx e' (by unfold closedRows; rw [if_neg hxu]; exact he')

theorem foldl_relaxEdge_ninv (g : AdjMap) (hg : GoodGraph g) (start u : Int) (S : Int → Prop)
    (hSu : S u) :
    ∀ (rest seen : List (Int × Int)) (s : DState), (∀ e ∈ rest, e ∈ neighbors g u) →
      NInv g start S (closedRows g u seen) (distAt s.dist u) s →
      NInv g start S (closedRows g u (seen ++ rest)) (distAt s.dist u)
          (rest.foldl (relaxEdge u) s) ∧
        distAt (rest.foldl (relaxEdge u) s).dist u = distAt s.dist u := by
  intro rest
  induction rest with
  | nil =>
    intro seen s _ hI
    rw [List.append_nil]
    exact ⟨hI, rfl⟩
  | cons e t ih =>
    intro seen s hrest hI
    obtain ⟨h1, h2⟩ := relaxEdge_ninv g hg start u S seen s e hI hSu
      (hrest e (List.mem_cons_self _ _))
    rw [← h2] at h1
    obtain ⟨h3, h4⟩ := ih (seen ++ [e]) (relaxEdge u s e)
      (fun e' he' => hrest e' (List.mem_cons_of_mem _ he')) h1
    rw [h2] at h3
    simp only [List.foldl_cons]
    rw [List.append_assoc] at h3
    exact ⟨h3, by rw [h4, h2]⟩

theorem ninv_closedRows_full (g : AdjMap) (start u : Int) (S : Int → Prop) (lo : Int)
    (s : DState) (hI : NInv g start S (closedRows g u (neighbors g u)) lo s) :
    NInv g start S (neighbors g) lo s := by
  refine ⟨hI.dist_start, hI.dist_nonneg, hI.pq_ge, hI.frontier, hI.settled, ?_, hI.chain,
    hI.parent_edge⟩
  intro x hx e he
  apply hI.closed x hx e
  unfold closedRows
  split_ifs with h
  · rw [h] at he; exact he
  · exact he

theorem ninv_init (g : AdjMap) (start : Int) :
    NInv g start (fun _ => False) (neighbors g) 0 (initState g start) := by
  refine ⟨?_, ?_, ?_, ?_, ?_, ?_, ?_, ?_⟩
  · rw [distAt_init]; simp
  · intro x
    rw [distAt_init]
    unfold INF
    split_ifs <;> omega
  · intro e he
    simp only [initState, List.mem_singleton] at he
    subst he
    rw [distAt_init]
    simp
  · intro x hx hlt
    rw [distAt_init] at hlt ⊢
    by_cases h : x = start
    · right
      simp [h, initState]
    · simp [h, hx] at hlt
  · intro x hx; exact absurd hx id
  · intro x hx; exact absurd hx id
  · intro x hx hlt
    rw [distAt_init] at hlt
    by_cases h : x = start
    · subst h
      exact ⟨[x], SChain.base⟩
    · simp [h, hx] at hlt
  · intro v u h
    simp [initState, IMap.find?] at h

theorem ninv_stale (g : AdjMap) (start : Int) (S : Int → Prop) (lo : Int) (s : DState)
    (hI : NInv g start S (neighbors g) lo s) (top : Int × Int)
    (hstale : distAt s.dist top.2 < top.1) :
    NInv g start S (neighbors g) lo { s with pq := s.pq.erase top } := by
  refine ⟨hI.dist_start, hI.dist_nonneg, ?_, ?_, hI.settled, hI.closed, hI.chain,
    hI.parent_edge⟩
  · intro e he
    exact hI.pq_ge e (List.mem_of_mem_erase he)
  · intro x hx hlt
    rcases hI.frontier x hx hlt with h | h
    · exact Or.inl h
    · right
      apply (List.mem_erase_of_ne ?_).2 h
      intro hc
      rw [← hc] at hstale
      simp only at hstale
      omega

/-- Taking a fresh entry from the frontier: its node has its final distance,
and the invariant holds with that node counted as expanded and none of its
edges relaxed yet. -/
theorem ninv_pop (g : AdjMap) (hg : GoodGraph g) (start : Int) (hstart : start ∈ IMap.keys g)
    (S : Int → Prop) (lo : Int) (s : DState) (hG : GInv g start s)
    (hI : NInv g start S (neighbors g) lo s) (top : Int × Int)
    (htop : pqTop s.pq = some top) (hfresh : top.1 ≤ distAt s.dist top.2) :
    top.1 = distAt s.dist top.2 ∧
    (∀ p, IsWalk g start p → walkEnd start p = top.2 → distAt s.dist top.2 ≤ walkLen p) ∧
    NInv g start (fun x => S x ∨ x = top.2) (closedRows g top.2 []) (distAt s.dist top.2)
      { s with pq := s.pq.erase top } := by
  have hmem := pqTop_mem s.pq top htop
  have hmin := pqTop_le s.pq top htop
  obtain ⟨hge, hlo⟩ := hI.pq_ge top hmem
  have heq : top.1 = distAt s.dist top.2 := le_antisymm hfresh hge
  obtain ⟨hkey, _, hfin⟩ := hG.pq_ok top hmem
  have hlb : ∀ p, IsWalk g start p → walkEnd start p = top.2 →
      distAt s.dist top.2 ≤ walkLen p := by
    intro p hp hend
    rcases walk_frontier g hg start hstart S lo s hI p hp with ⟨e, he, hle⟩ | ⟨_, hle⟩
    · have := hmin e he
      omega
    · rw [hend] at hle; exact hle
  refine ⟨heq, hlb, ⟨hI.dist_start, hI.dist_nonneg, ?_, ?_, ?_, ?_, ?_, ?_⟩⟩
  · intro e he
    have hm := List.mem_of_mem_erase he
    refine ⟨(hI.pq_ge e hm).1, ?_⟩
    have := hmin e hm
    omega
  · intro x hx hlt
    rcases hI.frontier x hx hlt with h | h
    · exact Or.inl (Or.inl h)
    · by_cases hxu : x = top.2
      · exact Or.inl (Or.inr hxu)
      · right
        apply (List.mem_erase_of_ne ?_).2 h
        intro hc
        apply hxu
        rw [← hc]
  · intro x hx
    rcases hx with hx | hx
    · obtain ⟨a, b, c, d⟩ := hI.settled x hx
      have hlo2 : lo ≤ distAt s.dist top.2 := by omega
      exact ⟨a, b, le_trans c hlo2, d⟩
    · subst hx
      exact ⟨hkey, hfin, le_refl _, hlb⟩
  · intro x hx e he
    unfold closedRows at he
    by_cases hxu : x = top.2
    · rw [if_pos hxu] at he
      simp at he
    · rw [if_neg hxu] at he
      rcases hx with hx | hx
      · exact hI.closed x hx e he
      · exact absurd hx hxu
  · intro x hx hlt
    obtain ⟨l, hl⟩ := hI.chain x hx hlt
    exact ⟨l, schain_mono s.parent start S _ (fun y hy => Or.inl hy) x l hl⟩
  · intro v u h
    obtain ⟨a, b, c⟩ := hI.parent_edge v u h
    exact ⟨a, Or.inl b, c⟩

/-- The property kept by the main loop on a good graph. -/
theorem iterate_cont_ninv (g : AdjMap) (hg : GoodGraph g) (start end_ : Int)
    (hstart : start ∈ IMap.keys g) (s s1 : DState)
    (hP : GInv g start s ∧ ∃ S lo, NInv g start S (neighbors g) lo s)
    (hit : iterate end_ s = .cont s1) :
    (GInv g start s1 ∧ ∃ S lo, NInv g start S (neighbors g) lo s1) ∧
      loopMeasure g s1 < loopMeasure g s := by
  obtain ⟨hG, S, lo, hI⟩ := hP
  obtain ⟨hG1, hμ⟩ := iterate_cont_ginv g start end_ hg.nbrs s s1 hG hit
  refine ⟨⟨hG1, ?_⟩, hμ⟩
  unfold iterate at hit
  cases htop : pqTop s.pq with
  | none => simp [htop] at hit
  | some top =>
    simp only [htop] at hit
    split_ifs at hit with h1 h2
    · simp only [Step.cont.injEq] at hit
      subst hit
      exact ⟨S, lo, ninv_stale g start S lo s hI top h1⟩
    · simp only [Step.cont.injEq] at hit
      subst hit
      simp only [gt_iff_lt, not_lt] at h1
      obtain ⟨_, _, hpop⟩ := ninv_pop g hg start hstart S lo s hG hI top htop h1
      rw [adjIndex_fst, hG.adj_eq]
      have hpop2 : NInv g start (fun x => S x ∨ x = top.2) (closedRows g top.2 [])
          (distAt ({ s with pq := s.pq.erase top, adj := (adjIndex g top.2).2 } : DState).dist
            top.2)
          { s with pq := s.pq.erase top, adj := (adjIndex g top.2).2 } :=
        ⟨hpop.dist_start, hpop.dist_nonneg, hpop.pq_ge, hpop.frontier, hpop.settled,
          hpop.closed, hpop.chain, hpop.parent_edge⟩
      obtain ⟨hf, _⟩ := foldl_relaxEdge_ninv g hg start top.2 (fun x => S x ∨ x = top.2)
        (Or.inr rfl) (neighbors g top.2) []
        { s with pq := s.pq.erase top, adj := (adjIndex g top.2).2 } (fun e he => he) hpop2
      rw [List.nil_append] at hf
      exact ⟨_, _, ninv_closedRows_full g start top.2 _ _ _ hf⟩

/-! ## The reconstructed path -/

theorem minWeight_spec : ∀ (l : List Int), l ≠ [] →
    minWeight l ∈ l ∧ ∀ x ∈ l, minWeight l ≤ x := by
  intro l
  induction l with
  | nil => intro h; exact absurd rfl h
  | cons a t ih =>
    intro _
    cases t with
    | nil => simp [minWeight]
    | cons b t2 =>
      obtain ⟨h1, h2⟩ := ih (by simp)
      have hm : minWeight (a :: b :: t2) = min a (minWeight (b :: t2)) := rfl
      rw [hm]
      refine ⟨?_, ?_⟩
      · rcases min_choice a (minWeight (b :: t2)) with h | h
        · rw [h]; exact List.mem_cons_self _ _
        · rw [h]; exact List.mem_cons_of_mem _ h1
      · intro x hx
        rcases List.mem_cons.1 hx with hx | hx
        · subst hx; exact min_le_left _ _
        · exact le_trans (min_le_right _ _) (h2 x hx)

theorem lightest_eq (g : AdjMap) (u v w : Int) (hmem : (v, w) ∈ neighbors g u)
    (hmin : ∀ e ∈ neighbors g u, e.1 = v → w ≤ e.2) : lightest g u v = w := by
  unfold lightest
  have hw : w ∈ ((neighbors g u).filter (fun e => decide (e.1 = v))).map Prod.snd := by
    rw [List.mem_map]
    exact ⟨(v, w), by simp [List.mem_filter, hmem], rfl⟩
  obtain ⟨h1, h2⟩ := minWeight_spec _ (List.ne_nil_of_mem hw)
  apply le_antisymm (h2 w hw)
  rw [List.mem_map] at h1
  obtain ⟨e, he, heq⟩ := h1
  rw [List.mem_filter] at he
  rw [← heq]
  exact hmin e he.1 (by simpa using he.2)

theorem pathCost_snoc (g : AdjMap) (u v : Int) :
    ∀ (l : List Int), l.getLast? = some u →
      pathCost g (l ++ [v]) = pathCost g l + lightest g u v := by
  intro l
  induction l with
  | nil => intro h; simp at h
  | cons a t ih =>
    intro h
    cases t with
    | nil =>
      simp only [List.getLast?_singleton, Option.some.injEq] at h
      subst h
      simp [pathCost]
    | cons b t2 =>
      rw [List.getLast?_cons_cons] at h
      have := ih h
      show lightest g a b + pathCost g (b :: t2 ++ [v]) = lightest g a b + pathCost g (b :: t2) + _
      rw [this]
      omega

/-- The predecessor chain of a node is a path of the graph from `start` whose
lightest edges add up to the recorded distance. -/
theorem schain_path (g : AdjMap) (start : Int) (S : Int → Prop) (lo : Int) (s : DState)
    (hI : NInv g start S (neighbors g) lo s) (x : Int) (l : List Int)
    (h : SChain s.parent start S x l) :
    l.head? = some start ∧ l.getLast? = some x ∧
      List.Chain' (fun a b => ∃ w, (b, w) ∈ neighbors g a) l ∧
      pathCost g l = distAt s.dist x := by
  induction h with
  | base =>
    refine ⟨rfl, rfl, List.chain'_singleton _, ?_⟩
    rw [hI.dist_start]; rfl
  | step u v l hv hp hS _ ih =>
    obtain ⟨h1, h2, h3, h4⟩ := ih
    obtain ⟨_, _, w, hw, hd⟩ := hI.parent_edge v u hp
    have hne : l ≠ [] := by
      intro hc; rw [hc] at h1; simp at h1
    refine ⟨?_, List.getLast?_concat l, ?_, ?_⟩
    · rw [List.head?_append_of_ne_nil l hne]; exact h1
    · rw [List.chain'_append]
      refine ⟨h3, List.chain'_singleton _, ?_⟩
      intro a ha b hb
      rw [h2] at ha
      simp only [Option.mem_def, Option.some.injEq, List.head?_cons] at ha hb
      subst ha hb
      exact ⟨w, hw⟩
    · rw [pathCost_snoc g u v l h2, h4, hd]
      congr 1
      apply lightest_eq g u v w hw
      intro e he hev
      have := hI.closed u hS e he
      rw [hev] at this
      omega

theorem walkBack_schain (parent : IMap Int) (start : Int) (S : Int → Prop) (x : Int)
    (l : List Int) (h : SChain parent start S x l) :
    ∀ (fuel : Nat) (acc : List Int), l.length ≤ fuel →
      ∃ r, walkBack parent start fuel x acc = some r ∧ r ++ [start] = acc ++ l.reverse := by
  induction h with
  | base =>
    intro fuel acc _
    refine ⟨acc, ?_, rfl⟩
    cases fuel <;> simp [walkBack]
  | step u v l hv hp hS _ ih =>
    intro fuel acc hf
    rw [List.length_append] at hf
    obtain ⟨n, rfl⟩ : ∃ n, fuel = n + 1 := ⟨fuel - 1, by simp at hf; omega⟩
    have hpa : parentAt parent v = u := by simp [parentAt, hp]
    obtain ⟨r, h1, h2⟩ := ih n (acc ++ [v]) (by simp at hf; omega)
    refine ⟨r, ?_, ?_⟩
    · unfold walkBack
      rw [if_neg hv, hpa]
      exact h1
    · rw [h2]
      simp

/-- On a good graph the main loop ends with the distance of a reachable `end`
final: finite, attained by its predecessor chain, and a lower bound of every
walk. -/
theorem mainLoop_final (g : AdjMap) (hg : GoodGraph g) (start end_ : Int)
    (hstart : start ∈ IMap.keys g) (hr : Reach g start end_) :
    ∃ s0 r S lo, NInv g start S (neighbors g) lo s0 ∧
      r.dist = s0.dist ∧ r.parent = s0.parent ∧ r.adj = g ∧
      (∀ fuel, loopMeasure g (initState g start) < fuel →
        mainLoop end_ fuel (initState g start) = some r) ∧
      end_ ∈ IMap.keys g ∧ distAt s0.dist end_ < INF ∧
      (∀ p, IsWalk g start p → walkEnd start p = end_ → distAt s0.dist end_ ≤ walkLen p) := by
  obtain ⟨s0, r, ⟨hG, S, lo, hI⟩, hd, hrun⟩ := mainLoop_total end_
    (fun s => GInv g start s ∧ ∃ S lo, NInv g start S (neighbors g) lo s) (loopMeasure g)
    (fun s s1 hP hit => iterate_cont_ninv g hg start end_ hstart s s1 hP hit)
    (loopMeasure g (initState g start) + 1) (initState g start)
    ⟨ginv_init g start hstart, _, _, ninv_init g start⟩ (by omega)
  obtain ⟨hdist, hpar, hadj, hcase⟩ := iterate_done end_ s0 r hd
  have hrun2 : ∀ fuel, loopMeasure g (initState g start) < fuel →
      mainLoop end_ fuel (initState g start) = some r :=
    fun fuel hf => mainLoop_mono end_ _ fuel _ r hrun (by omega)
  rcases hcase with ⟨hpq, _⟩ | ⟨top, htop, htop2, hfresh, _⟩
  · obtain ⟨p, hp, hend⟩ := hr
    rcases walk_frontier g hg start hstart S lo s0 hI p hp with ⟨e, he, _⟩ | ⟨hS, _⟩
    · rw [hpq] at he; simp at he
    · rw [hend] at hS
      obtain ⟨a, b, _, d⟩ := hI.settled end_ hS
      exact ⟨s0, r, S, lo, hI, hdist, hpar, by rw [hadj, hG.adj_eq], hrun2, a, b, d⟩
  · rw [← htop2] at hfresh
    obtain ⟨_, hlb, _⟩ := ninv_pop g hg start hstart S lo s0 hG hI top htop hfresh
    obtain ⟨hkey, _, hfin⟩ := hG.pq_ok top (pqTop_mem s0.pq top htop)
    rw [htop2] at hlb hkey hfin
    exact ⟨s0, r, S, lo, hI, hdist, hpar, by rw [hadj, hG.adj_eq], hrun2, hkey, hfin, hlb⟩

/-- On a good graph a search between connected nodes succeeds; the reported
total is the recorded distance of `end`, a lower bound of all walks from
`start` to `end`, and the reported path is the predecessor chain of `end`. -/
theorem findRoute_found (cm : CampusMap) (hg : GoodGraph cm.adj) (start end_ : Int)
    (hs : start ∈ IMap.keys cm.adj) (hr : Reach cm.adj start end_) :
    ∃ (N : Nat) (total : Int) (path : List Int) (lines : List Line) (cm1 : CampusMap),
      (∀ fuel, N ≤ fuel →
        findRoute fuel cm start end_ = some (.found total path lines, cm1)) ∧
      0 ≤ total ∧ total < INF ∧
      (∀ p, IsWalk cm.adj start p → walkEnd start p = end_ → total ≤ walkLen p) ∧
      (∃ p, IsWalk cm.adj start p ∧ walkEnd start p = end_ ∧ walkLen p = total ∧
        walkNodes start p = path) ∧
      path.head? = some start ∧ path.getLast? = some end_ ∧
      List.Chain' (fun a b => ∃ w, (b, w) ∈ neighbors cm.adj a) path ∧
      pathCost cm.adj path = total := by
  obtain ⟨s0, r, S, lo, hI, hdist, hpar, hadj, hrun, hkey, hfin, hlb⟩ :=
    mainLoop_final cm.adj hg start end_ hs hr
  obtain ⟨l, hl⟩ := hI.chain end_ hkey hfin
  obtain ⟨p, hp1, hp2, hp3, hp4⟩ := schain_walk cm.adj start S _ lo s0 hI end_ l hl
  obtain ⟨c1, c2, c3, c4⟩ := schain_path cm.adj start S lo s0 hI end_ l hl
  refine ⟨max (loopMeasure cm.adj (initState cm.adj start) + 1) l.length,
    distAt s0.dist end_, l, (render cm l).2,
    ⟨(render cm l).1, cm.locationNames,
      cm.history.addEntry (cm.getLocationName start) (cm.getLocationName end_)
        (distAt s0.dist end_)⟩, ?_, hI.dist_nonneg end_, hfin, hlb, ⟨p, hp1, hp2, hp3, hp4⟩,
    c1, c2, c3, c4⟩
  intro fuel hf
  rw [findRoute_valid fuel cm start end_ hs hkey, hrun fuel (by omega)]
  simp only
  rw [hdist, if_neg (ne_of_lt hfin), hpar]
  obtain ⟨q, hq1, hq2⟩ := walkBack_schain s0.parent start S end_ l hl fuel [] (by omega)
  rw [hq1]
  simp only
  rw [hq2, hadj, campusMap_with_adj]
  simp

theorem goodGraph_built (ops : List BuildOp) (hw : ∀ w ∈ insertedWeights ops, 0 ≤ w)
    (hsum : (insertedWeights ops).sum < 1073741824) : GoodGraph (build ops).adj := by
  obtain ⟨h1, h2⟩ := built_weights ops
  refine ⟨(built_keys ops).1, fun u e he => hw _ (h1 u e he), ?_⟩
  rw [h2]
  unfold INF
  omega

/-! ## A hub and its two entrances -/

theorem iterate_single_cont (end_ : Int) (a : AdjMap) (dist parent : IMap Int) (d u : Int)
    (hfresh : d ≤ distAt dist u) (hne : u ≠ end_) (hkey : u ∈ IMap.keys a) :
    iterate end_ ⟨a, dist, parent, [(d, u)]⟩ =
      .cont ((neighbors a u).foldl (relaxEdge u) ⟨a, dist, parent, []⟩) := by
  unfold iterate
  have h1 : ¬ (d > distAt dist u) := by omega
  simp only [pqTop, List.erase_cons_head, h1, if_false, hne, adjIndex_fst,
    adjIndex_of_mem a u hkey]

theorem iterate_single_done (end_ : Int) (a : AdjMap) (dist parent : IMap Int) (d : Int)
    (hfresh : d ≤ distAt dist end_) :
    iterate end_ ⟨a, dist, parent, [(d, end_)]⟩ = .done ⟨a, dist, parent, []⟩ := by
  unfold iterate
  have h1 : ¬ (d > distAt dist end_) := by omega
  simp only [pqTop, List.erase_cons_head, h1, if_false, if_true]

/-- The search from one entrance of a hub to the other, when the entrances have
no other edges: the main loop expands the first entrance, then the hub, and
stops at the second entrance. -/
theorem hub_mainLoop (g : AdjMap) (hub e1 e2 d : Int)
    (h1h : e1 ≠ hub) (h2h : e2 ≠ hub) (h12 : e1 ≠ e2) (hd : 0 ≤ d) (h2d : 2 * d < INF)
    (hk1 : e1 ∈ IMap.keys g) (hkh : hub ∈ IMap.keys g) (hk2 : e2 ∈ IMap.keys g)
    (hn1 : neighbors g e1 = [(hub, d)]) (hnh : neighbors g hub = [(e1, d), (e2, d)])
    (fuel : Nat) (hf : 3 ≤ fuel) :
    mainLoop e2 fuel (initState g e1) =
      some ⟨g, (((initDist g).insert e1 0).insert hub d).insert e2 (2 * d),
        (IMap.insert (IMap.insert [] hub e1) e2 hub), []⟩ := by
  obtain ⟨n, rfl⟩ : ∃ n, fuel = n + 3 := ⟨fuel - 3, by omega⟩
  have hINF : INF = 2147483647 := rfl
  have d0 : distAt ((initDist g).insert e1 0) e1 = 0 := by
    have := distAt_init g e1 e1
    simpa [initState] using this
  have dh : distAt ((initDist g).insert e1 0) hub = INF := by
    have := distAt_init g e1 hub
    simpa [initState, h1h.symm, hkh] using this
  have d2 : distAt ((initDist g).insert e1 0) e2 = INF := by
    have := distAt_init g e1 e2
    simpa [initState, h12.symm, hk2] using this
  -- first iteration: expand `e1`
  have s1 : iterate e2 (initState g e1) =
      .cont ⟨g, ((initDist g).insert e1 0).insert hub d, IMap.insert [] hub e1, [(d, hub)]⟩ := by
    unfold initState
    rw [iterate_single_cont e2 g _ _ 0 e1 (by rw [d0]) h12 hk1, hn1]
    simp only [List.foldl_cons, List.foldl_nil]
    unfold relaxEdge
    simp only [d0, dh, zero_add]
    rw [wrap32_id d (by omega) (by omega), if_pos (by omega)]
  -- second iteration: expand the hub
  have dh' : distAt (((initDist g).insert e1 0).insert hub d) hub = d := by
    rw [distAt_insert, if_pos rfl]
  have s2 : iterate e2
      ⟨g, ((initDist g).insert e1 0).insert hub d, IMap.insert [] hub e1, [(d, hub)]⟩ =
      .cont ⟨g, (((initDist g).insert e1 0).insert hub d).insert e2 (2 * d),
        (IMap.insert (IMap.insert [] hub e1) e2 hub), [(2 * d, e2)]⟩ := by
    rw [iterate_single_cont e2 g _ _ d hub (by rw [dh']) h2h.symm hkh, hnh]
    simp only [List.foldl_cons, List.foldl_nil]
    have r1 : relaxEdge hub
        ⟨g, ((initDist g).insert e1 0).insert hub d, IMap.insert [] hub e1, []⟩ (e1, d) =
        ⟨g, ((initDist g).insert e1 0).insert hub d, IMap.insert [] hub e1, []⟩ := by
      unfold relaxEdge
      simp only [dh']
      rw [wrap32_id (d + d) (by omega) (by omega), distAt_insert, if_neg h1h, d0,
        if_neg (by omega)]
    rw [r1]
    unfold relaxEdge
    simp only [dh']
    rw [wrap32_id (d + d) (by omega) (by omega), distAt_insert, if_neg h2h, d2,
      if_pos (by omega)]
    have : d + d = 2 * d := by omega
    rw [this]
  -- third iteration: the second entrance is taken from the frontier
  have s3 : iterate e2
      ⟨g, (((initDist g).insert e1 0).insert hub d).insert e2 (2 * d),
        (IMap.insert (IMap.insert [] hub e1) e2 hub), [(2 * d, e2)]⟩ =
      .done ⟨g, (((initDist g).insert e1 0).insert hub d).insert e2 (2 * d),
        (IMap.insert (IMap.insert [] hub e1) e2 hub), []⟩ := by
    apply iterate_single_done
    rw [distAt_insert, if_pos rfl]
  show mainLoop e2 (n + 2 + 1) (initState g e1) = _
  unfold mainLoop
  rw [s1]
  simp only
  unfold mainLoop
  rw [s2]
  simp only
  unfold mainLoop
  rw [s3]

theorem hub_graph (cm0 : CampusMap) (h0 : cm0.adj = []) (hub e1 e2 d : Int) (name : String)
    (h1h : e1 ≠ hub) (h2h : e2 ≠ hub) (h12 : e1 ≠ e2) :
    neighbors (cm0.addMultiEntryDept hub name [e1, e2] d).adj e1 = [(hub, d)] ∧
    neighbors (cm0.addMultiEntryDept hub name [e1, e2] d).adj hub = [(e1, d), (e2, d)] ∧
    neighbors (cm0.addMultiEntryDept hub name [e1, e2] d).adj e2 = [(hub, d)] ∧
    e1 ∈ IMap.keys (cm0.addMultiEntryDept hub name [e1, e2] d).adj ∧
    hub ∈ IMap.keys (cm0.addMultiEntryDept hub name [e1, e2] d).adj ∧
    e2 ∈ IMap.keys (cm0.addMultiEntryDept hub name [e1, e2] d).adj := by
  have hn : ∀ x, neighbors (cm0.setLocationName hub name).adj x = [] := by
    intro x
    simp [CampusMap.setLocationName, h0, neighbors, IMap.find?]
  have hh1 : hub ≠ e1 := fun h => h1h h.symm
  have hh2 : hub ≠ e2 := fun h => h2h h.symm
  have h21 : e2 ≠ e1 := fun h => h12 h.symm
  unfold CampusMap.addMultiEntryDept
  simp only [List.foldl_cons, List.foldl_nil]
  refine ⟨?_, ?_, ?_, ?_, ?_, ?_⟩
  · simp [neighbors_addEdge, hn, h1h, h12]
  · simp [neighbors_addEdge, hn, hh1, hh2]
  · simp [neighbors_addEdge, hn, h2h, h21]
  · simp [mem_keys_addEdge]
  · simp [mem_keys_addEdge]
  · simp [mem_keys_addEdge]

/-- On a map whose only edges are those of a hub with two entrances, the
search from one entrance to the other goes through the hub and costs the
internal distance twice. -/
theorem hub_findRoute (cm0 : CampusMap) (h0 : cm0.adj = []) (hub e1 e2 d : Int)
    (name : String) (h1h : e1 ≠ hub) (h2h : e2 ≠ hub) (h12 : e1 ≠ e2) (hd : 0 ≤ d)
    (h2d : 2 * d < INF) (fuel : Nat) (hf : 3 ≤ fuel) :
    findRoute fuel (cm0.addMultiEntryDept hub name [e1, e2] d) e1 e2 =
      some (.found (2 * d) [e1, hub, e2]
        (render (cm0.addMultiEntryDept hub name [e1, e2] d) [e1, hub, e2]).2,
        ⟨(cm0.addMultiEntryDept hub name [e1, e2] d).adj,
         (cm0.addMultiEntryDept hub name [e1, e2] d).locationNames,
         (cm0.addMultiEntryDept hub name [e1, e2] d).history.addEntry
           ((cm0.addMultiEntryDept hub name [e1, e2] d).getLocationName e1)
           ((cm0.addMultiEntryDept hub name [e1, e2] d).getLocationName e2) (2 * d)⟩) := by
  obtain ⟨hn1, hnh, _, hk1, hkh, hk2⟩ := hub_graph cm0 h0 hub e1 e2 d name h1h h2h h12
  generalize cm0.addMultiEntryDept hub name [e1, e2] d = cm at *
  have hh1 : hub ≠ e1 := fun h => h1h h.symm
  have h21 : e2 ≠ e1 := fun h => h12 h.symm
  rw [findRoute_valid fuel cm e1 e2 hk1 hk2,
    hub_mainLoop cm.adj hub e1 e2 d h1h h2h h12 hd h2d hk1 hkh hk2 hn1 hnh fuel hf]
  simp only
  have hdist : distAt ((((initDist cm.adj).insert e1 0).insert hub d).insert e2 (2 * d)) e2
      = 2 * d := by
    rw [distAt_insert, if_pos rfl]
  rw [hdist, if_neg (ne_of_lt h2d), campusMap_with_adj]
  obtain ⟨n, rfl⟩ : ∃ n, fuel = n + 2 := ⟨fuel - 2, by omega⟩
  have hp2 : parentAt (IMap.insert (IMap.insert [] hub e1) e2 hub) e2 = hub := by
    simp [parentAt, IMap.find?_insert]
  have hph : parentAt (IMap.insert (IMap.insert [] hub e1) e2 hub) hub = e1 := by
    simp [parentAt, IMap.find?_insert, h2h.symm]
  have hwb : walkBack (IMap.insert (IMap.insert [] hub e1) e2 hub) e1 (n + 2) e2 [] =
      some [e2, hub] := by
    show walkBack _ e1 (n + 1 + 1) e2 [] = _
    unfold walkBack
    rw [if_neg h21, hp2]
    unfold walkBack
    rw [if_neg hh1, hph]
    cases n <;> simp [walkBack]
  rw [hwb]
  simp only [List.cons_append, List.nil_append, List.reverse_cons, List.reverse_nil]
  have hr : (render cm [e1, hub, e2]).1 = cm.adj := by
    apply render_fst
    intro y hy
    simp only [List.mem_cons, List.mem_singleton, List.not_mem_nil, or_false] at hy
    rcases hy with hy | hy | hy <;> subst hy <;> assumption
  rw [hr]

/-! ## History -/

theorem findRoute_history (fuel : Nat) (cm : CampusMap) (start end_ : Int)
    (out : Outcome) (cm1 : CampusMap)
    (h : findRoute fuel cm start end_ = some (out, cm1)) :
    cm1.history =
      match out with
      | .found total _ _ =>
        cm.history.addEntry (cm.getLocationName start) (cm.getLocationName end_) total
      | _ => cm.history := by
  by_cases hv : start ∉ IMap.keys cm.adj ∨ end_ ∉ IMap.keys cm.adj
  · rw [findRoute_invalid fuel cm start end_ hv] at h
    simp only [Option.some.injEq, Prod.mk.injEq] at h
    obtain ⟨h1, h2⟩ := h
    subst h1 h2
    rfl
  · simp only [not_or, not_not] at hv
    rw [findRoute_valid fuel cm start end_ hv.1 hv.2] at h
    cases hm : mainLoop end_ fuel (initState cm.adj start) with
    | none => simp [hm] at h
    | some s =>
      simp only [hm] at h
      split_ifs at h with hinf
      · simp only [Option.some.injEq, Prod.mk.injEq] at h
        obtain ⟨h1, h2⟩ := h
        subst h1 h2
        rfl
      · cases hw : walkBack s.parent start fuel end_ [] with
        | none => simp [hw] at h
        | some p =>
          simp only [hw, Option.some.injEq, Prod.mk.injEq] at h
          obtain ⟨h1, h2⟩ := h
          subst h1 h2
          rfl

theorem addEdge_history (cm : CampusMap) (u v w : Int) :
    (cm.addEdge u v w).history = cm.history := rfl

theorem applyOp_history (cm : CampusMap) (op : BuildOp) :
    (applyOp cm op).history = cm.history := by
  cases op with
  | setLocationName id name => rfl
  | addEdge u v w => rfl
  | addMultiEntryDept m name ents d =>
    simp only [applyOp, CampusMap.addMultiEntryDept]
    have key : ∀ (l : List Int) (c : CampusMap),
        (l.foldl (fun c ent => c.addEdge m ent d) c).history = c.history := by
      intro l
      induction l with
      | nil => intro c; rfl
      | cons e t ih => intro c; simp only [List.foldl_cons]; rw [ih]; rfl
    rw [key]
    rfl

theorem successRecord_entry (q : QueryLog) :
    (successEntry q).isSome = (successRecord q).isSome := by
  unfold successEntry successRecord
  cases q.outcome <;> rfl

theorem runCalls_history (fuel : Nat) :
    ∀ (calls : List Call) (cm cm1 : CampusMap) (log : List QueryLog),
      runCalls fuel cm calls = some (cm1, log) →
      cm1.history.fullHistory = cm.history.fullHistory ++ log.filterMap successRecord ∧
      cm1.history.recentSearches =
        (log.filterMap successEntry).reverse ++ cm.history.recentSearches := by
  intro calls
  induction calls with
  | nil =>
    intro cm cm1 log h
    simp only [runCalls, Option.some.injEq, Prod.mk.injEq] at h
    obtain ⟨h1, h2⟩ := h
    subst h1 h2
    simp
  | cons c t ih =>
    intro cm cm1 log h
    cases c with
    | populate op =>
      simp only [runCalls] at h
      have := ih (applyOp cm op) cm1 log h
      rw [applyOp_history] at this
      exact this
    | viewHistory =>
      simp only [runCalls] at h
      exact ih cm cm1 log h
    | findRoute start end_ =>
      simp only [runCalls] at h
      cases hf : findRoute fuel cm start end_ with
      | none => simp [hf] at h
      | some r =>
        obtain ⟨out, cm2⟩ := r
        simp only [hf] at h
        cases hr : runCalls fuel cm2 t with
        | none => simp [hr] at h
        | some r2 =>
          obtain ⟨cm3, log2⟩ := r2
          simp only [hr, Option.some.injEq, Prod.mk.injEq] at h
          obtain ⟨h1, h2⟩ := h
          subst h1 h2
          obtain ⟨a, b⟩ := ih cm2 cm3 log2 hr
          have hh := findRoute_history fuel cm start end_ out cm2 hf
          rw [a, b, hh]
          cases out with
          | invalidNode => simp [successRecord, successEntry]
          | noPath => simp [successRecord, successEntry]
          | found total path lines =>
            simp [successRecord, successEntry, HistoryManager.addEntry]

theorem showRecentLoop_spec :
    ∀ (l : List String) (c : Nat),
      (HistoryManager.showRecentLoop l c).map Prod.snd = l.take (6 - c) ∧
      (HistoryManager.showRecentLoop l c).map Prod.fst = List.range' c (min l.length (6 - c)) := by
  intro l
  induction l with
  | nil => intro c; simp [HistoryManager.showRecentLoop]
  | cons a t ih =>
    intro c
    unfold HistoryManager.showRecentLoop
    split_ifs with h
    · obtain ⟨h1, h2⟩ := ih (c + 1)
      have e1 : 6 - c = (6 - (c + 1)) + 1 := by omega
      have e2 : min (a :: t).length (6 - c) = min t.length (6 - (c + 1)) + 1 := by
        simp only [List.length_cons]; omega
      rw [e2, e1]
      simp only [List.map_cons, List.take_succ_cons, List.range'_succ, h1, h2]
      exact ⟨trivial, trivial⟩
    · have e1 : 6 - c = 0 := by omega
      simp [e1]

theorem length_filterMap_entry (log : List QueryLog) :
    (log.filterMap successEntry).length = successCount log := by
  unfold successCount
  induction log with
  | nil => rfl
  | cons q t ih =>
    have hq := successRecord_entry q
    simp only [List.filterMap_cons]
    cases h1 : successEntry q <;> cases h2 : successRecord q <;> simp [h1, h2] at hq ⊢ <;>
      exact ih

theorem findRoute_outcome_congr (fuel : Nat) (a : AdjMap) (n : IMap String)
    (h h1 : HistoryManager) (start end_ : Int) :
    (findRoute fuel ⟨a, n, h1⟩ start end_).map Prod.fst =
      (findRoute fuel ⟨a, n, h⟩ start end_).map Prod.fst := by
  by_cases hv : start ∉ IMap.keys a ∨ end_ ∉ IMap.keys a
  · rw [findRoute_invalid fuel ⟨a, n, h1⟩ start end_ hv,
      findRoute_invalid fuel ⟨a, n, h⟩ start end_ hv]
    rfl
  · simp only [not_or, not_not] at hv
    rw [findRoute_valid fuel ⟨a, n, h1⟩ start end_ hv.1 hv.2,
      findRoute_valid fuel ⟨a, n, h⟩ start end_ hv.1 hv.2]
    simp only
    cases mainLoop end_ fuel (initState a start) with
    | none => rfl
    | some s =>
      simp only
      split_ifs
      · rfl
      · cases walkBack s.parent start fuel end_ [] with
        | none => rfl
        | some p => rfl

/-- In the graph with the two separate edges 1-2 (weight -5) and 3-4 (weight 7)
node 3 cannot be reached from node 1. -/
theorem twoIslands_not_reach :
    ¬ Reach (build [.addEdge 1 2 (-5), .addEdge 3 4 7]).adj 1 3 := by
  have hadj : (build [.addEdge 1 2 (-5), .addEdge 3 4 7]).adj =
      [(1, [(2, -5)]), (2, [(1, -5)]), (3, [(4, 7)]), (4, [(3, 7)])] := by decide
  rw [hadj]
  have key : ∀ (p : List (Int × Int)) (s : Int), (s = 1 ∨ s = 2) →
      IsWalk [(1, [(2, -5)]), (2, [(1, -5)]), (3, [(4, 7)]), (4, [(3, 7)])] s p →
      (walkEnd s p = 1 ∨ walkEnd s p = 2) := by
    intro p
    induction p with
    | nil => intro s hs _; exact hs
    | cons e t ih =>
      intro s hs hw
      obtain ⟨h1, h2⟩ := hw
      apply ih e.1 _ h2
      rcases hs with hs | hs
      · subst hs
        have : e = (2, -5) := by simpa [neighbors, IMap.find?] using h1
        subst this
        exact Or.inr rfl
      · subst hs
        have : e = (1, -5) := by simpa [neighbors, IMap.find?] using h1
        subst this
        exact Or.inl rfl
  rintro ⟨p, hp, hend⟩
  rcases key p 1 (Or.inl rfl) hp with h | h <;> rw [hend] at h <;> exact absurd h (by decide)

/-! ## The rendering loop -/

theorem sizeMinus_of_le (n k : Nat) (hk : k ≤ n) (hn : n < 18446744073709551616) :
    sizeMinus n k = n - k := by
  unfold sizeMinus
  omega

theorem sizeMinus_one_two : sizeMinus 1 2 = 18446744073709551615 := by
  unfold sizeMinus
  omega

theorem render_single (cm : CampusMap) (s : Int) : render cm [s] = (cm.adj, []) := by
  have h1 : sizeMinus 1 1 = 0 := sizeMinus_of_le 1 1 (le_refl _) (by omega)
  have h2 : (0 : Nat) ≠ 18446744073709551615 := by omega
  have hr : List.range 1 = [0] := rfl
  rw [render, List.length_singleton, hr, List.foldl_cons, List.foldl_nil, renderStep]
  simp only [List.length_singleton, h1, sizeMinus_one_two, lt_irrefl, if_false, if_neg h2,
    if_true]

/-- A search from a known node to itself. -/
theorem findRoute_self_eq (cm : CampusMap) (s : Int) (hs : s ∈ IMap.keys cm.adj)
    (fuel : Nat) (hf : 1 ≤ fuel) :
    findRoute fuel cm s s =
      some (.found 0 [s] [],
        ⟨cm.adj, cm.locationNames,
          cm.history.addEntry (cm.getLocationName s) (cm.getLocationName s) 0⟩) := by
  obtain ⟨n, rfl⟩ : ∃ n, fuel = n + 1 := ⟨fuel - 1, by omega⟩
  have d0 : distAt ((initDist cm.adj).insert s 0) s = 0 := by
    rw [distAt_insert, if_pos rfl]
  have hm : mainLoop s (n + 1) (initState cm.adj s) =
      some ⟨cm.adj, (initDist cm.adj).insert s 0, [], []⟩ := by
    unfold mainLoop initState
    rw [iterate_single_done s cm.adj _ _ 0 (by rw [d0])]
  rw [findRoute_valid (n + 1) cm s s hs hs, hm]
  simp only
  have hI : (0 : Int) ≠ INF := by decide
  rw [d0, if_neg hI]
  have hw : walkBack ([] : IMap Int) s (n + 1) s [] = some [] := by
    unfold walkBack
    rw [if_pos rfl]
  rw [hw]
  simp only [List.nil_append, List.reverse_cons, List.reverse_nil, campusMap_with_adj,
    render_single]

theorem renderStep_neighbors (cm : CampusMap) (path : List Int) (acc : AdjMap × List Line)
    (i : Nat) (x : Int) :
    neighbors (renderStep cm path acc i).1 x = neighbors acc.1 x := by
  rw [renderStep_fst]
  split_ifs
  · exact neighbors_adjIndex _ _ _
  · rfl

theorem renderStep_snd (cm : CampusMap) (path : List Int) (acc : AdjMap × List Line)
    (i : Nat) (hn : path.length < 18446744073709551616) (hi : i < path.length)
    (hacc : ∀ x, neighbors acc.1 x = neighbors cm.adj x) :
    (renderStep cm path acc i).2 =
      acc.2 ++
        (if i + 1 = path.length then []
         else if i + 2 = path.length then
           [Line.arrived (path.getD i 0) (cm.getLocationName (path.getD (i + 1) 0))]
         else [waypointLine cm (path.getD i 0),
           Line.weight (scanWeight (neighbors cm.adj (path.getD i 0)) (path.getD (i + 1) 0) 0)])
      := by
  have h1 : sizeMinus path.length 1 = path.length - 1 :=
    sizeMinus_of_le _ _ (by omega) hn
  unfold renderStep
  simp only [h1]
  by_cases hA : i + 1 = path.length
  · have hlt : ¬ (i < path.length - 1) := by omega
    have h2 : i ≠ sizeMinus path.length 2 := by
      unfold sizeMinus; omega
    have h3 : i = path.length - 1 := by omega
    simp only [hlt, if_false, if_neg h2, if_pos h3, if_pos hA, List.append_nil]
  · have hlt : i < path.length - 1 := by omega
    have h2 : sizeMinus path.length 2 = path.length - 2 :=
      sizeMinus_of_le _ _ (by omega) hn
    simp only [hlt, if_true, h2, if_neg hA, adjIndex_fst, hacc]
    by_cases hB : i + 2 = path.length
    · have h4 : i = path.length - 2 := by omega
      simp only [if_pos h4, if_pos hB]
    · have h4 : ¬ (i = path.length - 2) := by omega
      have h5 : ¬ (i = path.length - 1) := by omega
      simp only [if_neg h4, if_neg h5, if_neg hB, waypointLine, List.append_assoc,
        List.singleton_append]

theorem foldl_renderStep (cm : CampusMap) (path : List Int)
    (hn : path.length < 18446744073709551616) :
    ∀ (m k : Nat) (acc : AdjMap × List Line), k + m = path.length →
      (∀ x, neighbors acc.1 x = neighbors cm.adj x) →
      ((List.range' k m).foldl (renderStep cm path) acc).2 =
        acc.2 ++ itinerary cm (path.drop k) := by
  intro m
  induction m with
  | zero =>
    intro k acc hk _
    have : path.drop k = [] := List.drop_eq_nil_of_le (by omega)
    simp [this, itinerary]
  | succ m ih =>
    intro k acc hk hacc
    have hi : k < path.length := by omega
    rw [List.range'_succ, List.foldl_cons,
      ih (k + 1) _ (by omega) (fun x => by rw [renderStep_neighbors]; exact hacc x),
      renderStep_snd cm path acc k hn hi hacc, List.append_assoc]
    congr 1
    have hd : path.drop k = path.getD k 0 :: path.drop (k + 1) := by
      rw [List.getD_eq_getElem _ _ hi]
      exact List.drop_eq_getElem_cons hi
    rw [hd]
    by_cases hA : k + 1 = path.length
    · have : path.drop (k + 1) = [] := List.drop_eq_nil_of_le (by omega)
      simp [hA, this, itinerary]
    · have hi1 : k + 1 < path.length := by omega
      have hd1 : path.drop (k + 1) = path.getD (k + 1) 0 :: path.drop (k + 2) := by
        rw [List.getD_eq_getElem _ _ hi1]
        exact List.drop_eq_getElem_cons hi1
      rw [hd1, if_neg hA]
      by_cases hB : k + 2 = path.length
      · have : path.drop (k + 2) = [] := List.drop_eq_nil_of_le (by omega)
        simp [hB, this, itinerary]
      · have hi2 : k + 2 < path.length := by omega
        have hd2 : path.drop (k + 2) = path.getD (k + 2) 0 :: path.drop (k + 3) := by
          rw [List.getD_eq_getElem _ _ hi2]
          exact List.drop_eq_getElem_cons hi2
        rw [hd2, if_neg hB]
        simp [itinerary]

/-- The rendering loop prints the itinerary of the specification. -/
theorem render_itinerary (cm : CampusMap) (path : List Int)
    (hn : path.length < 18446744073709551616) : (render cm path).2 = itinerary cm path := by
  unfold render
  rw [List.range_eq_range']
  have := foldl_renderStep cm path hn path.length 0 (cm.adj, []) (by omega) (fun _ => rfl)
  simpa using this

theorem waypointLine_stepId (cm : CampusMap) (id : Int) :
    (waypointLine cm id).stepId = some id ∧ (waypointLine cm id).weightOf = none ∧
      (waypointLine cm id).isArrival = false := by
  unfold waypointLine
  split_ifs <;> exact ⟨rfl, rfl, rfl⟩

/-- The shape of the itinerary of a path with at least two nodes. -/
theorem itinerary_shape (cm : CampusMap) :
    ∀ (rest : List Int) (a b : Int),
      (itinerary cm (a :: b :: rest)).filterMap Line.stepId = (a :: b :: rest).dropLast ∧
      (itinerary cm (a :: b :: rest)).filterMap Line.weightOf =
        (pairWeights cm.adj (a :: b :: rest)).dropLast ∧
      (∃ front x y, itinerary cm (a :: b :: rest) = front ++ [.arrived x (cm.getLocationName y)] ∧
        (a :: b :: rest).dropLast.getLast? = some x ∧ (a :: b :: rest).getLast? = some y ∧
        (∀ l ∈ front, l.isArrival = false) ∧
        front.filterMap Line.stepId = ((a :: b :: rest).dropLast).dropLast ∧
        (front.filter (fun l => l.stepId.isSome)) =
          (((a :: b :: rest).dropLast).dropLast).map (waypointLine cm)) := by
  intro rest
  induction rest with
  | nil =>
    intro a b
    refine ⟨rfl, rfl, [], a, b, rfl, rfl, rfl, ?_, rfl, rfl⟩
    intro l hl
    simp at hl
  | cons c t ih =>
    intro a b
    obtain ⟨h1, h2, front, x, y, h3, h4, h5, h6, h7, h8⟩ := ih b c
    obtain ⟨w1, w2, w3⟩ := waypointLine_stepId cm a
    have hit : itinerary cm (a :: b :: c :: t) =
        waypointLine cm a :: .weight (scanWeight (neighbors cm.adj a) b 0) ::
          itinerary cm (b :: c :: t) := rfl
    have hpw : pairWeights cm.adj (a :: b :: c :: t) =
        scanWeight (neighbors cm.adj a) b 0 :: pairWeights cm.adj (b :: c :: t) := rfl
    have hdl : (a :: b :: c :: t).dropLast = a :: (b :: c :: t).dropLast := rfl
    have hpne : pairWeights cm.adj (b :: c :: t) ≠ [] := by
      simp [pairWeights]
    refine ⟨?_, ?_, waypointLine cm a :: .weight (scanWeight (neighbors cm.adj a) b 0) :: front,
      x, y, ?_, ?_, ?_, ?_, ?_, ?_⟩
    · rw [hit, hdl, List.filterMap_cons, w1]
      simp only [List.filterMap_cons, Line.stepId, h1]
    · rw [hit, hpw, List.filterMap_cons, w2]
      simp only [List.filterMap_cons, Line.weightOf, h2]
      cases hp : pairWeights cm.adj (b :: c :: t) with
      | nil => exact absurd hp hpne
      | cons p q => simp [List.dropLast]
    · rw [hit, h3]; rfl
    · rw [hdl]
      have : (b :: c :: t).dropLast = b :: (c :: t).dropLast := rfl
      rw [this] at h4 ⊢
      rw [List.getLast?_cons_cons]
      exact h4
    · rw [List.getLast?_cons_cons]; exact h5
    · intro l hl
      rcases List.mem_cons.1 hl with hl | hl
      · rw [hl]; exact w3
      · rcases List.mem_cons.1 hl with hl | hl
        · rw [hl]; rfl
        · exact h6 l hl
    · rw [hdl]
      have : (b :: c :: t).dropLast = b :: (c :: t).dropLast := rfl
      rw [this] at h7 ⊢
      have e : (a :: b :: (c :: t).dropLast).dropLast = a :: (b :: (c :: t).dropLast).dropLast := by
        cases hc : (c :: t).dropLast <;> rfl
      rw [e, List.filterMap_cons, w1]
      simp only [List.filterMap_cons, Line.stepId, h7]
    · rw [hdl]
      have : (b :: c :: t).dropLast = b :: (c :: t).dropLast := rfl
      rw [this] at h8 ⊢
      have e : (a :: b :: (c :: t).dropLast).dropLast = a :: (b :: (c :: t).dropLast).dropLast := by
        cases hc : (c :: t).dropLast <;> rfl
      rw [e, List.map_cons, ← h8, List.filter_cons, w1]
      have hw : (Line.weight (scanWeight (neighbors cm.adj a) b 0)).stepId = none := rfl
      rw [List.filter_cons, hw]
      rfl

/-! ## Names, scans and successful searches -/

theorem scanWeight_eq_last (row : List (Int × Int)) (next : Int) :
    ∀ d, scanWeight row next d = lastEntryWeight row next d := by
  induction row with
  | nil => intro d; rfl
  | cons e t ih =>
    intro d
    have h1 : scanWeight (e :: t) next d = scanWeight t next (if e.1 = next then e.2 else d) := rfl
    rw [h1, ih]
    unfold lastEntryWeight
    by_cases h : e.1 = next
    · simp only [h, if_true, List.filter_cons, decide_True]
      cases hf : t.filter (fun e => decide (e.1 = next)) with
      | nil => rfl
      | cons a l =>
        rw [List.getLast?_cons_cons, List.getLast?_eq_getLast _ (List.cons_ne_nil a l)]
        rfl
    · simp only [h, if_false, List.filter_cons, decide_False]
      rfl

theorem foldl_addEdge_names (m d : Int) :
    ∀ (ents : List Int) (c : CampusMap),
      (ents.foldl (fun c ent => c.addEdge m ent d) c).locationNames = c.locationNames := by
  intro ents
  induction ents with
  | nil => intro c; rfl
  | cons e t ih => intro c; simp only [List.foldl_cons]; rw [ih]; rfl

theorem addMultiEntryDept_names (cm : CampusMap) (m : Int) (name : String) (ents : List Int)
    (d : Int) :
    (cm.addMultiEntryDept m name ents d).locationNames = cm.locationNames.insert m name := by
  unfold CampusMap.addMultiEntryDept
  rw [foldl_addEdge_names]
  rfl

theorem foldl_addEdge_neighbors (m d : Int) :
    ∀ (ents : List Int) (c : CampusMap) (x : Int),
      neighbors (ents.foldl (fun c ent => c.addEdge m ent d) c).adj x =
        neighbors c.adj x ++
          ents.flatMap (fun e => (if x = m then [(e, d)] else []) ++
            (if x = e then [(m, d)] else [])) := by
  intro ents
  induction ents with
  | nil => intro c x; simp
  | cons e t ih =>
    intro c x
    simp only [List.foldl_cons, List.flatMap_cons]
    rw [ih, neighbors_addEdge]
    by_cases h1 : x = m <;> simp [h1]

theorem getLocationName_applyOp (cm : CampusMap) (op : BuildOp) (id : Int) :
    (applyOp cm op).getLocationName id =
      match opName id op with
      | some name => name
      | none => cm.getLocationName id := by
  cases op with
  | setLocationName i name =>
    simp only [applyOp, opName, CampusMap.getLocationName, CampusMap.setLocationName,
      IMap.find?_insert]
    by_cases h : i = id
    · simp [h]
    · have h2 : ¬ id = i := fun e => h e.symm
      simp [h, h2]
  | addEdge u v w => rfl
  | addMultiEntryDept m name ents d =>
    simp only [applyOp, opName, CampusMap.getLocationName, addMultiEntryDept_names,
      IMap.find?_insert]
    by_cases h : m = id
    · simp [h]
    · have h2 : ¬ id = m := fun e => h e.symm
      simp [h, h2]

theorem build_append (ops : List BuildOp) (op : BuildOp) :
    build (ops ++ [op]) = applyOp (build ops) op := by
  simp [build, List.foldl_append]

theorem getLocationName_build (ops : List BuildOp) (id : Int) :
    (build ops).getLocationName id =
      ((registeredNames ops id).getLast?).getD "Path/Turn" := by
  induction ops using List.reverseRecOn with
  | nil => rfl
  | append_singleton l op ih =>
    rw [build_append, getLocationName_applyOp, ih]
    unfold registeredNames
    rw [List.filterMap_append]
    cases h : opName id op with
    | none => simp [h]
    | some name => simp [h]

theorem waypointLine_iff (cm : CampusMap) (id : Int) :
    (waypointLine cm id = .named id (cm.getLocationName id) ↔
        cm.getLocationName id ≠ "Path/Turn") ∧
    (waypointLine cm id = .walkway id ↔ cm.getLocationName id = "Path/Turn") := by
  unfold waypointLine
  by_cases h : cm.getLocationName id = "Path/Turn"
  · simp [h]
  · simp [h]

/-- What a successful search on a map with well-formed rows has computed. -/
theorem findRoute_found_inv (cm : CampusMap) (hk : NbrsAreKeys cm.adj) (fuel : Nat)
    (start end_ : Int) (total : Int) (path : List Int) (lines : List Line) (cm1 : CampusMap)
    (h : findRoute fuel cm start end_ = some (.found total path lines, cm1)) :
    start ∈ IMap.keys cm.adj ∧ end_ ∈ IMap.keys cm.adj ∧ lines = (render cm path).2 ∧
      ∃ r p, mainLoop end_ fuel (initState cm.adj start) = some r ∧ r.adj = cm.adj ∧
        total = distAt r.dist end_ ∧ total ≠ INF ∧
        walkBack r.parent start fuel end_ [] = some p ∧ path = (p ++ [start]).reverse := by
  by_cases hv : start ∉ IMap.keys cm.adj ∨ end_ ∉ IMap.keys cm.adj
  · rw [findRoute_invalid fuel cm start end_ hv] at h
    simp at h
  · simp only [not_or, not_not] at hv
    obtain ⟨hs, he⟩ := hv
    rw [findRoute_valid fuel cm start end_ hs he] at h
    cases hm : mainLoop end_ fuel (initState cm.adj start) with
    | none => simp [hm] at h
    | some s =>
      simp only [hm] at h
      obtain ⟨s0, h0, hd⟩ := mainLoop_inv end_ (GInv cm.adj start)
        (fun s s1 hs hit => (iterate_cont_ginv cm.adj start end_ hk s s1 hs hit).1)
        fuel (initState cm.adj start) s (ginv_init cm.adj start hs) hm
      obtain ⟨_, _, hadj, _⟩ := iterate_done end_ s0 s hd
      have hsadj : s.adj = cm.adj := by rw [hadj]; exact h0.adj_eq
      split_ifs at h with hinf
      · simp at h
      · cases hw : walkBack s.parent start fuel end_ [] with
        | none => simp [hw] at h
        | some p =>
          simp only [hw, Option.some.injEq, Prod.mk.injEq, Outcome.found.injEq] at h
          obtain ⟨⟨h1, h2, h3⟩, _⟩ := h
          rw [hsadj, campusMap_with_adj] at h3
          exact ⟨hs, he, by rw [← h3, h2], s, p, rfl, hsadj, h1.symm, by rw [← h1]; exact hinf,
            hw, h2.symm⟩

theorem pairWeights_length (adj : AdjMap) :
    ∀ (path : List Int), (pairWeights adj path).length = path.length - 1 := by
  intro path
  induction path with
  | nil => rfl
  | cons a t ih =>
    cases t with
    | nil => rfl
    | cons b t2 =>
      have : pairWeights adj (a :: b :: t2) =
          scanWeight (neighbors adj a) b 0 :: pairWeights adj (b :: t2) := rfl
      rw [this, List.length_cons, ih]
      simp

/-! ## Lists of at least two nodes -/

theorem exists_cons_cons (path : List Int) (h : 2 ≤ path.length) :
    ∃ a b rest, path = a :: b :: rest := by
  cases path with
  | nil => simp at h
  | cons a t =>
    cases t with
    | nil => simp at h
    | cons b rest => exact ⟨a, b, rest, rfl⟩

/-! ## Extending the loop invariant -/

theorem foldl_relaxEdge_ext (g : AdjMap) (hg : GoodGraph g) (start u : Int)
    (X : (Int → Prop) → DState → Prop) (hX : ExtStep g start X) (S : Int → Prop) (hSu : S u) :
    ∀ (rest seen : List (Int × Int)) (s : DState), (∀ e ∈ rest, e ∈ neighbors g u) →
      NInv g start S (closedRows g u seen) (distAt s.dist u) s → X S s →
      NInv g start S (closedRows g u (seen ++ rest)) (distAt s.dist u)
          (rest.foldl (relaxEdge u) s) ∧
        X S (rest.foldl (relaxEdge u) s) := by
  intro rest
  induction rest with
  | nil =>
    intro seen s _ hI hx
    rw [List.append_nil]
    exact ⟨hI, hx⟩
  | cons e t ih =>
    intro seen s hrest hI hx
    have he := hrest e (List.mem_cons_self _ _)
    obtain ⟨h1, h2⟩ := relaxEdge_ninv g hg start u S seen s e hI hSu he
    have hx1 := hX.relax S u seen s e hI hx hSu he
    rw [← h2] at h1
    obtain ⟨h3, h4⟩ := ih (seen ++ [e]) (relaxEdge u s e)
      (fun e' he' => hrest e' (List.mem_cons_of_mem _ he')) h1 hx1
    rw [h2] at h3
    simp only [List.foldl_cons]
    rw [List.append_assoc] at h3
    exact ⟨h3, h4⟩

/-- An iteration that goes round again keeps the extended property and
decreases the measure. -/
theorem iterate_cont_ext (g : AdjMap) (hg : GoodGraph g) (start end_ : Int)
    (hstart : start ∈ IMap.keys g) (X : (Int → Prop) → DState → Prop)
    (hX : ExtStep g start X) (s s1 : DState) (hP : ExtInv g start X s)
    (hit : iterate end_ s = .cont s1) :
    ExtInv g start X s1 ∧ loopMeasure g s1 < loopMeasure g s := by
  obtain ⟨hG, S, lo, hI, hx⟩ := hP
  obtain ⟨hG1, hμ⟩ := iterate_cont_ginv g start end_ hg.nbrs s s1 hG hit
  refine ⟨⟨hG1, ?_⟩, hμ⟩
  unfold iterate at hit
  cases htop : pqTop s.pq with
  | none => simp [htop] at hit
  | some top =>
    simp only [htop] at hit
    split_ifs at hit with h1 h2
    · simp only [Step.cont.injEq] at hit
      subst hit
      exact ⟨S, lo, ninv_stale g start S lo s hI top h1, hX.stale S lo s top hG hI hx htop h1⟩
    · simp only [Step.cont.injEq] at hit
      subst hit
      simp only [gt_iff_lt, not_lt] at h1
      obtain ⟨_, _, hpop⟩ := ninv_pop g hg start hstart S lo s hG hI top htop h1
      have hxpop := hX.adj _ _ (adjIndex g top.2).2 (hX.pop S lo s top hG hI hx htop h1)
      rw [adjIndex_fst, hG.adj_eq]
      have hpop2 : NInv g start (fun x => S x ∨ x = top.2) (closedRows g top.2 [])
          (distAt ({ s with pq := s.pq.erase top, adj := (adjIndex g top.2).2 } : DState).dist
            top.2)
          { s with pq := s.pq.erase top, adj := (adjIndex g top.2).2 } :=
        ⟨hpop.dist_start, hpop.dist_nonneg, hpop.pq_ge, hpop.frontier, hpop.settled,
          hpop.closed, hpop.chain, hpop.parent_edge⟩
      obtain ⟨hf, hxf⟩ := foldl_relaxEdge_ext g hg start top.2 X hX (fun x => S x ∨ x = top.2)
        (Or.inr rfl) (neighbors g top.2) []
        { s with pq := s.pq.erase top, adj := (adjIndex g top.2).2 } (fun e he => he) hpop2
        hxpop
      rw [List.nil_append] at hf
      exact ⟨_, _, ninv_closedRows_full g start top.2 _ _ _ hf, hxf⟩

/-- The main loop ends on a good graph, leaving a state reached by an iteration
from a state with the extended property. -/
theorem mainLoop_final_ext (g : AdjMap) (hg : GoodGraph g) (start end_ : Int)
    (hstart : start ∈ IMap.keys g) (X : (Int → Prop) → DState → Prop)
    (hX : ExtStep g start X) (hinit : X (fun _ => False) (initState g start)) :
    ∃ s0 r, ExtInv g start X s0 ∧ iterate end_ s0 = .done r ∧
      ∀ fuel, loopMeasure g (initState g start) < fuel →
        mainLoop end_ fuel (initState g start) = some r := by
  obtain ⟨s0, r, h0, hd, hrun⟩ := mainLoop_total end_ (ExtInv g start X) (loopMeasure g)
    (fun s s1 hP hit => iterate_cont_ext g hg start end_ hstart X hX s s1 hP hit)
    (loopMeasure g (initState g start) + 1) (initState g start)
    ⟨ginv_init g start hstart, _, _, ninv_init g start, hinit⟩ (by omega)
  exact ⟨s0, r, h0, hd, fun fuel hf => mainLoop_mono end_ _ fuel _ r hrun (by omega)⟩

/-- Whenever the main loop returns on a good graph, it returns a state reached
by an iteration from a state with the extended property. -/
theorem mainLoop_inv_ext (g : AdjMap) (hg : GoodGraph g) (start end_ : Int)
    (hstart : start ∈ IMap.keys g) (X : (Int → Prop) → DState → Prop)
    (hX : ExtStep g start X) (hinit : X (fun _ => False) (initState g start))
    (fuel : Nat) (r : DState) (hm : mainLoop end_ fuel (initState g start) = some r) :
    ∃ s0, ExtInv g start X s0 ∧ iterate end_ s0 = .done r :=
  mainLoop_inv end_ (ExtInv g start X)
    (fun s s1 hP hit => (iterate_cont_ext g hg start end_ hstart X hX s s1 hP hit).1)
    fuel (initState g start) r ⟨ginv_init g start hstart, _, _, ninv_init g start, hinit⟩ hm

/-! ## The state of a successful search -/

theorem extStep_noExtra (g : AdjMap) (start : Int) : ExtStep g start NoExtra :=
  ⟨fun _ _ _ _ => trivial, fun _ _ _ _ _ _ _ _ _ => trivial,
    fun _ _ _ _ _ _ _ _ _ => trivial, fun _ _ _ _ _ _ _ _ _ => trivial⟩

theorem extStep_startRoot (g : AdjMap) (hg : GoodGraph g) (start : Int) :
    ExtStep g start (StartRoot start) := by
  refine ⟨fun _ _ _ h => h, fun _ _ _ _ _ _ h _ _ => h, fun _ _ _ _ _ _ h _ _ => h, ?_⟩
  intro S u seen s e hI hx hSu he
  have hpos := hg.nonneg u e he
  have hd0 := hI.dist_nonneg u
  have hov := settled_no_overflow g hg start S _ _ s hI u hSu e he
  have hwrap : wrap32 (distAt s.dist u + e.2) = distAt s.dist u + e.2 :=
    wrap32_id _ (by omega) (by unfold INF at hov; omega)
  unfold StartRoot relaxEdge at *
  simp only [hwrap]
  split_ifs with h
  · show IMap.find? (s.parent.insert e.1 u) start = none
    have hvs : start ≠ e.1 := by
      intro hc
      have := hI.dist_start
      rw [← hc] at h
      omega
    rw [IMap.find?_insert, if_neg hvs]
    exact hx
  · exact hx

theorem walkBack_mono (parent : IMap Int) (start : Int) :
    ∀ (n m : Nat) (v : Int) (acc p : List Int), walkBack parent start n v acc = some p →
      n ≤ m → walkBack parent start m v acc = some p := by
  intro n
  induction n with
  | zero =>
    intro m v acc p h _
    unfold walkBack at h
    split_ifs at h with hv
    cases m with
    | zero => unfold walkBack; rw [if_pos hv]; exact h
    | succ m => unfold walkBack; rw [if_pos hv]; exact h
  | succ n ih =>
    intro m v acc p h hle
    obtain ⟨m', rfl⟩ : ∃ m', m = m' + 1 := ⟨m - 1, by omega⟩
    unfold walkBack at h ⊢
    split_ifs at h ⊢ with hv
    · exact h
    · exact ih m' _ _ p h (by omega)

theorem schain_ne_nil (parent : IMap Int) (start : Int) (S : Int → Prop) (x : Int)
    (l : List Int) (h : SChain parent start S x l) : 1 ≤ l.length := by
  cases h with
  | base => simp
  | step u v l _ _ _ _ => simp

theorem walkBack_schain_tight (parent : IMap Int) (start : Int) (S : Int → Prop) (x : Int)
    (l : List Int) (h : SChain parent start S x l) :
    ∀ (fuel : Nat) (acc : List Int), l.length ≤ fuel + 1 →
      ∃ r, walkBack parent start fuel x acc = some r ∧ r ++ [start] = acc ++ l.reverse := by
  induction h with
  | base =>
    intro fuel acc _
    refine ⟨acc, ?_, rfl⟩
    cases fuel <;> simp [walkBack]
  | step u v l hv hp hS hc ih =>
    intro fuel acc hf
    have hl := schain_ne_nil parent start S u l hc
    rw [List.length_append, List.length_singleton] at hf
    obtain ⟨n, rfl⟩ : ∃ n, fuel = n + 1 := ⟨fuel - 1, by omega⟩
    have hpa : parentAt parent v = u := by simp [parentAt, hp]
    obtain ⟨r, h1, h2⟩ := ih n (acc ++ [v]) (by omega)
    refine ⟨r, ?_, ?_⟩
    · unfold walkBack
      rw [if_neg hv, hpa]
      exact h1
    · rw [h2]
      simp

/-- The nodes of a predecessor chain after `start`: none is `start`, and each
has a recorded predecessor. -/
theorem schain_nodes (parent : IMap Int) (start : Int) (S : Int → Prop) (x : Int)
    (l : List Int) (h : SChain parent start S x l) :
    ∃ tl, l = start :: tl ∧ ∀ v ∈ tl, v ≠ start ∧ ∃ u, parent.find? v = some u := by
  induction h with
  | base => exact ⟨[], rfl, fun v hv => by simp at hv⟩
  | step u v l hv hp hS _ ih =>
    obtain ⟨tl, h1, h2⟩ := ih
    refine ⟨tl ++ [v], by rw [h1]; rfl, ?_⟩
    intro y hy
    rcases List.mem_append.1 hy with hy | hy
    · exact h2 y hy
    · simp only [List.mem_singleton] at hy
      subst hy
      exact ⟨hv, u, hp⟩

theorem schain_dist_mono (g : AdjMap) (hg : GoodGraph g) (start : Int) (S : Int → Prop)
    (C : Int → List (Int × Int)) (lo : Int) (s : DState) (hI : NInv g start S C lo s)
    (x : Int) (l : List Int) (h : SChain s.parent start S x l) :
    l.getLast? = some x ∧
      List.Chain' (fun a b => distAt s.dist a ≤ distAt s.dist b) l := by
  induction h with
  | base => exact ⟨rfl, List.chain'_singleton _⟩
  | step u v l hv hp hS _ ih =>
    obtain ⟨h1, h2⟩ := ih
    obtain ⟨_, _, w, hw, hd⟩ := hI.parent_edge v u hp
    have hpos := hg.nonneg u _ hw
    refine ⟨List.getLast?_concat l, ?_⟩
    rw [List.chain'_append]
    refine ⟨h2, List.chain'_singleton _, ?_⟩
    intro a ha b hb
    rw [h1] at ha
    simp only [Option.mem_def, Option.some.injEq, List.head?_cons] at ha hb
    subst ha hb
    simp only at hpos
    omega

/-- The facts about the state in which the main loop is left. -/
theorem done_facts (g : AdjMap) (hg : GoodGraph g) (start end_ : Int)
    (hstart : start ∈ IMap.keys g) (S : Int → Prop) (lo : Int) (s0 r : DState)
    (hG : GInv g start s0) (hI : NInv g start S (neighbors g) lo s0)
    (hd : iterate end_ s0 = .done r) :
    r.dist = s0.dist ∧ r.parent = s0.parent ∧ r.adj = g ∧
    (∀ x, S x ∨ (x = end_ ∧ x ∈ IMap.keys g ∧ distAt s0.dist x < INF) →
      x ∈ IMap.keys g ∧ distAt s0.dist x < INF ∧
      (∀ p, IsWalk g start p → walkEnd start p = x → distAt s0.dist x ≤ walkLen p) ∧
      (∀ e ∈ s0.pq, distAt s0.dist x ≤ e.1)) := by
  obtain ⟨hdist, hpar, hadj, hcase⟩ := iterate_done end_ s0 r hd
  refine ⟨hdist, hpar, by rw [hadj, hG.adj_eq], ?_⟩
  have hS : ∀ x, S x → x ∈ IMap.keys g ∧ distAt s0.dist x < INF ∧
      (∀ p, IsWalk g start p → walkEnd start p = x → distAt s0.dist x ≤ walkLen p) ∧
      (∀ e ∈ s0.pq, distAt s0.dist x ≤ e.1) := by
    intro x hx
    obtain ⟨a, b, c, d⟩ := hI.settled x hx
    exact ⟨a, b, d, fun e he => le_trans c (hI.pq_ge e he).2⟩
  intro x hx
  rcases hx with hx | ⟨hxe, hk, hfin⟩
  · exact hS x hx
  · rcases hcase with ⟨hpq, _⟩ | ⟨top, htop, htop2, hfresh, _⟩
    · rcases hI.frontier x hk hfin with h | h
      · exact hS x h
      · rw [hpq] at h; simp at h
    · rw [← htop2] at hfresh
      obtain ⟨heq, hlb, _⟩ := ninv_pop g hg start hstart S lo s0 hG hI top htop hfresh
      rw [htop2, ← hxe] at hlb heq
      refine ⟨hk, hfin, hlb, ?_⟩
      intro e he
      have := pqTop_le s0.pq top htop e he
      omega

/-- What a successful search on a good graph has computed: the state the main
loop was left from carries the invariant, and the reported path is the
predecessor chain of `end`. -/
theorem findRoute_success_state (cm : CampusMap) (hg : GoodGraph cm.adj) (start : Int)
    (X : (Int → Prop) → DState → Prop) (hX : ExtStep cm.adj start X)
    (hinit : X (fun _ => False) (initState cm.adj start))
    (fuel : Nat) (end_ total : Int) (path : List Int) (lines : List Line) (cm1 : CampusMap)
    (hf : findRoute fuel cm start end_ = some (.found total path lines, cm1)) :
    ∃ s0 r S lo, mainLoop end_ fuel (initState cm.adj start) = some r ∧
      iterate end_ s0 = .done r ∧ GInv cm.adj start s0 ∧
      NInv cm.adj start S (neighbors cm.adj) lo s0 ∧ X S s0 ∧
      r.dist = s0.dist ∧ r.parent = s0.parent ∧
      total = distAt s0.dist end_ ∧ total < INF ∧
      start ∈ IMap.keys cm.adj ∧ end_ ∈ IMap.keys cm.adj ∧
      SChain s0.parent start S end_ path := by
  obtain ⟨hs, he, _, r, p, hm, _, htot, hne, hwb, hpath⟩ :=
    findRoute_found_inv cm hg.nbrs fuel start end_ total path lines cm1 hf
  obtain ⟨s0, ⟨hG, S, lo, hI, hx⟩, hd⟩ :=
    mainLoop_inv_ext cm.adj hg start end_ hs X hX hinit fuel r hm
  obtain ⟨hdist, hpar, _, _⟩ := iterate_done end_ s0 r hd
  rw [hdist] at htot
  have hfin : distAt s0.dist end_ < INF := by
    rw [htot] at hne
    exact lt_of_le_of_ne (hG.range end_).2 hne
  obtain ⟨l, hl⟩ := hI.chain end_ he hfin
  obtain ⟨q, hq1, hq2⟩ := walkBack_schain s0.parent start S end_ l hl (max fuel l.length) []
    (le_max_right _ _)
  rw [hpar] at hwb
  have := walkBack_mono s0.parent start fuel (max fuel l.length) end_ [] p hwb (le_max_left _ _)
  rw [hq1] at this
  simp only [Option.some.injEq] at this
  subst this
  have hpl : path = l := by
    rw [hpath, hq2]
    simp
  rw [hpl]
  exact ⟨s0, r, S, lo, hm, hd, hG, hI, hx, hdist, hpar, htot, by rw [htot]; exact hfin, hs, he,
    hl⟩

theorem walkBack_reaches (parent : IMap Int) (start : Int) :
    ∀ (fuel : Nat) (v : Int) (acc p : List Int), walkBack parent start fuel v acc = some p →
      ∃ j, j ≤ fuel ∧ (parentAt parent)^[j] v = start := by
  intro fuel
  induction fuel with
  | zero =>
    intro v acc p h
    unfold walkBack at h
    split_ifs at h with hv
    exact ⟨0, le_refl _, hv⟩
  | succ n ih =>
    intro v acc p h
    unfold walkBack at h
    split_ifs at h with hv
    · exact ⟨0, Nat.zero_le _, hv⟩
    · obtain ⟨j, hj, hjs⟩ := ih _ _ p h
      exact ⟨j + 1, by omega, by rw [Function.iterate_succ_apply]; exact hjs⟩

/-- A cycle of recorded predecessors cannot be left: if `k` steps lead from
`v` back to `v`, then every number of steps from `v` leads to one of the first
`k` nodes. -/
theorem iterate_cycle (f : Int → Int) (v : Int) (k : Nat)
    (hcyc : f^[k] v = v) (j : Nat) : f^[j] v = f^[j % k] v := by
  have hm : ∀ m, f^[k * m] v = v := by
    intro m
    rw [Function.iterate_mul]
    exact Function.iterate_fixed hcyc m
  have hj : j = j % k + k * (j / k) := (Nat.mod_add_div j k).symm
  conv_lhs => rw [hj]
  rw [Function.iterate_add_apply, hm]

/-! ## The predecessor walk from a chain -/

/-- On a good graph every node with finite recorded distance is led back to
`start` by the predecessor walk, through nodes that have a recorded
predecessor. -/
theorem walkBack_of_chain (parent : IMap Int) (start : Int) (S : Int → Prop) (x : Int)
    (l : List Int) (h : SChain parent start S x l) :
    ∃ p, (∀ fuel, p.length ≤ fuel → walkBack parent start fuel x [] = some p) ∧
      (∀ v ∈ p, v ≠ start ∧ ∃ u, parent.find? v = some u) := by
  obtain ⟨tl, htl, hnodes⟩ := schain_nodes parent start S x l h
  refine ⟨tl.reverse, ?_, fun v hv => hnodes v (List.mem_reverse.1 hv)⟩
  intro fuel hfuel
  obtain ⟨q, hq1, hq2⟩ := walkBack_schain_tight parent start S x l h fuel []
    (by rw [htl]; simp at hfuel ⊢; omega)
  rw [htl, List.nil_append, List.reverse_cons] at hq2
  have := List.append_cancel_right hq2
  rw [hq1, this]

/-! ## Early exit against exhaustion -/

theorem iterateExhaust_of_cont (end_ : Int) (s s1 : DState) (h : iterate end_ s = .cont s1) :
    iterateExhaust s = .cont s1 := by
  unfold iterate at h
  unfold iterateExhaust
  cases htop : pqTop s.pq with
  | none => simp [htop] at h
  | some top =>
    simp only [htop] at h ⊢
    split_ifs at h with h1 h2
    · rw [if_pos h1]; exact h
    · rw [if_neg h1]; exact h

theorem iterateExhaust_eq (s : DState) : ∃ e, iterateExhaust s = iterate e s := by
  unfold iterate iterateExhaust
  cases htop : pqTop s.pq with
  | none => exact ⟨0, rfl⟩
  | some top =>
    refine ⟨top.2 + 1, ?_⟩
    have hne : ¬ top.2 = top.2 + 1 := by omega
    simp only [if_neg hne]

theorem iterateExhaust_done (s r : DState) (h : iterateExhaust s = .done r) :
    s.pq = [] ∧ r = s := by
  unfold iterateExhaust at h
  cases htop : pqTop s.pq with
  | none =>
    simp only [htop, Step.done.injEq] at h
    exact ⟨(pqTop_eq_none s.pq).1 htop, h.symm⟩
  | some top =>
    simp only [htop] at h
    split_ifs at h

theorem iterateExhaust_cont_ext (g : AdjMap) (hg : GoodGraph g) (start : Int)
    (hstart : start ∈ IMap.keys g) (X : (Int → Prop) → DState → Prop)
    (hX : ExtStep g start X) (s s1 : DState) (hP : ExtInv g start X s)
    (hit : iterateExhaust s = .cont s1) :
    ExtInv g start X s1 ∧ loopMeasure g s1 < loopMeasure g s := by
  obtain ⟨e, he⟩ := iterateExhaust_eq s
  rw [he] at hit
  exact iterate_cont_ext g hg start e hstart X hX s s1 hP hit

theorem mainLoopExhaust_total (P : DState → Prop) (μ : DState → Nat)
    (hcont : ∀ s s1, P s → iterateExhaust s = .cont s1 → P s1 ∧ μ s1 < μ s) :
    ∀ (n : Nat) (s : DState), P s → μ s < n →
      ∃ r, P r ∧ r.pq = [] ∧ mainLoopExhaust n s = some r := by
  intro n
  induction n with
  | zero => intro s _ h; omega
  | succ n ih =>
    intro s hP hμ
    cases hit : iterateExhaust s with
    | done r =>
      obtain ⟨h1, h2⟩ := iterateExhaust_done s r hit
      subst h2
      exact ⟨r, hP, h1, by simp [mainLoopExhaust, hit]⟩
    | cont s1 =>
      obtain ⟨hP1, hlt⟩ := hcont s s1 hP hit
      obtain ⟨r, h0, hd, hr⟩ := ih s1 hP1 (by omega)
      exact ⟨r, h0, hd, by simp [mainLoopExhaust, hit, hr]⟩

theorem mainLoopExhaust_mono :
    ∀ (n m : Nat) (s r : DState), mainLoopExhaust n s = some r → n ≤ m →
      mainLoopExhaust m s = some r := by
  intro n
  induction n with
  | zero => intro m s r h; simp [mainLoopExhaust] at h
  | succ n ih =>
    intro m s r h hle
    obtain ⟨m', rfl⟩ : ∃ m', m = m' + 1 := ⟨m - 1, by omega⟩
    unfold mainLoopExhaust at h ⊢
    cases hit : iterateExhaust s with
    | done s1 => simpa [hit] using h
    | cont s1 =>
      simp only [hit] at h ⊢
      exact ih m' s1 r h (by omega)

/-- The exhaustive loop started where the loop with the early exit stops ends
where the exhaustive loop started from the same state ends. -/
theorem mainLoop_prefix (end_ : Int) (P : DState → Prop)
    (hcont : ∀ s s1, P s → iterate end_ s = .cont s1 → P s1) :
    ∀ (n : Nat) (s r : DState), P s → mainLoop end_ n s = some r →
      ∃ s0, P s0 ∧ iterate end_ s0 = .done r ∧
        ∀ m r1, mainLoopExhaust m s0 = some r1 → mainLoopExhaust (m + n) s = some r1 := by
  intro n
  induction n with
  | zero => intro s r _ h; simp [mainLoop] at h
  | succ n ih =>
    intro s r hP h
    unfold mainLoop at h
    cases hit : iterate end_ s with
    | done s1 =>
      simp only [hit, Option.some.injEq] at h
      subst h
      exact ⟨s, hP, hit, fun m r1 hm => mainLoopExhaust_mono m _ s r1 hm (by omega)⟩
    | cont s1 =>
      simp only [hit] at h
      obtain ⟨s0, hP0, hd, hrun⟩ := ih s1 r (hcont s s1 hP hit) h
      refine ⟨s0, hP0, hd, fun m r1 hm => ?_⟩
      have := hrun m r1 hm
      show mainLoopExhaust (m + n + 1) s = some r1
      unfold mainLoopExhaust
      rw [iterateExhaust_of_cont end_ s s1 hit]
      exact this

theorem extStep_frozen (g : AdjMap) (hg : GoodGraph g) (start : Int) (F : Int → Prop)
    (d0 : Int → Int) (p0 : Int → Option Int)
    (hLB : ∀ x, F x → ∀ p, IsWalk g start p → walkEnd start p = x → d0 x ≤ walkLen p) :
    ExtStep g start (Frozen F d0 p0) := by
  refine ⟨fun _ _ _ h => h, fun _ _ _ _ _ _ h _ _ => h, fun _ _ _ _ _ _ h _ _ => h, ?_⟩
  intro S u seen s e hI hx hSu he
  have hpos := hg.nonneg u e he
  have hd0 := hI.dist_nonneg u
  have hov := settled_no_overflow g hg start S _ _ s hI u hSu e he
  have hwrap : wrap32 (distAt s.dist u + e.2) = distAt s.dist u + e.2 :=
    wrap32_id _ (by omega) (by unfold INF at hov; omega)
  unfold Frozen relaxEdge at *
  simp only [hwrap]
  split_ifs with h
  · intro x hFx
    have hxe : x ≠ e.1 := by
      intro hc
      obtain ⟨hku, hfu, _, _⟩ := hI.settled u hSu
      obtain ⟨l, hl⟩ := hI.chain u hku hfu
      obtain ⟨p, hp1, hp2, hp3, _⟩ := schain_walk g start S _ _ s hI u l hl
      have hw : IsWalk g start (p ++ [e]) := by
        rw [isWalk_append]; exact ⟨hp1, by rw [hp2]; exact ⟨he, trivial⟩⟩
      have hlb := hLB x hFx (p ++ [e]) hw (by rw [walkEnd_append]; exact hc.symm ▸ rfl)
      rw [walkLen_append, hp3] at hlb
      have hwe : walkLen [e] = e.2 := by simp [walkLen]
      rw [hwe, ← (hx x hFx).1, hc] at hlb
      omega
    show distAt (s.dist.insert e.1 (distAt s.dist u + e.2)) x = d0 x ∧
      IMap.find? (s.parent.insert e.1 u) x = p0 x
    rw [distAt_insert, IMap.find?_insert, if_neg hxe, if_neg hxe]
    exact hx x hFx
  · exact hx

theorem schain_congr (parent parent1 : IMap Int) (start : Int) (S F : Int → Prop)
    (hF : ∀ x, F x → parent1.find? x = parent.find? x) (hS : ∀ x, S x → F x)
    (x : Int) (l : List Int) (h : SChain parent start S x l) (hx : F x ∨ x = start) :
    SChain parent1 start S x l := by
  induction h with
  | base => exact SChain.base
  | step u v l hv hp hu _ ih =>
    rcases hx with hx | hx
    · exact SChain.step u v l hv (by rw [hF v hx]; exact hp) hu (ih (Or.inl (hS u hu)))
    · exact absurd hx hv

theorem walkBack_chain_eq (parent : IMap Int) (start : Int) (S : Int → Prop) (x : Int)
    (l : List Int) (h : SChain parent start S x l) (fuel : Nat) (hfuel : l.length ≤ fuel + 1) :
    walkBack parent start fuel x [] = some l.reverse.dropLast := by
  obtain ⟨q, hq1, hq2⟩ := walkBack_schain_tight parent start S x l h fuel [] hfuel
  rw [List.nil_append] at hq2
  rw [hq1, ← hq2, List.dropLast_concat]

theorem findRouteExhaust_valid (fuel : Nat) (cm : CampusMap) (start end_ : Int)
    (hs : start ∈ IMap.keys cm.adj) (he : end_ ∈ IMap.keys cm.adj) :
    findRouteExhaust fuel cm start end_ =
      match mainLoopExhaust fuel (initState cm.adj start) with
      | none => none
      | some s =>
        if distAt s.dist end_ = INF then some (.noPath, { cm with adj := s.adj })
        else
          match walkBack s.parent start fuel end_ [] with
          | none => none
          | some p =>
            some (.found (distAt s.dist end_) (p ++ [start]).reverse
                (render { cm with adj := s.adj } (p ++ [start]).reverse).2,
              { adj := (render { cm with adj := s.adj } (p ++ [start]).reverse).1,
                locationNames := cm.locationNames,
                history := cm.history.addEntry (cm.getLocationName start)
                  (cm.getLocationName end_) (distAt s.dist end_) }) := by
  have h1 : ¬ (cm.adj.find? start = none ∨ cm.adj.find? end_ = none) := by
    rw [IMap.find?_eq_none_iff, IMap.find?_eq_none_iff]
    simp [hs, he]
  unfold findRouteExhaust
  rw [if_neg h1]
  rfl

/-- On a good graph the loop with the early exit and the exhaustive loop both
end, with the same `dist[end]` and the same walk along the predecessors. -/
theorem exhaust_agrees (g : AdjMap) (hg : GoodGraph g) (start end_ : Int)
    (hs : start ∈ IMap.keys g) (he : end_ ∈ IMap.keys g) :
    ∃ (N : Nat) (r r1 : DState) (p : List Int),
      (∀ fuel, N ≤ fuel → mainLoop end_ fuel (initState g start) = some r ∧
        mainLoopExhaust fuel (initState g start) = some r1) ∧
      r.adj = g ∧ r1.adj = g ∧ distAt r.dist end_ = distAt r1.dist end_ ∧
      (distAt r.dist end_ ≠ INF → p.length ≤ N ∧ ∀ k, p.length ≤ k →
        walkBack r.parent start k end_ [] = some p ∧
        walkBack r1.parent start k end_ [] = some p) := by
  obtain ⟨_, r, _, _, hrun⟩ := mainLoop_final_ext g hg start end_ hs NoExtra
    (extStep_noExtra g start) trivial
  have hm := hrun (loopMeasure g (initState g start) + 1) (by omega)
  obtain ⟨s0, ⟨hG, S, lo, hI, _⟩, hd, hpre⟩ := mainLoop_prefix end_ (ExtInv g start NoExtra)
    (fun s s1 hP hit => (iterate_cont_ext g hg start end_ hs NoExtra (extStep_noExtra g start)
      s s1 hP hit).1) _ _ r ⟨ginv_init g start hs, _, _, ninv_init g start, trivial⟩ hm
  obtain ⟨hdist, hpar, hadj, hF⟩ := done_facts g hg start end_ hs S lo s0 r hG hI hd
  obtain ⟨r1, ⟨hG1, S1, lo1, hI1, hfz⟩, _, hrun1⟩ := mainLoopExhaust_total
    (ExtInv g start (Frozen (fun x => S x ∨ (x = end_ ∧ x ∈ IMap.keys g ∧
      distAt s0.dist x < INF)) (distAt s0.dist) (s0.parent.find?))) (loopMeasure g)
    (fun s s1 hP hit => iterateExhaust_cont_ext g hg start hs _
      (extStep_frozen g hg start _ _ _ (fun x hx => (hF x hx).2.2.1)) s s1 hP hit)
    (loopMeasure g s0 + 1) s0 ⟨hG, S, lo, hI, fun x _ => ⟨rfl, rfl⟩⟩ (by omega)
  have hall := hpre _ r1 hrun1
  have hloops : ∀ fuel, loopMeasure g s0 + 1 + (loopMeasure g (initState g start) + 1) ≤ fuel →
      mainLoop end_ fuel (initState g start) = some r ∧
        mainLoopExhaust fuel (initState g start) = some r1 :=
    fun fuel hf => ⟨hrun fuel (by omega), mainLoopExhaust_mono _ fuel _ r1 hall hf⟩
  have hdeq : distAt s0.dist end_ = distAt r1.dist end_ := by
    by_cases hfin : distAt s0.dist end_ < INF
    · exact ((hfz end_ (Or.inr ⟨rfl, he, hfin⟩)).1).symm
    · obtain ⟨_, _, _, hcase⟩ := iterate_done end_ s0 r hd
      rcases hcase with ⟨hpq, _⟩ | ⟨top, htop, h2, _, _⟩
      · have h1 : mainLoopExhaust (loopMeasure g s0 + 1) s0 = some s0 := by
          unfold mainLoopExhaust iterateExhaust
          rw [hpq]
          rfl
        rw [h1] at hrun1
        simp only [Option.some.injEq] at hrun1
        rw [hrun1]
      · have := (hG.pq_ok top (pqTop_mem s0.pq top htop)).2.2
        rw [h2] at this
        exact absurd this hfin
  by_cases hfin : distAt s0.dist end_ < INF
  · obtain ⟨l, hl⟩ := hI.chain end_ he hfin
    have hl1 : SChain r1.parent start S end_ l :=
      schain_congr s0.parent r1.parent start S _ (fun x hx => (hfz x hx).2)
        (fun x hx => Or.inl hx) end_ l hl (Or.inl (Or.inr ⟨rfl, he, hfin⟩))
    refine ⟨max (l.length) (loopMeasure g s0 + 1 + (loopMeasure g (initState g start) + 1)),
      r, r1, l.reverse.dropLast, fun fuel hf => hloops fuel (by omega), hadj, hG1.adj_eq,
      by rw [hdist]; exact hdeq, fun _ => ⟨?_, fun k hk => ?_⟩⟩
    · simp only [List.length_dropLast, List.length_reverse]
      omega
    · simp only [List.length_dropLast, List.length_reverse] at hk
      rw [hpar]
      exact ⟨walkBack_chain_eq s0.parent start S end_ l hl k (by omega),
        walkBack_chain_eq r1.parent start S end_ l hl1 k (by omega)⟩
  · refine ⟨_, r, r1, [], hloops, hadj, hG1.adj_eq, by rw [hdist]; exact hdeq, fun hne => ?_⟩
    rw [hdist] at hne
    exact absurd (lt_of_le_of_ne (hG.range end_).2 hne) hfin

/-! ## Ties in the frontier -/

theorem pairLt_iff (a b : Int × Int) :
    pairLt a b = true ↔ a.1 < b.1 ∨ (a.1 = b.1 ∧ a.2 < b.2) := by
  simp [pairLt]

theorem pairLt_false_iff (a b : Int × Int) :
    pairLt a b = false ↔ b.1 < a.1 ∨ (a.1 = b.1 ∧ b.2 ≤ a.2) := by
  rw [← Bool.not_eq_true, pairLt_iff]
  omega

theorem pairLt_antisymm (a b : Int × Int) (h1 : pairLt a b = false) (h2 : pairLt b a = false) :
    a = b := by
  rw [pairLt_false_iff] at h1 h2
  apply Prod.ext <;> omega

theorem pqTop_lex (pq : List (Int × Int)) (top : Int × Int) (h : pqTop pq = some top) :
    ∀ e ∈ pq, pairLt e top = false := by
  induction pq generalizing top with
  | nil => simp [pqTop] at h
  | cons x t ih =>
    simp only [pqTop] at h
    cases ht : pqTop t with
    | none =>
      simp [ht] at h
      subst h
      have : t = [] := (pqTop_eq_none t).1 ht
      subst this
      intro e he
      simp at he
      subst he
      rw [pairLt_false_iff]; omega
    | some m =>
      simp only [ht] at h
      have hm := ih m ht
      by_cases hlt : pairLt m x = true
      · simp [hlt] at h
        subst h
        intro e he
        rcases List.mem_cons.1 he with he | he
        · subst he
          rw [pairLt_iff] at hlt
          rw [pairLt_false_iff]; omega
        · exact hm e he
      · simp [hlt] at h
        subst h
        rw [Bool.not_eq_true, pairLt_false_iff] at hlt
        intro e he
        rcases List.mem_cons.1 he with he | he
        · subst he; rw [pairLt_false_iff]; omega
        · have := hm e he
          rw [pairLt_false_iff] at this ⊢
          omega

theorem extStep_tie (g : AdjMap) (hg : GoodGraph g) (hp : PosWeights g) (start : Int)
    (hstart : start ∈ IMap.keys g) : ExtStep g start (TieInv g) := by
  refine ⟨fun _ _ _ h => h, ?_, ?_, ?_⟩
  · intro S lo s top _ _ hx _ _
    exact ⟨fun x hS e he => hx.1 x hS e (List.mem_of_mem_erase he), hx.2⟩
  · intro S lo s top hG hI hx htop hfresh
    obtain ⟨heq, _, _⟩ := ninv_pop g hg start hstart S lo s hG hI top htop hfresh
    have hlex := pqTop_lex s.pq top htop
    have htopeq : (distAt s.dist top.2, top.2) = top := by rw [← heq]
    refine ⟨?_, ?_⟩
    · intro x hS e he
      have he1 := List.mem_of_mem_erase he
      rcases hS with hS | hS
      · exact hx.1 x hS e he1
      · show pairLt e (distAt s.dist x, x) = false
        rw [hS, htopeq]
        exact hlex e he1
    · intro v u hvu u1 w1 hS hnb hle
      rcases hS with hS | hS
      · exact hx.2 v u hvu u1 w1 hS hnb hle
      · show pairLt (distAt s.dist u1, u1) (distAt s.dist u, u) = false
        rw [hS, htopeq]
        obtain ⟨_, hSu, _⟩ := hI.parent_edge v u hvu
        exact hx.1 u hSu top (pqTop_mem s.pq top htop)
  · intro S u seen s e hI hx hSu he
    have hpos := hp u e he
    have hd0 := hI.dist_nonneg u
    have hov := settled_no_overflow g hg start S _ _ s hI u hSu e he
    have hwrap : wrap32 (distAt s.dist u + e.2) = distAt s.dist u + e.2 :=
      wrap32_id _ (by omega) (by unfold INF at hov; omega)
    unfold TieInv relaxEdge at *
    simp only [hwrap]
    split_ifs with h
    · have hSv : ¬ S e.1 := by
        intro hc
        have := (hI.settled e.1 hc).2.2.1
        omega
      have hne : ∀ x, S x → x ≠ e.1 := fun x hS hc => hSv (hc ▸ hS)
      refine ⟨?_, ?_⟩
      · intro x hS e1 he1
        show pairLt e1 (distAt (s.dist.insert e.1 (distAt s.dist u + e.2)) x, x) = false
        rw [distAt_insert, if_neg (hne x hS)]
        rcases List.mem_cons.1 he1 with h1 | h1
        · subst h1
          have := (hI.settled x hS).2.2.1
          rw [pairLt_false_iff]
          left
          show distAt s.dist x < distAt s.dist u + e.2
          omega
        · exact hx.1 x hS e1 h1
      · intro v p hvp u1 w1 hS1 hnb hle
        change IMap.find? (s.parent.insert e.1 u) v = some p at hvp
        change distAt (s.dist.insert e.1 (distAt s.dist u + e.2)) u1 + w1 ≤
          distAt (s.dist.insert e.1 (distAt s.dist u + e.2)) v at hle
        show pairLt (distAt (s.dist.insert e.1 (distAt s.dist u + e.2)) u1, u1)
          (distAt (s.dist.insert e.1 (distAt s.dist u + e.2)) p, p) = false
        rw [IMap.find?_insert] at hvp
        rw [distAt_insert, if_neg (hne u1 hS1)] at hle ⊢
        by_cases hv : v = e.1
        · rw [if_pos hv] at hvp
          simp only [Option.some.injEq] at hvp
          subst hvp
          rw [distAt_insert, if_pos hv] at hle
          rw [distAt_insert, if_neg (hne u hSu)]
          by_cases hu1 : u1 = u
          · rw [hu1, pairLt_false_iff]; omega
          · exfalso
            have hc := hI.closed u1 hS1 (v, w1)
              (by unfold closedRows; rw [if_neg hu1]; exact hnb)
            simp only at hc
            rw [hv] at hc
            omega
        · rw [if_neg hv] at hvp
          rw [distAt_insert, if_neg hv] at hle
          obtain ⟨_, hSp, _⟩ := hI.parent_edge v p hvp
          rw [distAt_insert, if_neg (hne p hSp)]
          exact hx.2 v p hvp u1 w1 hS1 hnb hle
    · exact hx

theorem settled_of_done (g : AdjMap) (hg : GoodGraph g) (start end_ : Int)
    (hs : start ∈ IMap.keys g) (he : end_ ∈ IMap.keys g) (S : Int → Prop) (lo : Int)
    (s0 r : DState) (hG : GInv g start s0) (hI : NInv g start S (neighbors g) lo s0)
    (hX : TieInv g S s0) (hd : iterate end_ s0 = .done r)
    (hfin : distAt s0.dist end_ < INF) : Settled g start end_ S s0.pq r := by
  obtain ⟨hdist, hpar, _, hF⟩ := done_facts g hg start end_ hs S lo s0 r hG hI hd
  have hF1 : ∀ x, S x ∨ x = end_ → S x ∨ (x = end_ ∧ x ∈ IMap.keys g ∧
      distAt s0.dist x < INF) := by
    intro x hx
    rcases hx with hx | hx
    · exact Or.inl hx
    · exact Or.inr ⟨hx, hx ▸ he, hx ▸ hfin⟩
  refine ⟨?_, ?_, ?_, ?_, ?_, ?_⟩
  · intro x hx
    rw [hdist]
    exact hF x (hF1 x hx)
  · intro x hx
    rw [hdist]
    obtain ⟨h1, h2, _, _⟩ := hF x (hF1 x hx)
    obtain ⟨l, hl⟩ := hI.chain x h1 h2
    obtain ⟨p, hp1, hp2, hp3, _⟩ := schain_walk g start S _ _ s0 hI x l hl
    exact ⟨p, hp1, hp2, hp3⟩
  · rw [hdist]
    exact walk_frontier g hg start hs S lo s0 hI
  · rw [hdist]
    exact hI.frontier
  · rw [hdist, hpar]
    intro v u hvu
    obtain ⟨_, h1, h2⟩ := hI.parent_edge v u hvu
    exact ⟨h1, h2⟩
  · rw [hdist, hpar]
    exact hX.2

theorem isWalk_congr (g g1 : AdjMap) (hnb : ∀ u e, e ∈ neighbors g u → e ∈ neighbors g1 u) :
    ∀ (p : List (Int × Int)) (s : Int), IsWalk g s p → IsWalk g1 s p := by
  intro p
  induction p with
  | nil => intro s _; trivial
  | cons e rest ih => intro s h; exact ⟨hnb s e h.1, ih e.1 h.2⟩

theorem settled_dist_eq (g g1 : AdjMap) (start end_ : Int) (S S1 : Int → Prop)
    (pq pq1 : List (Int × Int)) (r r1 : DState)
    (h : Settled g start end_ S pq r) (h1 : Settled g1 start end_ S1 pq1 r1)
    (hnb : ∀ u e, e ∈ neighbors g u ↔ e ∈ neighbors g1 u)
    (x : Int) (hx : S x ∨ x = end_) (hx1 : S1 x ∨ x = end_) :
    distAt r.dist x = distAt r1.dist x := by
  obtain ⟨p, hp1, hp2, hp3⟩ := h.attained x hx
  obtain ⟨q, hq1, hq2, hq3⟩ := h1.attained x hx1
  have a := (h1.fin x hx1).2.2.1 p (isWalk_congr g g1 (fun u e => (hnb u e).1) p start hp1) hp2
  have b := (h.fin x hx).2.2.1 q (isWalk_congr g1 g (fun u e => (hnb u e).2) q start hq1) hq2
  omega

theorem settled_transfer (g g1 : AdjMap) (start end_ : Int) (S S1 : Int → Prop)
    (pq pq1 : List (Int × Int)) (r r1 : DState)
    (h : Settled g start end_ S pq r) (h1 : Settled g1 start end_ S1 pq1 r1)
    (hnb : ∀ u e, e ∈ neighbors g u ↔ e ∈ neighbors g1 u)
    (u v w : Int) (hw : 0 < w) (hSu : S u) (hv : S1 v ∨ v = end_)
    (hd : distAt r.dist u + w = distAt r1.dist v) :
    S1 u ∧ distAt r1.dist u = distAt r.dist u := by
  obtain ⟨p, hp1, hp2, hp3⟩ := h.attained u (Or.inl hSu)
  have hp1b := isWalk_congr g g1 (fun u e => (hnb u e).1) p start hp1
  rcases h1.front p hp1b with ⟨e, he, hle⟩ | ⟨hS, hle⟩
  · have := (h1.fin v hv).2.2.2 e he
    omega
  · rw [hp2] at hS hle
    refine ⟨hS, ?_⟩
    have := settled_dist_eq g g1 start end_ S S1 pq pq1 r r1 h h1 hnb u (Or.inl hSu) (Or.inl hS)
    omega

theorem settled_chain_eq (g g1 : AdjMap) (hp : PosWeights g) (hp1 : PosWeights g1)
    (start end_ : Int) (S S1 : Int → Prop)
    (pq pq1 : List (Int × Int)) (r r1 : DState)
    (h : Settled g start end_ S pq r) (h1 : Settled g1 start end_ S1 pq1 r1)
    (hnb : ∀ u e, e ∈ neighbors g u ↔ e ∈ neighbors g1 u)
    (x : Int) (l : List Int) (hl : SChain r.parent start S x l) :
    (S x ∨ x = end_) → (S1 x ∨ x = end_) →
      ∀ l1, SChain r1.parent start S1 x l1 → l = l1 := by
  induction hl with
  | base =>
    intro _ _ l1 hl1
    cases hl1 with
    | base => rfl
    | step u2 _ l2 hv2 _ _ _ => exact absurd rfl hv2
  | step u v l hv hpar hSu _ ih =>
    intro hx hx1 l1 hl1
    cases hl1 with
    | base => exact absurd rfl hv
    | step u2 _ l2 _ hpar2 hSu2 hch2 =>
      obtain ⟨_, w, hnb1, hd1⟩ := h.edge v u hpar
      obtain ⟨_, w2, hnb2, hd2⟩ := h1.edge v u2 hpar2
      have hdv := settled_dist_eq g g1 start end_ S S1 pq pq1 r r1 h h1 hnb v hx hx1
      obtain ⟨t1, t2⟩ := settled_transfer g g1 start end_ S S1 pq pq1 r r1 h h1 hnb u v w
        (hp u _ hnb1) hSu hx1 (by omega)
      obtain ⟨t3, t4⟩ := settled_transfer g1 g start end_ S1 S pq1 pq r1 r h1 h
        (fun u e => (hnb u e).symm) u2 v w2 (hp1 u2 _ hnb2) hSu2 hx (by omega)
      have a := h.least v u hpar u2 w2 t3 ((hnb u2 _).2 hnb2) (by omega)
      have b := h1.least v u2 hpar2 u w t1 ((hnb u _).1 hnb1) (by omega)
      rw [t2, ← t4] at b
      have huu : u2 = u := congrArg Prod.snd (pairLt_antisymm _ _ a b)
      subst huu
      rw [ih (Or.inl hSu) (Or.inl t1) l2 hch2]

theorem settled_path_least (g : AdjMap) (hp : PosWeights g) (start end_ : Int)
    (S : Int → Prop) (pq : List (Int × Int)) (r : DState)
    (h : Settled g start end_ S pq r) (x : Int) (l : List Int)
    (hl : SChain r.parent start S x l) :
    (S x ∨ x = end_) →
      l.getLast? = some x ∧
      List.Chain' (fun u v => r.parent.find? v = some u ∧
        (∃ w, (v, w) ∈ neighbors g u ∧ distAt r.dist u + w = distAt r.dist v) ∧
        ∀ u1 w1, (v, w1) ∈ neighbors g u1 → distAt r.dist u1 + w1 = distAt r.dist v →
          pairLt (distAt r.dist u1, u1) (distAt r.dist u, u) = false) l := by
  induction hl with
  | base => intro _; exact ⟨rfl, List.chain'_singleton _⟩
  | step u v l hv hpar hSu _ ih =>
    intro hx
    obtain ⟨h1, h2⟩ := ih (Or.inl hSu)
    refine ⟨List.getLast?_concat l, ?_⟩
    rw [List.chain'_append]
    refine ⟨h2, List.chain'_singleton _, ?_⟩
    intro a ha b hb
    rw [h1] at ha
    simp only [Option.mem_def, Option.some.injEq, List.head?_cons] at ha hb
    subst ha hb
    obtain ⟨_, w, hnb, hd⟩ := h.edge v u hpar
    refine ⟨hpar, ⟨w, hnb, hd.symm⟩, ?_⟩
    intro u1 w1 hnb1 hd1
    have hw1 := hp u1 _ hnb1
    simp only at hw1
    obtain ⟨_, hfin, _, hpq⟩ := h.fin v hx
    have hS1 : S u1 := by
      rcases h.frontier u1 (mem_neighbors_key g u1 _ hnb1) (by omega) with h3 | h3
      · exact h3
      · have := hpq _ h3
        simp only at this
        omega
    exact h.least v u hpar u1 w1 hS1 hnb1 (by omega)

theorem findRoute_of_chain (cm : CampusMap) (start end_ : Int)
    (hs : start ∈ IMap.keys cm.adj) (he : end_ ∈ IMap.keys cm.adj) (fuel : Nat) (r : DState)
    (S : Int → Prop) (l : List Int)
    (hm : mainLoop end_ fuel (initState cm.adj start) = some r)
    (hne : distAt r.dist end_ ≠ INF) (hl : SChain r.parent start S end_ l)
    (hfuel : l.length ≤ fuel + 1) :
    ∃ lines cm1, findRoute fuel cm start end_ =
      some (.found (distAt r.dist end_) l lines, cm1) := by
  obtain ⟨tl, htl, _⟩ := schain_nodes r.parent start S end_ l hl
  have hrev : (l.reverse.dropLast ++ [start]).reverse = l := by
    rw [htl, List.reverse_cons, List.dropLast_concat, List.reverse_append, List.reverse_reverse]
    rfl
  rw [findRoute_valid fuel cm start end_ hs he, hm]
  simp only [if_neg hne, walkBack_chain_eq r.parent start S end_ l hl fuel hfuel, hrev]
  exact ⟨_, _, rfl⟩

theorem mem_neighbors_build (ops : List BuildOp) :
    ∀ u e, e ∈ neighbors (build ops).adj u ↔
      (u, e.1, e.2) ∈ insertedEdges ops ∨ (e.1, u, e.2) ∈ insertedEdges ops := by
  refine build_rel (fun es cm => ∀ u e, e ∈ neighbors cm.adj u ↔
    (u, e.1, e.2) ∈ es ∨ (e.1, u, e.2) ∈ es) ?_ ?_ ?_ ops
  · intro u e
    simp [neighbors, CampusMap.empty, IMap.find?]
  · intro es cm id name h
    exact h
  · intro es cm u v w h x e
    rw [neighbors_addEdge]
    have hx := h x e
    obtain ⟨e1, e2⟩ := e
    have key : (e1, e2) ∈ (if x = u then neighbors cm.adj u ++ [(v, w)] else neighbors cm.adj x) ↔
        (e1, e2) ∈ neighbors cm.adj x ∨ (x = u ∧ e1 = v ∧ e2 = w) := by
      split_ifs with h1
      · subst h1; simp
      · simp [h1]
    have key2 : (e1, e2) ∈ (if x = v then [(u, w)] else []) ↔ (x = v ∧ e1 = u ∧ e2 = w) := by
      split_ifs with h1
      · subst h1; simp
      · simp [h1]
    rw [List.mem_append, key, key2, hx]
    simp only [List.mem_append, List.mem_singleton, Prod.mk.injEq]
    constructor
    · rintro (((h1 | h1) | h1) | ⟨h1, h2, h3⟩)
      · exact Or.inl (Or.inl h1)
      · exact Or.inr (Or.inl h1)
      · exact Or.inl (Or.inr h1)
      · exact Or.inr (Or.inr ⟨h2, h1, h3⟩)
    · rintro ((h1 | h1) | h1 | ⟨h1, h2, h3⟩)
      · exact Or.inl (Or.inl (Or.inl h1))
      · exact Or.inl (Or.inr h1)
      · exact Or.inl (Or.inl (Or.inr h1))
      · exact Or.inr ⟨h2, h1, h3⟩

theorem tieInv_init (g : AdjMap) (start : Int) :
    TieInv g (fun _ => False) (initState g start) :=
  ⟨fun _ h => h.elim, fun v u h => by simp [initState, IMap.find?] at h⟩

theorem posWeights_built (ops : List BuildOp) (hw : ∀ w ∈ insertedWeights ops, 0 < w) :
    PosWeights (build ops).adj :=
  fun u e he => hw _ ((built_weights ops).1 u e he)

theorem perm_built (ops ops1 : List BuildOp)
    (hperm : (insertedEdges ops1).Perm (insertedEdges ops)) :
    (∀ u e, e ∈ neighbors (build ops).adj u ↔ e ∈ neighbors (build ops1).adj u) ∧
    (∀ x, x ∈ IMap.keys (build ops).adj ↔ x ∈ IMap.keys (build ops1).adj) ∧
    (∀ w, w ∈ insertedWeights ops1 ↔ w ∈ insertedWeights ops) ∧
    (insertedWeights ops1).sum = (insertedWeights ops).sum := by
  refine ⟨?_, ?_, ?_, ?_⟩
  · intro u e
    rw [mem_neighbors_build, mem_neighbors_build, hperm.mem_iff, hperm.mem_iff]
  · intro x
    rw [(built_keys ops).2, (built_keys ops1).2]
    unfold endpoints
    simp only [List.mem_flatMap, hperm.mem_iff]
  · intro w
    unfold insertedWeights
    simp only [List.mem_map, hperm.mem_iff]
  · unfold insertedWeights
    exact (hperm.map _).sum_eq

/-! ## Claims -/

/-- The map of the unknown-node scenario: one edge, a node that only has a
name, and a hub without entrances. -/
theorem unknownOps_adj :
    (build [.addEdge 1 2 20, .setLocationName 7 "Library", .addMultiEntryDept 99 "Hub" [] 25]).adj
      = [(1, [(2, 20)]), (2, [(1, 20)])] := by
  decide

/-- C2 (unknown node): on a map whose graph was built by populating calls,
`findRoute` reports the Invalid-Node outcome exactly when `start` or `end` is
not a key of the adjacency map, which is exactly when it is not an endpoint of
an inserted edge; the call then returns the map, history included, as it was.
Naming a node, or creating a hub without entrances, adds no endpoint. -/
theorem findRoute_invalidNode_iff (ops : List BuildOp) (cm : CampusMap)
    (hcm : cm.adj = (build ops).adj) (fuel : Nat) (start end_ : Int) :
    ((∃ cm1, findRoute fuel cm start end_ = some (.invalidNode, cm1)) ↔
        (start ∉ IMap.keys cm.adj ∨ end_ ∉ IMap.keys cm.adj)) ∧
    ((start ∉ IMap.keys cm.adj ∨ end_ ∉ IMap.keys cm.adj) ↔
        (start ∉ endpoints ops ∨ end_ ∉ endpoints ops)) ∧
    ((start ∉ IMap.keys cm.adj ∨ end_ ∉ IMap.keys cm.adj) →
        findRoute fuel cm start end_ = some (.invalidNode, cm)) ∧
    (∀ (id : Int) (name : String) (d : Int),
        endpoints (ops ++ [.setLocationName id name]) = endpoints ops ∧
        endpoints (ops ++ [.addMultiEntryDept id name [] d]) = endpoints ops) := by
  refine ⟨⟨?_, ?_⟩, ?_, ?_, ?_⟩
  · rintro ⟨cm1, h⟩
    by_contra hc
    simp only [not_or, not_not] at hc
    exact findRoute_not_invalid fuel cm start end_ hc.1 hc.2 cm1 h
  · intro h
    exact ⟨cm, findRoute_invalid fuel cm start end_ h⟩
  · rw [hcm, (built_keys ops).2 start, (built_keys ops).2 end_]
  · intro h
    exact findRoute_invalid fuel cm start end_ h
  · intro id name d
    rw [endpoints_append, endpoints_append]
    simp [endpoints, insertedEdges, opEdges]

theorem findRoute_invalidNode_iff_witness :
    (build [.addEdge 1 2 20, .setLocationName 7 "Library",
        .addMultiEntryDept 99 "Hub" [] 25]).adj =
      (build [.addEdge 1 2 20, .setLocationName 7 "Library",
        .addMultiEntryDept 99 "Hub" [] 25]).adj ∧
    findRoute 0 (build [.addEdge 1 2 20, .setLocationName 7 "Library",
        .addMultiEntryDept 99 "Hub" [] 25]) 7 1 =
      some (.invalidNode, build [.addEdge 1 2 20, .setLocationName 7 "Library",
        .addMultiEntryDept 99 "Hub" [] 25]) ∧
    findRoute 0 (build [.addEdge 1 2 20, .setLocationName 7 "Library",
        .addMultiEntryDept 99 "Hub" [] 25]) 1 99 =
      some (.invalidNode, build [.addEdge 1 2 20, .setLocationName 7 "Library",
        .addMultiEntryDept 99 "Hub" [] 25]) :=
  ⟨rfl,
   (findRoute_invalidNode_iff [.addEdge 1 2 20, .setLocationName 7 "Library",
      .addMultiEntryDept 99 "Hub" [] 25] _ rfl 0 7 1).2.2.1 (by rw [unknownOps_adj]; decide),
   (findRoute_invalidNode_iff [.addEdge 1 2 20, .setLocationName 7 "Library",
      .addMultiEntryDept 99 "Hub" [] 25] _ rfl 0 1 99).2.2.1 (by rw [unknownOps_adj]; decide)⟩

/-- C3 (unreachable pair): on a map whose graph was built by populating calls,
whatever the weights, if `start` and `end` are keys of the adjacency map and no
walk joins them, then `findRoute` (given enough fuel) reports No-Path-Found and
returns the map, history included, as it was. -/
theorem findRoute_unreachable (ops : List BuildOp) (cm : CampusMap)
    (hcm : cm.adj = (build ops).adj) (start end_ : Int)
    (hs : start ∈ IMap.keys cm.adj) (he : end_ ∈ IMap.keys cm.adj)
    (hnr : ¬ Reach cm.adj start end_) :
    ∃ N, ∀ fuel, N ≤ fuel → findRoute fuel cm start end_ = some (.noPath, cm) := by
  have hk : NbrsAreKeys cm.adj := by rw [hcm]; exact (built_keys ops).1
  exact ⟨loopMeasure cm.adj (initState cm.adj start) + 1, fun fuel hf =>
    findRoute_noPath cm hk start end_ hs he hnr fuel (by omega)⟩

theorem findRoute_unreachable_witness :
    ∃ N, ∀ fuel, N ≤ fuel →
      findRoute fuel (build [.addEdge 1 2 (-5), .addEdge 3 4 7]) 1 3 =
        some (.noPath, build [.addEdge 1 2 (-5), .addEdge 3 4 7]) :=
  findRoute_unreachable [.addEdge 1 2 (-5), .addEdge 3 4 7] _ rfl 1 3
    (by decide) (by decide) twoIslands_not_reach

/-- C6 (edge symmetry): after any sequence of populating calls, every inserted
edge `(u, v, w)` is present as `(v, w)` in the row of `u` and as `(u, w)` in
the row of `v`, and for all `u`, `v`, `w` the row of `u` holds `(v, w)` as many
times as the row of `v` holds `(u, w)`. -/
theorem edge_symmetry (ops : List BuildOp) :
    (∀ u v w : Int, (u, v, w) ∈ insertedEdges ops →
        (v, w) ∈ neighbors (build ops).adj u ∧ (u, w) ∈ neighbors (build ops).adj v) ∧
    (∀ u v w : Int, List.count (v, w) (neighbors (build ops).adj u) =
        List.count (u, w) (neighbors (build ops).adj v)) := by
  obtain ⟨h1, h2⟩ := symmetric_build ops
  exact ⟨fun u v w h => h1 (u, v, w) h, h2⟩

theorem edge_symmetry_witness :
    (20, 1) ∈ neighbors (build [.addEdge 1 20 1, .addMultiEntryDept 9 "Hub" [1, 20] 4]).adj 1 ∧
    (1, 1) ∈ neighbors (build [.addEdge 1 20 1, .addMultiEntryDept 9 "Hub" [1, 20] 4]).adj 20 :=
  (edge_symmetry [.addEdge 1 20 1, .addMultiEntryDept 9 "Hub" [1, 20] 4]).1 1 20 1 (by decide)

/-- C10 (the search is read-only on the map): on a map whose graph was built
by populating calls every stored neighbour is a key, and whenever a call of
`findRoute` returns, whatever its outcome, the adjacency map (hence its key
set and every row) and the name registry are the same as before the call. -/
theorem findRoute_readonly (ops : List BuildOp) (cm : CampusMap)
    (hcm : cm.adj = (build ops).adj) (fuel : Nat) (start end_ : Int)
    (out : Outcome) (cm1 : CampusMap)
    (h : findRoute fuel cm start end_ = some (out, cm1)) :
    NbrsAreKeys cm.adj ∧ cm1.adj = cm.adj ∧ IMap.keys cm1.adj = IMap.keys cm.adj ∧
      (∀ u, neighbors cm1.adj u = neighbors cm.adj u) ∧
      cm1.locationNames = cm.locationNames := by
  have hk : NbrsAreKeys cm.adj := by rw [hcm]; exact (built_keys ops).1
  obtain ⟨h1, h2, _⟩ := findRoute_frame cm hk fuel start end_ out cm1 h
  exact ⟨hk, h1, by rw [h1], fun u => by rw [h1], h2⟩

theorem findRoute_readonly_witness :
    NbrsAreKeys (build scenarioOps).adj ∧
    (build scenarioOps).adj = (build scenarioOps).adj ∧
    IMap.keys (build scenarioOps).adj = IMap.keys (build scenarioOps).adj ∧
    (∀ u, neighbors (build scenarioOps).adj u = neighbors (build scenarioOps).adj u) ∧
    (build scenarioOps).locationNames = (build scenarioOps).locationNames :=
  findRoute_readonly scenarioOps (build scenarioOps) rfl 10 1 4
    (.found 100 [1, 2, 3, 4]
      [.walkway 1, .weight 20, .walkway 2, .weight 20, .arrived 3 "Path/Turn"])
    ⟨(build scenarioOps).adj, (build scenarioOps).locationNames,
      ⟨["Path/Turn -> Path/Turn"], [⟨"Path/Turn", "Path/Turn", 100⟩]⟩⟩
    (by decide)

/-- C5 (history is append-only and counted exactly): after any run of calls on
a fresh map, `showFullLog` lists exactly the records of the successful queries
in their order, as many as there were successes, and `showRecent` lists the
entries of the last `min N 5` successful queries, most recent first, numbered
from 1; a call that ends in Invalid-Node or No-Path-Found leaves the history
as it was. -/
theorem history_append_only (fuel : Nat) (calls : List Call) (cm : CampusMap)
    (log : List QueryLog) (h : runCalls fuel CampusMap.empty calls = some (cm, log)) :
    cm.history.showFullLog = log.filterMap successRecord ∧
    cm.history.showFullLog.length = successCount log ∧
    cm.history.showRecent.map Prod.snd = ((log.filterMap successEntry).reverse).take 5 ∧
    cm.history.showRecent.map Prod.fst = List.range' 1 (min (successCount log) 5) ∧
    cm.history.showRecent.length = min (successCount log) 5 ∧
    (∀ (k : Nat) (c : CampusMap) (start end_ : Int) (out : Outcome) (c1 : CampusMap),
      findRoute k c start end_ = some (out, c1) → (out = .invalidNode ∨ out = .noPath) →
        c1.history = c.history) := by
  obtain ⟨h1, h2⟩ := runCalls_history fuel calls CampusMap.empty cm log h
  simp only [CampusMap.empty, HistoryManager.empty, List.nil_append, List.append_nil] at h1 h2
  obtain ⟨s1, s2⟩ := showRecentLoop_spec cm.history.recentSearches 1
  have hlen : cm.history.recentSearches.length = successCount log := by
    rw [h2, List.length_reverse, length_filterMap_entry]
  refine ⟨h1, ?_, ?_, ?_, ?_, ?_⟩
  · unfold HistoryManager.showFullLog successCount
    rw [h1]
  · unfold HistoryManager.showRecent
    rw [s1, h2]
  · unfold HistoryManager.showRecent
    rw [s2, hlen]
  · unfold HistoryManager.showRecent
    have := congrArg List.length s2
    rw [List.length_map, List.length_range', hlen] at this
    exact this
  · intro k c start end_ out c1 hf hout
    have := findRoute_history k c start end_ out c1 hf
    rcases hout with hout | hout <;> subst hout <;> exact this

theorem history_append_only_witness :
    (⟨[(1, [(2, 20)]), (2, [(1, 20)])], [(1, "Main Gate")],
        ⟨["Path/Turn -> Main Gate", "Main Gate -> Path/Turn"],
          [⟨"Main Gate", "Path/Turn", 20⟩, ⟨"Path/Turn", "Main Gate", 20⟩]⟩⟩ :
        CampusMap).history.showFullLog =
      [⟨"Main Gate", "Path/Turn", 20⟩, ⟨"Path/Turn", "Main Gate", 20⟩] :=
  (history_append_only 4
    [.populate (.addEdge 1 2 20), .populate (.setLocationName 1 "Main Gate"),
      .findRoute 1 2, .findRoute 1 7, .viewHistory, .findRoute 2 1]
    ⟨[(1, [(2, 20)]), (2, [(1, 20)])], [(1, "Main Gate")],
      ⟨["Path/Turn -> Main Gate", "Main Gate -> Path/Turn"],
        [⟨"Main Gate", "Path/Turn", 20⟩, ⟨"Path/Turn", "Main Gate", 20⟩]⟩⟩
    [⟨"Main Gate", "Path/Turn", .found 20 [1, 2] [.arrived 1 "Path/Turn"]⟩,
      ⟨"Main Gate", "Path/Turn", .invalidNode⟩,
      ⟨"Path/Turn", "Main Gate", .found 20 [2, 1] [.arrived 2 "Main Gate"]⟩]
    (by decide)).1

/-- C9 (history is not deduplicated): a successful `findRoute(start, end)`
appends exactly one record (name of start, name of end, reported total) to the
full log and pushes "name of start -> name of end" on the recent stack; on a map
whose graph was built by populating calls, repeating the query at once succeeds
with the same total and leaves the full log ending in two equal records. -/
theorem history_not_deduplicated (ops : List BuildOp) (cm : CampusMap)
    (hcm : cm.adj = (build ops).adj) (fuel : Nat) (start end_ : Int)
    (total : Int) (path : List Int) (lines : List Line) (cm1 : CampusMap)
    (h : findRoute fuel cm start end_ = some (.found total path lines, cm1)) :
    cm1.history.fullHistory = cm.history.fullHistory ++
        [⟨cm.getLocationName start, cm.getLocationName end_, total⟩] ∧
    cm1.history.recentSearches =
        (cm.getLocationName start ++ " -> " ++ cm.getLocationName end_) ::
          cm.history.recentSearches ∧
    ∃ cm2, findRoute fuel cm1 start end_ = some (.found total path lines, cm2) ∧
      cm2.history.fullHistory = cm.history.fullHistory ++
        [⟨cm.getLocationName start, cm.getLocationName end_, total⟩,
         ⟨cm.getLocationName start, cm.getLocationName end_, total⟩] := by
  have hk : NbrsAreKeys cm.adj := by rw [hcm]; exact (built_keys ops).1
  obtain ⟨fa, fn, fh⟩ := findRoute_frame cm hk fuel start end_ _ cm1 h
  simp only at fh
  have hcongr := findRoute_outcome_congr fuel cm.adj cm.locationNames cm.history cm1.history
    start end_
  have e1 : (⟨cm.adj, cm.locationNames, cm1.history⟩ : CampusMap) = cm1 := by
    cases cm1; simp only at fa fn; subst fa fn; rfl
  have e0 : (⟨cm.adj, cm.locationNames, cm.history⟩ : CampusMap) = cm := by
    cases cm; rfl
  rw [e1, e0, h] at hcongr
  refine ⟨by rw [fh]; rfl, by rw [fh]; rfl, ?_⟩
  cases h2 : findRoute fuel cm1 start end_ with
  | none => simp [h2] at hcongr
  | some r =>
    obtain ⟨out, cm2⟩ := r
    simp only [h2, Option.map_some', Option.some.injEq] at hcongr
    subst hcongr
    refine ⟨cm2, rfl, ?_⟩
    have hh := findRoute_history fuel cm1 start end_ _ cm2 h2
    simp only at hh
    have hn : ∀ x, cm1.getLocationName x = cm.getLocationName x := by
      intro x; unfold CampusMap.getLocationName; rw [fn]
    rw [hh, hn, hn, fh]
    simp [HistoryManager.addEntry]

theorem history_not_deduplicated_witness :
    ∃ cm2, findRoute 10
        ⟨(build scenarioOps).adj, (build scenarioOps).locationNames,
          ⟨["Path/Turn -> Path/Turn"], [⟨"Path/Turn", "Path/Turn", 100⟩]⟩⟩ 1 4 =
        some (.found 100 [1, 2, 3, 4]
          [.walkway 1, .weight 20, .walkway 2, .weight 20, .arrived 3 "Path/Turn"], cm2) ∧
      cm2.history.fullHistory =
        [⟨"Path/Turn", "Path/Turn", 100⟩, ⟨"Path/Turn", "Path/Turn", 100⟩] :=
  (history_not_deduplicated scenarioOps (build scenarioOps) rfl 10 1 4 100 [1, 2, 3, 4]
    [.walkway 1, .weight 20, .walkway 2, .weight 20, .arrived 3 "Path/Turn"]
    ⟨(build scenarioOps).adj, (build scenarioOps).locationNames,
      ⟨["Path/Turn -> Path/Turn"], [⟨"Path/Turn", "Path/Turn", 100⟩]⟩⟩
    (by decide)).2.2

/-- C1 (optimality of `findRoute`): on a map whose graph was built by
populating calls with non-negative weights of sum below 2^30, for `start` and
`end` that are keys with `end` reachable from `start`, `findRoute` (given
enough fuel) succeeds, and the total it reports is the weight of some simple
path from `start` to `end` and at most the weight of every simple path from
`start` to `end`. -/
theorem findRoute_optimal (ops : List BuildOp) (cm : CampusMap)
    (hcm : cm.adj = (build ops).adj)
    (hw : ∀ w ∈ insertedWeights ops, 0 ≤ w)
    (hsum : (insertedWeights ops).sum < 1073741824)
    (start end_ : Int) (hs : start ∈ IMap.keys cm.adj) (_he : end_ ∈ IMap.keys cm.adj)
    (hr : Reach cm.adj start end_) :
    ∃ (N : Nat) (total : Int) (path : List Int) (lines : List Line) (cm1 : CampusMap),
      (∀ fuel, N ≤ fuel →
        findRoute fuel cm start end_ = some (.found total path lines, cm1)) ∧
      (∃ p, IsSimplePath cm.adj start end_ p ∧ walkLen p = total) ∧
      (∀ p, IsSimplePath cm.adj start end_ p → total ≤ walkLen p) := by
  have hg : GoodGraph cm.adj := by rw [hcm]; exact goodGraph_built ops hw hsum
  obtain ⟨N, total, path, lines, cm1, hrun, _, _, hlb, ⟨p, hp1, hp2, hp3, _⟩, _⟩ :=
    findRoute_found cm hg start end_ hs hr
  refine ⟨N, total, path, lines, cm1, hrun, ?_, fun q hq => hlb q hq.1 hq.2.1⟩
  obtain ⟨q, hq, hlen⟩ := exists_simplePath cm.adj hg.nonneg p start hp1
  rw [hp2] at hq
  have := hlb q hq.1 hq.2.1
  exact ⟨q, hq, by omega⟩

theorem findRoute_optimal_witness :
    (∃ (N : Nat) (total : Int) (path : List Int) (lines : List Line) (cm1 : CampusMap),
      (∀ fuel, N ≤ fuel →
        findRoute fuel (build scenarioOps) 1 4 = some (.found total path lines, cm1)) ∧
      (∃ p, IsSimplePath (build scenarioOps).adj 1 4 p ∧ walkLen p = total) ∧
      (∀ p, IsSimplePath (build scenarioOps).adj 1 4 p → total ≤ walkLen p)) ∧
    (findRoute 10 (build scenarioOps) 1 41).map Prod.fst =
      some (.found 30 [1, 41] [.arrived 1 "Path/Turn"]) ∧
    (findRoute 10 (build scenarioOps) 1 4).map Prod.fst =
      some (.found 100 [1, 2, 3, 4]
        [.walkway 1, .weight 20, .walkway 2, .weight 20, .arrived 3 "Path/Turn"]) :=
  ⟨findRoute_optimal scenarioOps (build scenarioOps) rfl (by decide) (by decide) 1 4
      (by decide) (by decide) ⟨[(2, 20), (3, 20), (4, 60)], by decide, rfl⟩,
    by decide, by decide⟩

/-- C4 (the returned path is a real shortest path): under the hypotheses of
C1, the node sequence `findRoute` reconstructs begins with `start`, ends with
`end`, every consecutive pair `(a, b)` in it is joined by an entry `(b, w)` in
the row of `a`, the lightest edge weights of its consecutive pairs add up to
the reported total, and no walk from `start` to `end` weighs less than that
total. -/
theorem findRoute_path_shortest (ops : List BuildOp) (cm : CampusMap)
    (hcm : cm.adj = (build ops).adj)
    (hw : ∀ w ∈ insertedWeights ops, 0 ≤ w)
    (hsum : (insertedWeights ops).sum < 1073741824)
    (start end_ : Int) (hs : start ∈ IMap.keys cm.adj) (_he : end_ ∈ IMap.keys cm.adj)
    (hr : Reach cm.adj start end_) :
    ∃ (N : Nat) (total : Int) (path : List Int) (lines : List Line) (cm1 : CampusMap),
      (∀ fuel, N ≤ fuel →
        findRoute fuel cm start end_ = some (.found total path lines, cm1)) ∧
      path.head? = some start ∧ path.getLast? = some end_ ∧
      List.Chain' (fun a b => ∃ w, (b, w) ∈ neighbors cm.adj a) path ∧
      pathCost cm.adj path = total ∧
      (∀ p, IsWalk cm.adj start p → walkEnd start p = end_ → total ≤ walkLen p) := by
  have hg : GoodGraph cm.adj := by rw [hcm]; exact goodGraph_built ops hw hsum
  obtain ⟨N, total, path, lines, cm1, hrun, _, _, hlb, _, c1, c2, c3, c4⟩ :=
    findRoute_found cm hg start end_ hs hr
  exact ⟨N, total, path, lines, cm1, hrun, c1, c2, c3, c4, hlb⟩

theorem findRoute_path_shortest_witness :
    (∃ (N : Nat) (total : Int) (path : List Int) (lines : List Line) (cm1 : CampusMap),
      (∀ fuel, N ≤ fuel →
        findRoute fuel (build scenarioOps) 1 4 = some (.found total path lines, cm1)) ∧
      path.head? = some 1 ∧ path.getLast? = some 4 ∧
      List.Chain' (fun a b => ∃ w, (b, w) ∈ neighbors (build scenarioOps).adj a) path ∧
      pathCost (build scenarioOps).adj path = total ∧
      (∀ p, IsWalk (build scenarioOps).adj 1 p → walkEnd 1 p = 4 → total ≤ walkLen p)) ∧
    (findRoute 10 (build scenarioOps) 1 41).map (fun r => r.1) =
      some (.found 30 [1, 41] [.arrived 1 "Path/Turn"]) ∧
    (findRoute 10 (build scenarioOps) 1 4).map (fun r => r.1) =
      some (.found 100 [1, 2, 3, 4]
        [.walkway 1, .weight 20, .walkway 2, .weight 20, .arrived 3 "Path/Turn"]) ∧
    pathCost (build scenarioOps).adj [1, 2, 3, 4] = 100 :=
  ⟨findRoute_path_shortest scenarioOps (build scenarioOps) rfl (by decide) (by decide) 1 4
      (by decide) (by decide) ⟨[(2, 20), (3, 20), (4, 60)], by decide, rfl⟩,
    by decide, by decide, by decide⟩

/-- C7, as stated, fails: for the hub 99 with entrances 49 and 50 and internal
distance 25 the search from 49 to 50 reports 50, not 25. -/
theorem hub_distance_counterexample :
    ∃ (total : Int) (path : List Int) (lines : List Line) (cm1 : CampusMap),
      findRoute 5 (build [.addMultiEntryDept 99 "Admin Block (Main)" [49, 50] 25]) 49 50 =
        some (.found total path lines, cm1) ∧ total = 50 ∧ total ≠ 25 :=
  ⟨50, [49, 99, 50], [.walkway 49, .weight 25, .arrived 99 "Path/Turn"],
    ⟨[(49, [(99, 25)]), (50, [(99, 25)]), (99, [(49, 25), (50, 25)])],
      [(99, "Admin Block (Main)")],
      ⟨["Path/Turn -> Path/Turn"], [⟨"Path/Turn", "Path/Turn", 50⟩]⟩⟩,
    by decide, rfl, by decide⟩

/-- C7, amended (multi-entrance reachability): on a map whose graph was built
with non-negative weights of sum below 2^30 and contains a hub created by
`addMultiEntryDept(hub, name, {e1, e2}, d)`, the search from `e1` to `e2`
succeeds and reports at most `2 * d`; and when the edges of the hub are the only
edges, the three nodes are distinct, `0 <= d` and `2 * d < INF`, it reports
exactly `2 * d`. -/
theorem hub_route_at_most_twice (ops : List BuildOp) (cm : CampusMap)
    (hcm : cm.adj = (build ops).adj)
    (hw : ∀ w ∈ insertedWeights ops, 0 ≤ w)
    (hsum : (insertedWeights ops).sum < 1073741824)
    (hub e1 e2 d : Int) (name : String)
    (hop : BuildOp.addMultiEntryDept hub name [e1, e2] d ∈ ops) :
    (∃ (N : Nat) (total : Int) (path : List Int) (lines : List Line) (cm1 : CampusMap),
      (∀ fuel, N ≤ fuel →
        findRoute fuel cm e1 e2 = some (.found total path lines, cm1)) ∧
      total ≤ 2 * d) ∧
    (∀ cm0 : CampusMap, cm0.adj = [] → e1 ≠ hub → e2 ≠ hub → e1 ≠ e2 → 0 ≤ d →
      2 * d < INF → ∀ fuel, 3 ≤ fuel →
      ∃ (path : List Int) (lines : List Line) (cm1 : CampusMap),
        findRoute fuel (cm0.addMultiEntryDept hub name [e1, e2] d) e1 e2 =
          some (.found (2 * d) path lines, cm1)) := by
  constructor
  · have hg : GoodGraph cm.adj := by rw [hcm]; exact goodGraph_built ops hw hsum
    have hed : ∀ e, e = e1 ∨ e = e2 → (hub, e, d) ∈ insertedEdges ops := by
      intro e he
      unfold insertedEdges
      rw [List.mem_flatMap]
      refine ⟨_, hop, ?_⟩
      simp only [opEdges, List.map_cons, List.map_nil, List.mem_cons, Prod.mk.injEq,
        true_and, and_true, List.not_mem_nil, or_false]
      exact he
    obtain ⟨hsym, _⟩ := symmetric_build ops
    have ha := (hsym _ (hed e1 (Or.inl rfl))).2
    have hb := (hsym _ (hed e2 (Or.inr rfl))).1
    simp only at ha hb
    rw [← hcm] at ha hb
    have hwalk : IsWalk cm.adj e1 [(hub, d), (e2, d)] := ⟨ha, hb, trivial⟩
    obtain ⟨N, total, path, lines, cm1, hrun, _, _, hlb, _⟩ :=
      findRoute_found cm hg e1 e2 (mem_neighbors_key cm.adj e1 _ ha) ⟨_, hwalk, rfl⟩
    refine ⟨N, total, path, lines, cm1, hrun, ?_⟩
    have := hlb _ hwalk rfl
    simp only [walkLen, List.map_cons, List.map_nil, List.sum_cons, List.sum_nil] at this
    omega
  · intro cm0 h0 h1h h2h h12 hd h2d fuel hf
    exact ⟨_, _, _, hub_findRoute cm0 h0 hub e1 e2 d name h1h h2h h12 hd h2d fuel hf⟩

theorem hub_route_at_most_twice_witness :
    ∃ (N : Nat) (total : Int) (path : List Int) (lines : List Line) (cm1 : CampusMap),
      (∀ fuel, N ≤ fuel →
        findRoute fuel
          (build [.addMultiEntryDept 99 "Admin Block (Main)" [49, 50] 25,
            .addEdge 49 7 5, .addEdge 7 50 5]) 49 50 =
          some (.found total path lines, cm1)) ∧
      total ≤ 2 * 25 :=
  (hub_route_at_most_twice
    [.addMultiEntryDept 99 "Admin Block (Main)" [49, 50] 25, .addEdge 49 7 5, .addEdge 7 50 5]
    _ rfl (by decide) (by decide) 99 49 50 25 "Admin Block (Main)" (by decide)).1

/-- C8, as stated, fails: with internal distance `INF` (a non-negative `int`)
the hub is never relaxed, and the search between its two entrances ends in
No-Path-Found. -/
theorem hub_twice_counterexample :
    findRoute 5 (build [.addMultiEntryDept 99 "Admin Block (Main)" [49, 50] 2147483647]) 49 50 =
      some (.noPath, build [.addMultiEntryDept 99 "Admin Block (Main)" [49, 50] 2147483647]) := by
  decide

/-- C8, amended (hub traversal costs the internal distance twice): on a map
whose only edges come from `addMultiEntryDept(hub, name, {e1, e2}, d)` with
distinct `hub`, `e1`, `e2`, `0 <= d` and `2 * d < INF`, the search from `e1` to
`e2` (with fuel for three iterations) succeeds, reports the total `2 * d` along
the path `[e1, hub, e2]`, and leaves the adjacency map as it was. -/
theorem hub_route_twice (cm0 : CampusMap) (h0 : cm0.adj = []) (hub e1 e2 d : Int)
    (name : String) (h1h : e1 ≠ hub) (h2h : e2 ≠ hub) (h12 : e1 ≠ e2) (hd : 0 ≤ d)
    (h2d : 2 * d < INF) (fuel : Nat) (hf : 3 ≤ fuel) :
    ∃ (lines : List Line) (cm1 : CampusMap),
      findRoute fuel (cm0.addMultiEntryDept hub name [e1, e2] d) e1 e2 =
        some (.found (2 * d) [e1, hub, e2] lines, cm1) ∧
      cm1.adj = (cm0.addMultiEntryDept hub name [e1, e2] d).adj :=
  ⟨_, _, hub_findRoute cm0 h0 hub e1 e2 d name h1h h2h h12 hd h2d fuel hf, rfl⟩

theorem hub_route_twice_witness :
    (∃ (lines : List Line) (cm1 : CampusMap),
      findRoute 3 (CampusMap.empty.addMultiEntryDept 99 "Admin Block (Main)" [49, 50] 25) 49 50 =
        some (.found (2 * 25) [49, 99, 50] lines, cm1) ∧
      cm1.adj = (CampusMap.empty.addMultiEntryDept 99 "Admin Block (Main)" [49, 50] 25).adj) ∧
    (findRoute 3 (CampusMap.empty.addMultiEntryDept 99 "Admin Block (Main)" [49, 50] 25)
        49 50).map (fun r => r.1) =
      some (.found 50 [49, 99, 50] [.walkway 49, .weight 25, .arrived 99 "Path/Turn"]) :=
  ⟨hub_route_twice CampusMap.empty rfl 99 49 50 25 "Admin Block (Main)" (by decide) (by decide)
      (by decide) (by decide) (by decide) 3 (by decide),
    by decide⟩

/-- C11 (effect of `addMultiEntryDept`): after `addMultiEntryDept(hub, name,
entrances, d)` the name of `hub` is `name` and no other registry entry has
changed; every row is the old row followed, for each entrance `e` in order,
by `(e, d)` if the row is that of `hub` and by `(hub, d)` if the row is that of
`e`; so every entrance is joined with the hub in both directions, rows of other
nodes are unchanged, a row other than that of the hub gains nothing but
entries `(hub, d)` (no edge between two entrances), and the history is
untouched.  With the last argument omitted, `d` is `0`. -/
theorem addMultiEntryDept_effect (cm : CampusMap) (hub : Int) (name : String)
    (ents : List Int) (d : Int) :
    (cm.addMultiEntryDept hub name ents d).getLocationName hub = name ∧
    (∀ id, id ≠ hub →
      (cm.addMultiEntryDept hub name ents d).locationNames.find? id =
        cm.locationNames.find? id) ∧
    (∀ x, neighbors (cm.addMultiEntryDept hub name ents d).adj x =
      neighbors cm.adj x ++
        ents.flatMap (fun e => (if x = hub then [(e, d)] else []) ++
          (if x = e then [(hub, d)] else []))) ∧
    (∀ e ∈ ents, (e, d) ∈ neighbors (cm.addMultiEntryDept hub name ents d).adj hub ∧
      (hub, d) ∈ neighbors (cm.addMultiEntryDept hub name ents d).adj e) ∧
    (∀ x, x ≠ hub → x ∉ ents →
      neighbors (cm.addMultiEntryDept hub name ents d).adj x = neighbors cm.adj x) ∧
    (∀ x, x ≠ hub → ∀ entry ∈ neighbors (cm.addMultiEntryDept hub name ents d).adj x,
      entry ∈ neighbors cm.adj x ∨ entry = (hub, d)) ∧
    (cm.addMultiEntryDept hub name ents d).history = cm.history ∧
    cm.addMultiEntryDept hub name ents = cm.addMultiEntryDept hub name ents 0 := by
  have hn : ∀ x, neighbors (cm.addMultiEntryDept hub name ents d).adj x =
      neighbors cm.adj x ++
        ents.flatMap (fun e => (if x = hub then [(e, d)] else []) ++
          (if x = e then [(hub, d)] else [])) := by
    intro x
    unfold CampusMap.addMultiEntryDept
    rw [foldl_addEdge_neighbors]
    rfl
  refine ⟨?_, ?_, hn, ?_, ?_, ?_, ?_, rfl⟩
  · unfold CampusMap.getLocationName
    rw [addMultiEntryDept_names, IMap.find?_insert, if_pos rfl]
  · intro id hid
    rw [addMultiEntryDept_names, IMap.find?_insert, if_neg hid]
  · intro e he
    rw [hn, hn]
    constructor
    · apply List.mem_append_right
      rw [List.mem_flatMap]
      exact ⟨e, he, by simp⟩
    · apply List.mem_append_right
      rw [List.mem_flatMap]
      exact ⟨e, he, by simp⟩
  · intro x hx hxe
    rw [hn]
    have : ents.flatMap (fun e => (if x = hub then [(e, d)] else []) ++
        (if x = e then [(hub, d)] else [])) = [] := by
      rw [List.flatMap_eq_nil_iff]
      intro e he
      have hne : x ≠ e := fun h => hxe (h ▸ he)
      simp [hx, hne]
    rw [this, List.append_nil]
  · intro x hx entry he
    rw [hn] at he
    rcases List.mem_append.1 he with he | he
    · exact Or.inl he
    · right
      rw [List.mem_flatMap] at he
      obtain ⟨e, _, hm⟩ := he
      simp only [hx, if_false, List.nil_append] at hm
      split_ifs at hm
      · simpa using hm
      · simp at hm
  · exact applyOp_history cm (.addMultiEntryDept hub name ents d)

/-- C12 (the registry is a partial function with an unnamed default): after
any sequence of populating calls `getLocationName(id)` is the name most
recently registered for `id` (by `setLocationName` or through
`addMultiEntryDept`) and "Path/Turn" when none was; registering a name changes
the name of that node only; and a waypoint step of the itinerary is the
emphasised line with the name exactly when the name differs from "Path/Turn" and
the walkway line exactly when it is "Path/Turn", the waypoint steps of a
successful route being those of all path nodes but the last two. -/
theorem locationName_registry (ops : List BuildOp) (id : Int) :
    (build ops).getLocationName id = ((registeredNames ops id).getLast?).getD "Path/Turn" ∧
    (registeredNames ops id = [] → (build ops).getLocationName id = "Path/Turn") ∧
    (∀ (cm : CampusMap) (name : String) (id2 : Int),
      (cm.setLocationName id name).getLocationName id2 =
        if id2 = id then name else cm.getLocationName id2) ∧
    (∀ cm : CampusMap,
      (waypointLine cm id = .named id (cm.getLocationName id) ↔
        cm.getLocationName id ≠ "Path/Turn") ∧
      (waypointLine cm id = .walkway id ↔ cm.getLocationName id = "Path/Turn")) ∧
    (∀ (cm : CampusMap) (fuel : Nat) (start end_ total : Int) (path : List Int)
      (lines : List Line) (cm1 : CampusMap), cm.adj = (build ops).adj →
      findRoute fuel cm start end_ = some (.found total path lines, cm1) →
      2 ≤ path.length → path.length < 18446744073709551616 →
      (lines.filter (fun l => l.stepId.isSome && !l.isArrival)) =
        (path.dropLast.dropLast).map (waypointLine cm)) := by
  have h1 := getLocationName_build ops id
  refine ⟨h1, ?_, ?_, fun cm => waypointLine_iff cm id, ?_⟩
  · intro hnil
    rw [h1, hnil]
    rfl
  · intro cm name id2
    unfold CampusMap.getLocationName CampusMap.setLocationName
    simp only [IMap.find?_insert]
    by_cases h : id2 = id <;> simp [h]
  · intro cm fuel start end_ total path lines cm1 hcm hf h2 hlen
    have hk : NbrsAreKeys cm.adj := by rw [hcm]; exact (built_keys ops).1
    obtain ⟨_, _, hl, _⟩ := findRoute_found_inv cm hk fuel start end_ total path lines cm1 hf
    rw [hl, render_itinerary cm path hlen]
    obtain ⟨a, b, rest, rfl⟩ := exists_cons_cons path h2
    obtain ⟨_, _, front, x, y, h3, _, _, h6, _, h8⟩ := itinerary_shape cm rest a b
    rw [h3, List.filter_append, ← h8]
    have e1 : [Line.arrived x (cm.getLocationName y)].filter
        (fun l => l.stepId.isSome && !l.isArrival) = [] := rfl
    rw [e1, List.append_nil]
    apply List.filter_congr
    intro l hl
    rw [h6 l hl]
    simp

/-- C14 (itinerary shape): for a successful route on a built map whose path has
`n >= 2` nodes (`n` a `size_t`), the step lines of the itinerary are, in order,
those of the first `n - 1` path nodes, so there are `n - 1` of them and the
final node has none; the itinerary ends with the arrival line of the
second-to-last node, naming the final node, and no line before it is an
arrival line. -/
theorem itinerary_steps (ops : List BuildOp) (cm : CampusMap)
    (hcm : cm.adj = (build ops).adj) (fuel : Nat) (start end_ total : Int)
    (path : List Int) (lines : List Line) (cm1 : CampusMap)
    (hf : findRoute fuel cm start end_ = some (.found total path lines, cm1))
    (h2 : 2 ≤ path.length) (hlen : path.length < 18446744073709551616) :
    lines.filterMap Line.stepId = path.dropLast ∧
    (lines.filterMap Line.stepId).length = path.length - 1 ∧
    ∃ front x y, lines = front ++ [.arrived x (cm.getLocationName y)] ∧
      path.dropLast.getLast? = some x ∧ path.getLast? = some y ∧
      (∀ l ∈ front, l.isArrival = false) ∧
      front.filterMap Line.stepId = path.dropLast.dropLast := by
  have hk : NbrsAreKeys cm.adj := by rw [hcm]; exact (built_keys ops).1
  obtain ⟨_, _, hl, _⟩ := findRoute_found_inv cm hk fuel start end_ total path lines cm1 hf
  rw [hl, render_itinerary cm path hlen]
  obtain ⟨a, b, rest, rfl⟩ := exists_cons_cons path h2
  obtain ⟨h1, _, front, x, y, h3, h4, h5, h6, h7, _⟩ := itinerary_shape cm rest a b
  refine ⟨h1, ?_, front, x, y, h3, h4, h5, h6, h7⟩
  rw [h1, List.length_dropLast]

theorem itinerary_steps_witness :
    ([.walkway 1, .weight 20, .walkway 2, .weight 20, .arrived 3 "Path/Turn"] :
        List Line).filterMap Line.stepId = [1, 2, 3, 4].dropLast :=
  (itinerary_steps scenarioOps (build scenarioOps) rfl 10 1 4 100 [1, 2, 3, 4]
    [.walkway 1, .weight 20, .walkway 2, .weight 20, .arrived 3 "Path/Turn"]
    ⟨(build scenarioOps).adj, (build scenarioOps).locationNames,
      ⟨["Path/Turn -> Path/Turn"], [⟨"Path/Turn", "Path/Turn", 100⟩]⟩⟩
    (by decide) (by decide) (by decide)).1

/-- C15, as stated, fails: the route from 1 to 41 of the concrete scenario has
a path of two nodes, hence one consecutive pair, and its itinerary holds no
weight annotation at all. -/
theorem annotations_counterexample :
    ∃ (total : Int) (path : List Int) (lines : List Line) (cm1 : CampusMap),
      findRoute 10 (build scenarioOps) 1 41 = some (.found total path lines, cm1) ∧
      path.length - 1 = 1 ∧ (lines.filterMap Line.weightOf).length = 0 :=
  ⟨30, [1, 41], [.arrived 1 "Path/Turn"],
    ⟨(build scenarioOps).adj, (build scenarioOps).locationNames,
      ⟨["Path/Turn -> Path/Turn"], [⟨"Path/Turn", "Path/Turn", 30⟩]⟩⟩,
    by decide, rfl, rfl⟩

/-- C15, amended (which traversed edges are annotated): for a successful route
on a built map whose path has `n >= 2` nodes (`n` a `size_t`), the weight
annotations of the itinerary are, in order, the weights looked up for the first
`n - 2` consecutive pairs of path nodes, each found by scanning the row of the
earlier node for the later node; the last pair, whose earlier node gets the
arrival line, is not annotated. -/
theorem itinerary_annotations (ops : List BuildOp) (cm : CampusMap)
    (hcm : cm.adj = (build ops).adj) (fuel : Nat) (start end_ total : Int)
    (path : List Int) (lines : List Line) (cm1 : CampusMap)
    (hf : findRoute fuel cm start end_ = some (.found total path lines, cm1))
    (h2 : 2 ≤ path.length) (hlen : path.length < 18446744073709551616) :
    lines.filterMap Line.weightOf = (pairWeights cm.adj path).dropLast ∧
    (pairWeights cm.adj path).length = path.length - 1 ∧
    (lines.filterMap Line.weightOf).length = path.length - 2 := by
  have hk : NbrsAreKeys cm.adj := by rw [hcm]; exact (built_keys ops).1
  obtain ⟨_, _, hl, _⟩ := findRoute_found_inv cm hk fuel start end_ total path lines cm1 hf
  rw [hl, render_itinerary cm path hlen]
  obtain ⟨a, b, rest, rfl⟩ := exists_cons_cons path h2
  obtain ⟨_, h1, _⟩ := itinerary_shape cm rest a b
  refine ⟨h1, pairWeights_length _ _, ?_⟩
  rw [h1, List.length_dropLast, pairWeights_length]
  rfl

theorem itinerary_annotations_witness :
    ([.walkway 1, .weight 20, .walkway 2, .weight 20, .arrived 3 "Path/Turn"] :
        List Line).filterMap Line.weightOf =
      (pairWeights (build scenarioOps).adj [1, 2, 3, 4]).dropLast ∧
    pairWeights (build scenarioOps).adj [1, 2, 3, 4] = [20, 20, 60] :=
  ⟨(itinerary_annotations scenarioOps (build scenarioOps) rfl 10 1 4 100 [1, 2, 3, 4]
    [.walkway 1, .weight 20, .walkway 2, .weight 20, .arrived 3 "Path/Turn"]
    ⟨(build scenarioOps).adj, (build scenarioOps).locationNames,
      ⟨["Path/Turn -> Path/Turn"], [⟨"Path/Turn", "Path/Turn", 100⟩]⟩⟩
    (by decide) (by decide) (by decide)).1, by decide⟩

/-- C18 (parallel-edge annotation policy): the scan of a row for a node yields
the weight of the last entry for that node in the row; and after
`addEdge(1,2,5)`, `addEdge(1,2,9)`, `addEdge(2,3,1)` the route from 1 to 3 has
total 6 and path `[1, 2, 3]`, while the weight looked up (and printed) for the
step from 1 to 2 is 9, the lightest edge being 5: the looked-up weights 9 and 1
add up to 10, not to the reported total. -/
theorem parallel_edge_lookup :
    (∀ (row : List (Int × Int)) (next d : Int),
      scanWeight row next d = lastEntryWeight row next d) ∧
    findRoute 10 (build [.addEdge 1 2 5, .addEdge 1 2 9, .addEdge 2 3 1]) 1 3 =
      some (.found 6 [1, 2, 3] [.walkway 1, .weight 9, .arrived 2 "Path/Turn"],
        ⟨(build [.addEdge 1 2 5, .addEdge 1 2 9, .addEdge 2 3 1]).adj, [],
          ⟨["Path/Turn -> Path/Turn"], [⟨"Path/Turn", "Path/Turn", 6⟩]⟩⟩) ∧
    pairWeights (build [.addEdge 1 2 5, .addEdge 1 2 9, .addEdge 2 3 1]).adj [1, 2, 3] =
      [9, 1] ∧
    (pairWeights (build [.addEdge 1 2 5, .addEdge 1 2 9, .addEdge 2 3 1]).adj [1, 2, 3]).sum
      ≠ 6 ∧
    lightest (build [.addEdge 1 2 5, .addEdge 1 2 9, .addEdge 2 3 1]).adj 1 2 = 5 :=
  ⟨fun row next d => scanWeight_eq_last row next d, by decide, by decide, by decide,
    by decide⟩

/-- C19 (route from a node to itself): for every map and every key `s` of its
adjacency map, `findRoute(s, s)` (with fuel for one iteration) succeeds with
total 0 and the path `[s]`, prints no line of the itinerary, leaves the
adjacency map and the names as they were, and appends the record
(name of `s`, name of `s`, 0) to the history. -/
theorem findRoute_self (cm : CampusMap) (s : Int) (hs : s ∈ IMap.keys cm.adj)
    (fuel : Nat) (hf : 1 ≤ fuel) :
    ∃ cm1, findRoute fuel cm s s = some (.found 0 [s] [], cm1) ∧
      cm1.adj = cm.adj ∧ cm1.locationNames = cm.locationNames ∧
      cm1.history.fullHistory = cm.history.fullHistory ++
        [⟨cm.getLocationName s, cm.getLocationName s, 0⟩] ∧
      cm1.history.recentSearches =
        (cm.getLocationName s ++ " -> " ++ cm.getLocationName s) ::
          cm.history.recentSearches :=
  ⟨_, findRoute_self_eq cm s hs fuel hf, rfl, rfl, rfl, rfl⟩

theorem findRoute_self_witness :
    ∃ cm1, findRoute 1 (build scenarioOps) 3 3 = some (.found 0 [3] [], cm1) ∧
      cm1.adj = (build scenarioOps).adj ∧
      cm1.locationNames = (build scenarioOps).locationNames ∧
      cm1.history.fullHistory = (build scenarioOps).history.fullHistory ++
        [⟨(build scenarioOps).getLocationName 3, (build scenarioOps).getLocationName 3, 0⟩] ∧
      cm1.history.recentSearches =
        ((build scenarioOps).getLocationName 3 ++ " -> " ++
          (build scenarioOps).getLocationName 3) :: (build scenarioOps).history.recentSearches :=
  findRoute_self (build scenarioOps) 3 (by decide) 1 (by decide)

/-- C13 (distances are non-decreasing along the returned path): for every
successful `findRoute(start, end)` on a map built with non-negative weights of
sum below 2^30, the path begins with `start`, whose recorded distance is 0, ends
with `end`, whose recorded distance is the reported total, and the recorded
distance never decreases from a path node to the next. -/
theorem distances_nondecreasing (ops : List BuildOp) (cm : CampusMap)
    (hcm : cm.adj = (build ops).adj)
    (hw : ∀ w ∈ insertedWeights ops, 0 ≤ w)
    (hsum : (insertedWeights ops).sum < 1073741824)
    (fuel : Nat) (start end_ total : Int) (path : List Int) (lines : List Line)
    (cm1 : CampusMap)
    (hf : findRoute fuel cm start end_ = some (.found total path lines, cm1)) :
    ∃ r, mainLoop end_ fuel (initState cm.adj start) = some r ∧
      path.head? = some start ∧ path.getLast? = some end_ ∧
      distAt r.dist start = 0 ∧ distAt r.dist end_ = total ∧
      List.Chain' (fun a b => distAt r.dist a ≤ distAt r.dist b) path := by
  have hg : GoodGraph cm.adj := by rw [hcm]; exact goodGraph_built ops hw hsum
  obtain ⟨s0, r, S, lo, hm, _, _, hI, _, hdist, _, htot, _, _, _, hl⟩ :=
    findRoute_success_state cm hg start NoExtra (extStep_noExtra _ _) trivial fuel end_ total
      path lines cm1 hf
  obtain ⟨c1, _, _, _⟩ := schain_path cm.adj start S lo s0 hI end_ path hl
  obtain ⟨c2, c3⟩ := schain_dist_mono cm.adj hg start S _ lo s0 hI end_ path hl
  refine ⟨r, hm, c1, c2, ?_, ?_, ?_⟩
  · rw [hdist]; exact hI.dist_start
  · rw [hdist]; exact htot.symm
  · rw [hdist]; exact c3

theorem distances_nondecreasing_witness :
    ∃ r, mainLoop 4 10 (initState (build scenarioOps).adj 1) = some r ∧
      ([1, 2, 3, 4] : List Int).head? = some 1 ∧
      ([1, 2, 3, 4] : List Int).getLast? = some 4 ∧
      distAt r.dist 1 = 0 ∧ distAt r.dist 4 = 100 ∧
      List.Chain' (fun a b => distAt r.dist a ≤ distAt r.dist b) [1, 2, 3, 4] :=
  distances_nondecreasing scenarioOps (build scenarioOps) rfl (by decide) (by decide) 10 1 4 100
    [1, 2, 3, 4] [.walkway 1, .weight 20, .walkway 2, .weight 20, .arrived 3 "Path/Turn"]
    ⟨(build scenarioOps).adj, (build scenarioOps).locationNames,
      ⟨["Path/Turn -> Path/Turn"], [⟨"Path/Turn", "Path/Turn", 100⟩]⟩⟩
    (by decide)

/-- C16 (the predecessor walk is safe and terminates): on a map built with
non-negative weights of sum below 2^30, whenever the main loop returns with
`dist[end] != INF`, the reconstruction loop from `end` reaches `start` after
finitely many steps, every node it visits other than `start` has a recorded
predecessor, `start` has none, every node with a recorded predecessor is led
back to `start`, and the recorded links contain no cycle. -/
theorem predecessor_walk_safe (ops : List BuildOp) (cm : CampusMap)
    (hcm : cm.adj = (build ops).adj)
    (hw : ∀ w ∈ insertedWeights ops, 0 ≤ w)
    (hsum : (insertedWeights ops).sum < 1073741824)
    (start end_ : Int) (hs : start ∈ IMap.keys cm.adj) (he : end_ ∈ IMap.keys cm.adj)
    (fuel : Nat) (r : DState)
    (hm : mainLoop end_ fuel (initState cm.adj start) = some r)
    (hne : distAt r.dist end_ ≠ INF) :
    (∃ p, (∀ k, p.length ≤ k → walkBack r.parent start k end_ [] = some p) ∧
      (∀ v ∈ p, v ≠ start ∧ ∃ u, r.parent.find? v = some u)) ∧
    r.parent.find? start = none ∧
    (∀ v u, r.parent.find? v = some u →
      ∃ q, ∀ k, q.length ≤ k → walkBack r.parent start k v [] = some q) ∧
    (∀ v k, 0 < k →
      (∀ j, j < k → ∃ u, r.parent.find? ((parentAt r.parent)^[j] v) = some u) →
      (parentAt r.parent)^[k] v ≠ v) := by
  have hg : GoodGraph cm.adj := by rw [hcm]; exact goodGraph_built ops hw hsum
  obtain ⟨s0, ⟨hG, S, lo, hI, hx⟩, hd⟩ := mainLoop_inv_ext cm.adj hg start end_ hs
    (StartRoot start) (extStep_startRoot cm.adj hg start) rfl fuel r hm
  obtain ⟨hdist, hpar, _, _⟩ := iterate_done end_ s0 r hd
  rw [hpar]
  rw [hdist] at hne
  have hfin : distAt s0.dist end_ < INF := lt_of_le_of_ne (hG.range end_).2 hne
  have hlink : ∀ v u, s0.parent.find? v = some u →
      ∃ q, ∀ k, q.length ≤ k → walkBack s0.parent start k v [] = some q := by
    intro v u hvu
    obtain ⟨_, hSu, w, hwm, hdv⟩ := hI.parent_edge v u hvu
    have hov := settled_no_overflow cm.adj hg start S _ lo s0 hI u hSu _ hwm
    obtain ⟨l, hl⟩ := hI.chain v (hg.nbrs u _ hwm) (by rw [hdv]; exact hov)
    obtain ⟨q, hq, _⟩ := walkBack_of_chain s0.parent start S v l hl
    exact ⟨q, hq⟩
  refine ⟨?_, hx, hlink, ?_⟩
  · obtain ⟨l, hl⟩ := hI.chain end_ he hfin
    exact walkBack_of_chain s0.parent start S end_ l hl
  · intro v k hk hall hcyc
    obtain ⟨u, hu⟩ := hall 0 hk
    obtain ⟨q, hq⟩ := hlink v u hu
    obtain ⟨j, _, hj⟩ := walkBack_reaches s0.parent start q.length v [] q (hq _ (le_refl _))
    rw [iterate_cycle (parentAt s0.parent) v k hcyc j] at hj
    obtain ⟨u2, hu2⟩ := hall (j % k) (Nat.mod_lt j hk)
    rw [hj] at hu2
    have : s0.parent.find? start = none := hx
    rw [this] at hu2
    exact absurd hu2 (by simp)

theorem predecessor_walk_safe_witness :
    (∃ p, (∀ k, p.length ≤ k →
        walkBack (⟨(build scenarioOps).adj, [(1, 0), (2, 20), (3, 40), (4, 100), (41, 30)],
          [(2, 1), (3, 2), (4, 3), (41, 1)], []⟩ : DState).parent 1 k 4 [] = some p) ∧
      (∀ v ∈ p, v ≠ 1 ∧ ∃ u,
        (⟨(build scenarioOps).adj, [(1, 0), (2, 20), (3, 40), (4, 100), (41, 30)],
          [(2, 1), (3, 2), (4, 3), (41, 1)], []⟩ : DState).parent.find? v = some u)) :=
  (predecessor_walk_safe scenarioOps (build scenarioOps) rfl (by decide) (by decide) 1 4
    (by decide) (by decide) 10
    ⟨(build scenarioOps).adj, [(1, 0), (2, 20), (3, 40), (4, 100), (41, 30)],
      [(2, 1), (3, 2), (4, 3), (41, 1)], []⟩ (by decide) (by decide)).1

/-- C17 (early exit is equivalent to running to exhaustion): on a map built
with non-negative weights of sum below 2^30 and for valid `start` and `end`,
the main loop that breaks when `end` is popped non-stale and the variant
without that break both end, with the same `dist[end]` and, when that is not
`INF`, the same walk along the predecessors from `end` back to `start`; and
`findRoute` with either loop returns the same outcome, total, path and map. -/
theorem early_exit_equivalent (ops : List BuildOp) (cm : CampusMap)
    (hcm : cm.adj = (build ops).adj)
    (hw : ∀ w ∈ insertedWeights ops, 0 ≤ w)
    (hsum : (insertedWeights ops).sum < 1073741824)
    (start end_ : Int) (hs : start ∈ IMap.keys cm.adj) (he : end_ ∈ IMap.keys cm.adj) :
    ∃ (N : Nat) (r r1 : DState),
      (∀ fuel, N ≤ fuel →
        mainLoop end_ fuel (initState cm.adj start) = some r ∧
        mainLoopExhaust fuel (initState cm.adj start) = some r1 ∧
        ∃ out cm1, findRoute fuel cm start end_ = some (out, cm1) ∧
          findRouteExhaust fuel cm start end_ = some (out, cm1)) ∧
      distAt r.dist end_ = distAt r1.dist end_ ∧
      (distAt r.dist end_ ≠ INF → ∃ p, ∀ k, p.length ≤ k →
        walkBack r.parent start k end_ [] = some p ∧
        walkBack r1.parent start k end_ [] = some p) := by
  have hg : GoodGraph cm.adj := by rw [hcm]; exact goodGraph_built ops hw hsum
  obtain ⟨N, r, r1, p, hloops, hadj, hadj1, hdeq, hwalk⟩ :=
    exhaust_agrees cm.adj hg start end_ hs he
  refine ⟨N, r, r1, fun fuel hf => ?_, hdeq, fun hne => ⟨p, (hwalk hne).2⟩⟩
  obtain ⟨h1, h2⟩ := hloops fuel hf
  refine ⟨h1, h2, ?_⟩
  rw [findRoute_valid fuel cm start end_ hs he, findRouteExhaust_valid fuel cm start end_ hs he,
    h1, h2]
  simp only [← hdeq, hadj, hadj1]
  by_cases hinf : distAt r.dist end_ = INF
  · simp only [hinf, if_true]
    exact ⟨_, _, rfl, rfl⟩
  · obtain ⟨hlen, hk⟩ := hwalk hinf
    obtain ⟨w1, w2⟩ := hk fuel (by omega)
    simp only [hinf, if_false, w1, w2]
    exact ⟨_, _, rfl, rfl⟩

theorem early_exit_equivalent_witness :
    ∃ (N : Nat) (r r1 : DState),
      (∀ fuel, N ≤ fuel →
        mainLoop 2 fuel (initState (build scenarioOps).adj 1) = some r ∧
        mainLoopExhaust fuel (initState (build scenarioOps).adj 1) = some r1 ∧
        ∃ out cm1, findRoute fuel (build scenarioOps) 1 2 = some (out, cm1) ∧
          findRouteExhaust fuel (build scenarioOps) 1 2 = some (out, cm1)) ∧
      distAt r.dist 2 = distAt r1.dist 2 ∧
      (distAt r.dist 2 ≠ INF → ∃ p, ∀ k, p.length ≤ k →
        walkBack r.parent 1 k 2 [] = some p ∧
        walkBack r1.parent 1 k 2 [] = some p) :=
  early_exit_equivalent scenarioOps (build scenarioOps) rfl (by decide) (by decide) 1 2
    (by decide) (by decide)

/-- C20 (ties are broken by node identifier, so the reported path is fixed by
the graph): `pq.top()` is an entry of the frontier below which, in the
lexicographic order on (distance, node id), no entry lies; on a map built with
strictly positive weights of sum below 2^30, along the path of a successful
`findRoute` every node `v` after `start` has as recorded predecessor its path
predecessor `u`, `dist[u] + w = dist[v]` holds for an edge between them, and no
neighbour `u1` with `dist[u1] + w1 = dist[v]` has a smaller `(dist[u1], u1)`;
and on every map built from the same edges inserted in another order the call
reports the same total and the same path. -/
theorem ties_by_node_id (ops : List BuildOp) (cm : CampusMap)
    (hcm : cm.adj = (build ops).adj)
    (hw : ∀ w ∈ insertedWeights ops, 0 < w)
    (hsum : (insertedWeights ops).sum < 1073741824)
    (fuel : Nat) (start end_ total : Int) (path : List Int) (lines : List Line)
    (cm1 : CampusMap)
    (hf : findRoute fuel cm start end_ = some (.found total path lines, cm1)) :
    (∀ pq top, pqTop pq = some top → top ∈ pq ∧ ∀ e ∈ pq, pairLt e top = false) ∧
    (∃ r, mainLoop end_ fuel (initState cm.adj start) = some r ∧
      List.Chain' (fun u v => r.parent.find? v = some u ∧
        (∃ w, (v, w) ∈ neighbors cm.adj u ∧ distAt r.dist u + w = distAt r.dist v) ∧
        ∀ u1 w1, (v, w1) ∈ neighbors cm.adj u1 → distAt r.dist u1 + w1 = distAt r.dist v →
          pairLt (distAt r.dist u1, u1) (distAt r.dist u, u) = false) path) ∧
    (∀ ops1 cm2, cm2.adj = (build ops1).adj →
      (insertedEdges ops1).Perm (insertedEdges ops) →
      ∃ N, ∀ fuel1, N ≤ fuel1 → ∃ lines1 cm3,
        findRoute fuel1 cm2 start end_ = some (.found total path lines1, cm3)) := by
  have hg : GoodGraph cm.adj := by
    rw [hcm]; exact goodGraph_built ops (fun w h => le_of_lt (hw w h)) hsum
  have hp : PosWeights cm.adj := by rw [hcm]; exact posWeights_built ops hw
  obtain ⟨hs, he, _⟩ := findRoute_found_inv cm hg.nbrs fuel start end_ total path lines cm1 hf
  obtain ⟨s0, r, S, lo, hm, hd, hG, hI, hX, hdist, hpar, htot, hlt, _, _, hch⟩ :=
    findRoute_success_state cm hg start (TieInv cm.adj) (extStep_tie cm.adj hg hp start hs)
      (tieInv_init cm.adj start) fuel end_ total path lines cm1 hf
  have hset := settled_of_done cm.adj hg start end_ hs he S lo s0 r hG hI hX hd (htot ▸ hlt)
  rw [← hpar] at hch
  refine ⟨fun pq top h => ⟨pqTop_mem pq top h, pqTop_lex pq top h⟩,
    ⟨r, hm, (settled_path_least cm.adj hp start end_ S s0.pq r hset end_ path hch
      (Or.inr rfl)).2⟩, ?_⟩
  intro ops1 cm2 hcm2 hperm
  obtain ⟨hnb, hkeys, hwmem, hsumeq⟩ := perm_built ops ops1 hperm
  rw [← hcm, ← hcm2] at hnb hkeys
  have hg2 : GoodGraph cm2.adj := by
    rw [hcm2]
    exact goodGraph_built ops1 (fun w h => le_of_lt (hw w ((hwmem w).1 h)))
      (by rw [hsumeq]; exact hsum)
  have hp2 : PosWeights cm2.adj := by
    rw [hcm2]; exact posWeights_built ops1 (fun w h => hw w ((hwmem w).1 h))
  have hs2 := (hkeys start).1 hs
  have he2 := (hkeys end_).1 he
  obtain ⟨s2, r2, ⟨hG2, S2, lo2, hI2, hX2⟩, hd2, hrun2⟩ := mainLoop_final_ext cm2.adj hg2 start
    end_ hs2 (TieInv cm2.adj) (extStep_tie cm2.adj hg2 hp2 start hs2) (tieInv_init cm2.adj start)
  obtain ⟨hdist2, hpar2, _, hcase⟩ := iterate_done end_ s2 r2 hd2
  have hfin2 : distAt s2.dist end_ < INF := by
    obtain ⟨p, hp1, hp2, _⟩ := hset.attained end_ (Or.inr rfl)
    have hp1b := isWalk_congr cm.adj cm2.adj (fun u e => (hnb u e).1) p start hp1
    rcases walk_frontier cm2.adj hg2 start hs2 S2 lo2 s2 hI2 p hp1b with ⟨e, hmem, _⟩ | ⟨hS, _⟩
    · rcases hcase with ⟨hpq, _⟩ | ⟨top, htop, h2, _, _⟩
      · rw [hpq] at hmem
        exact absurd hmem (List.not_mem_nil e)
      · have := (hG2.pq_ok top (pqTop_mem s2.pq top htop)).2.2
        rw [h2] at this
        exact this
    · rw [hp2] at hS
      exact (hI2.settled end_ hS).2.1
  have hset2 := settled_of_done cm2.adj hg2 start end_ hs2 he2 S2 lo2 s2 r2 hG2 hI2 hX2 hd2 hfin2
  obtain ⟨l2, hl2⟩ := hI2.chain end_ he2 hfin2
  rw [← hpar2] at hl2
  have hpath : path = l2 := settled_chain_eq cm.adj cm2.adj hp hp2 start end_ S S2 s0.pq s2.pq
    r r2 hset hset2 hnb end_ path hch (Or.inr rfl) (Or.inr rfl) l2 hl2
  have htotal := settled_dist_eq cm.adj cm2.adj start end_ S S2 s0.pq s2.pq r r2 hset hset2 hnb
    end_ (Or.inr rfl) (Or.inr rfl)
  refine ⟨max (loopMeasure cm2.adj (initState cm2.adj start) + 1) l2.length, fun fuel1 hf1 => ?_⟩
  obtain ⟨lines1, cm3, h⟩ := findRoute_of_chain cm2 start end_ hs2 he2 fuel1 r2 S2 l2
    (hrun2 fuel1 (by omega)) (by rw [hdist2]; exact ne_of_lt hfin2) hl2 (by omega)
  refine ⟨lines1, cm3, ?_⟩
  rw [h, ← hpath, ← htotal, hdist, ← htot]

theorem ties_by_node_id_witness :
    (∃ r, mainLoop 4 10 (initState (build tieOps).adj 1) = some r ∧
      List.Chain' (fun u v => r.parent.find? v = some u ∧
        (∃ w, (v, w) ∈ neighbors (build tieOps).adj u ∧
          distAt r.dist u + w = distAt r.dist v) ∧
        ∀ u1 w1, (v, w1) ∈ neighbors (build tieOps).adj u1 →
          distAt r.dist u1 + w1 = distAt r.dist v →
          pairLt (distAt r.dist u1, u1) (distAt r.dist u, u) = false) [1, 2, 4]) ∧
    (∀ ops1 cm2, cm2.adj = (build ops1).adj →
      (insertedEdges ops1).Perm (insertedEdges tieOps) →
      ∃ N, ∀ fuel1, N ≤ fuel1 → ∃ lines1 cm3,
        findRoute fuel1 cm2 1 4 = some (.found 20 [1, 2, 4] lines1, cm3)) :=
  (ties_by_node_id tieOps (build tieOps) rfl (by decide) (by decide) 10 1 4 20 [1, 2, 4]
    [.walkway 1, .weight 10, .arrived 2 "Path/Turn"]
    ⟨(build tieOps).adj, [], ⟨["Path/Turn -> Path/Turn"], [⟨"Path/Turn", "Path/Turn", 20⟩]⟩⟩
    (by decide)).2

end AUNav
